import Mathlib

/-!
# The `ql_inout` pass (ql-qlf-plugin/passes/ql_inout.cc)

A shallow embedding of `QL_inoutPass::execute` together with the parts of the
RTLIL kernel it calls, and the properties of the pass that are proved about it.

## Conventions of the embedding

* A `Wire *` is a handle: the position of the wire in the wire table of its
  module.  Wires are only ever appended to the table or updated in place, so a
  handle stays valid while the pass runs, exactly like the pointer.
* A `SigSpec` is its sequence of bits (least significant bit first); the packed
  chunk form is recomputed where the kernel prints a signal.
* A kernel call that stops the program (a failed `log_assert`, a `log_error`, an
  exception that nobody catches) makes the embedding return `Except.error`.
* `Module::fixup_ports` only renumbers `port_id`, which is not part of the
  embedding; memories and processes of a module are not part of it either.
-/

namespace QLInout

/-! ## Data model (RTLIL) -/

/-- The per-bit logic values of `RTLIL::State`. -/
inductive State where
  | S0 | S1 | Sx | Sz | Sa | Sm
  deriving DecidableEq

/-- One bit of a signal (`RTLIL::SigBit`): bit `offset` of the wire with handle
`w`, or a constant. -/
inductive SigBit where
  | wire (w : Nat) (offset : Nat)
  | const (data : State)
  deriving DecidableEq

/-- A signal expression (`RTLIL::SigSpec`), least significant bit first. -/
abbrev SigSpec := List SigBit

/-- A connection (`RTLIL::SigSig`): `first` is the target, `second` the source. -/
abbrev SigSig := SigSpec × SigSpec

/-- The fields of `RTLIL::Wire` that the pass reads or writes. -/
structure Wire where
  name : String
  width : Nat
  start_offset : Int
  port_input : Bool
  port_output : Bool
  deriving DecidableEq

/-- A cell (`RTLIL::Cell`): its name, its type and its port bindings. -/
structure Cell where
  name : String
  type : String
  connections : List (String × SigSpec)
  deriving DecidableEq

/-- A module (`RTLIL::Module`): wire table, cells and the ordered connection
list.  `wires` is listed in the order in which `module->wires()` enumerates the
wires when the pass starts on the module. -/
structure Module where
  name : String
  wires : List Wire
  cells : List Cell
  connections : List SigSig
  deriving DecidableEq

/-- The selected modules of a design, in the order of
`design->selected_modules()`. -/
abbrev Design := List Module

/-- The ways in which a kernel call made by the pass stops the program. -/
inductive Err where
  /-- `IdString::get_reference`: `log_assert(p[0] == '$' || p[0] == '\\')`,
  `log_assert(p[1] != 0)`, or the `log_error` on a blank or control character. -/
  | bad_identifier
  /-- `Module::add(Wire*)`: `log_assert(!wire->name.empty())` or
  `log_assert(count_id(wire->name) == 0)`. -/
  | name_in_use
  /-- `SigSpec::as_wire`: `log_assert(is_wire())`. -/
  | not_a_wire
  /-- `Cell::getPort`: `connections_.at(portname)` throws `std::out_of_range`. -/
  | no_such_port
  /-- `SigMap::add`: `log_assert(GetSize(from) == GetSize(to))`. -/
  | width_mismatch
  deriving DecidableEq

/-- The transient record of ql_inout.cc, lines 28-39. -/
structure InoutPortInfo where
  inoutWireName : String
  newOutPort : Nat
  newEnablePort : Nat
  inoutConnSigName : List String
  deriving DecidableEq

/-! ## The RTLIL kernel calls used by the pass -/

/-- The wire behind a handle. -/
def Module.wire (m : Module) (w : Nat) : Wire :=
  m.wires.getD w { name := "", width := 0, start_offset := 0,
                   port_input := false, port_output := false }

/-- Update of the element at one position of a list (a write through a pointer). -/
def modifyAt {α : Type} (f : α → α) : Nat → List α → List α
  | _, [] => []
  | 0, a :: as => f a :: as
  | n + 1, a :: as => a :: modifyAt f n as

/-- The list without the element at one position. -/
def dropAt {α : Type} : Nat → List α → List α
  | _, [] => []
  | 0, _ :: as => as
  | n + 1, a :: as => a :: dropAt n as

/-- A write to fields of the wire behind a handle. -/
def Module.modifyWire (m : Module) (w : Nat) (f : Wire → Wire) : Module :=
  { m with wires := modifyAt f w m.wires }

/-- `IdString::get_reference` (kernel/rtlil.h), called whenever a string is
turned into an `RTLIL::IdString`: the empty string is the empty identifier; any
other string has to start with `$` or a backslash, have a second character, and
contain no blank or control character. -/
def IdString.get_reference (p : String) : Except Err String :=
  match p.data with
  | [] => .ok p
  | c :: rest =>
    if c ≠ '$' ∧ c ≠ '\\' then .error .bad_identifier
    else if rest = [] then .error .bad_identifier
    else if p.data.any (fun ch => decide (ch.toNat ≤ 32)) then .error .bad_identifier
    else .ok p

/-- `Module::count_id` restricted to wires and cells. -/
def Module.count_id (m : Module) (id : String) : Nat :=
  (m.wires.filter (fun w => decide (w.name = id))).length
    + (m.cells.filter (fun c => decide (c.name = id))).length

/-- `Module::addWire(IdString name, const Wire *other)`: a new wire that copies
`other` under the name `name`; returns the module and the handle of the new wire. -/
def Module.addWire (m : Module) (name : String) (other : Wire) :
    Except Err (Module × Nat) :=
  match IdString.get_reference name with
  | .error e => .error e
  | .ok name =>
    if name = "" then .error .name_in_use
    else if m.count_id name ≠ 0 then .error .name_in_use
    else .ok ({ m with wires := m.wires ++ [{ other with name := name }] }, m.wires.length)

/-- `Module::rename(Wire *wire, IdString new_name)`: the wire is taken out of the
table, gets its new name, and is added again (`Module::add`). -/
def Module.rename (m : Module) (wire : Nat) (new_name : String) : Except Err Module :=
  match IdString.get_reference new_name with
  | .error e => .error e
  | .ok new_name =>
    if new_name = "" then .error .name_in_use
    else if ({ m with wires := dropAt wire m.wires }).count_id new_name ≠ 0 then
      .error .name_in_use
    else .ok (m.modifyWire wire (fun w => { w with name := new_name }))

/-- `SigSpec(Wire *wire)`: all bits of the wire. -/
def SigSpec.ofWire (m : Module) (w : Nat) : SigSpec :=
  (List.range (m.wire w).width).map (fun i => SigBit.wire w i)

/-- `SigSpec::is_wire`: the packed signal is one chunk of one wire and is as wide
as that wire. -/
def SigSpec.is_wire (m : Module) (sig : SigSpec) : Bool :=
  match sig with
  | SigBit.wire w off :: _ =>
    decide (sig = (List.range sig.length).map (fun i => SigBit.wire w (off + i)))
      && decide (w < m.wires.length) && decide ((m.wire w).width = sig.length)
  | _ => false

/-- `SigSpec::as_wire`: `log_assert(is_wire()); return chunks_[0].wire;`. -/
def SigSpec.as_wire (m : Module) (sig : SigSpec) : Except Err Nat :=
  match sig with
  | SigBit.wire w _ :: _ => if SigSpec.is_wire m sig then .ok w else .error .not_a_wire
  | _ => .error .not_a_wire

/-- `Cell::getPort`. -/
def Cell.getPort (c : Cell) (portname : String) : Except Err SigSpec :=
  match c.connections.find? (fun p => decide (p.1 = portname)) with
  | some p => .ok p.2
  | none => .error .no_such_port

/-! ### Printing a signal (`log_signal`) -/

/-- A chunk of a packed signal (`RTLIL::SigChunk`). -/
inductive SigChunk where
  | wire (w : Nat) (offset : Nat) (width : Nat)
  | const (data : List State)
  deriving DecidableEq

/-- The round of the loop of `SigSpec::pack` for the bit `b`, when `cs` are the
chunks of the bits that follow it: a constant bit joins a constant chunk, and a
wire bit joins the chunk of the same wire that starts at the next offset. -/
def SigSpec.pack_bit (b : SigBit) (cs : List SigChunk) : List SigChunk :=
  match b, cs with
  | .const s, .const data :: cs => .const (s :: data) :: cs
  | .const s, cs => .const [s] :: cs
  | .wire w o, .wire w2 o2 n :: cs =>
    if w = w2 ∧ o + 1 = o2 then .wire w o (n + 1) :: cs
    else .wire w o 1 :: .wire w2 o2 n :: cs
  | .wire w o, cs => .wire w o 1 :: cs

/-- `SigSpec::pack`: neighbouring constant bits form one chunk, and so do
neighbouring bits of one wire with consecutive offsets. -/
def SigSpec.pack : SigSpec → List SigChunk
  | [] => []
  | b :: rest => SigSpec.pack_bit b (SigSpec.pack rest)

/-- The character the RTLIL backend prints for a constant bit. -/
def State.toChar : State → Char
  | .S0 => '0' | .S1 => '1' | .Sx => 'x' | .Sz => 'z' | .Sa => '-' | .Sm => 'm'

/-- The value of a constant whose bits are all 0 or 1. -/
def constValue : List State → Nat
  | [] => 0
  | s :: rest => (if s = State.S1 then 1 else 0) + 2 * constValue rest

/-- `RTLIL_BACKEND::dump_const` for the bits of a chunk: a 32-bit constant with a
non-negative value is printed in decimal when `autoint` is set, any other one as
`<width>'<bits>` with the most significant bit first. -/
def dump_const (data : List State) ( autoint : Bool) : String :=
  if autoint ∧ data.length = 32 ∧ data.all (fun s => decide (s = State.S0 ∨ s = State.S1))
      ∧ data.getLast? ≠ some State.S1 then
    toString (constValue data)
  else
    toString data.length ++ "'" ++ String.mk (data.reverse.map State.toChar)

/-- `RTLIL_BACKEND::dump_sigchunk`. -/
def dump_sigchunk (m : Module) (c : SigChunk) ( autoint : Bool) : String :=
  match c with
  | .const data => dump_const data autoint
  | .wire w offset width =>
    if width = (m.wire w).width ∧ offset = 0 then (m.wire w).name
    else if width = 1 then (m.wire w).name ++ " [" ++ toString offset ++ "]"
    else (m.wire w).name ++ " [" ++ toString (offset + width - 1) ++ ":"
           ++ toString offset ++ "]"

/-- `log_signal(sig)` (that is `RTLIL_BACKEND::dump_sigspec` with `autoint` set):
a single chunk is printed as it is, anything else as `{ chunk ... chunk }` with
the most significant chunk first. -/
def log_signal (m : Module) (sig : SigSpec) : String :=
  match SigSpec.pack sig with
  | [c] => dump_sigchunk m c true
  | cs => "\x7b " ++ (cs.reverse.map (fun c => dump_sigchunk m c false ++ " ")).foldl
            (fun acc s => acc ++ s) "" ++ "\x7d"

/-! ### The signal alias map (`SigMap`, kernel/sigtools.h) -/

/-- A `SigMap`, given by the function that takes a bit to the representative of
its class (`mfp::find`); a bit that was never entered is its own representative. -/
abbrev SigMap := SigBit → SigBit

/-- The `SigMap` a default constructor builds: no bit was entered. -/
def SigMap.empty : SigMap := fun b => b

/-- `mfp::imerge`: the class of `a` joins the class of `b` and takes its root. -/
def SigMap.imerge (sm : SigMap) (a b : SigBit) : SigMap :=
  fun x => if sm x = sm a then sm b else sm x

/-- `mfp::ipromote`: `a` becomes the root of its class. -/
def SigMap.ipromote (sm : SigMap) (a : SigBit) : SigMap :=
  fun x => if sm x = sm a then a else sm x

/-- One round of the loop of `SigMap::add`, for the bit pair `(bf, bt)`. -/
def SigMap.add_bit (sm : SigMap) (bf bt : SigBit) : SigMap :=
  match bf, bt with
  | .const _, .const _ => sm
  | .wire _ _, .wire _ _ => sm.imerge bf bt
  | .const _, .wire _ _ => (sm.imerge bf bt).ipromote bf
  | .wire _ _, .const _ => (sm.imerge bf bt).ipromote bt

/-- The loop of `SigMap::add` over the bits of the two signals. -/
def SigMap.add_bits (sm : SigMap) : List (SigBit × SigBit) → SigMap
  | [] => sm
  | (bf, bt) :: rest => SigMap.add_bits (sm.add_bit bf bt) rest

/-- `SigMap::add(from, to)`; it asserts that both signals have the same size. -/
def SigMap.add (sm : SigMap) (sigFrom sigTo : SigSpec) : Except Err SigMap :=
  if sigFrom.length = sigTo.length then .ok (sm.add_bits (sigFrom.zip sigTo))
  else .error .width_mismatch

/-- The loop of `SigMap::set` over the connections of the module. -/
def SigMap.add_connections (sm : SigMap) : List SigSig → Except Err SigMap
  | [] => .ok sm
  | c :: rest =>
    match SigMap.add sm c.1 c.2 with
    | .error e => .error e
    | .ok sm2 => SigMap.add_connections sm2 rest

/-- `SigMap sigmap(module)` (ql_inout.cc, line 64). -/
def SigMap.ofModule (m : Module) : Except Err SigMap :=
  SigMap.add_connections SigMap.empty m.connections

/-- `sigmap(sig)`: every bit is replaced by its representative. -/
def SigMap.apply (sm : SigMap) (sig : SigSpec) : SigSpec := sig.map sm

/-- The member `SigMap assign_map` (ql_inout.cc, line 51): it is default
constructed and the pass never enters a connection into it. -/
def assign_map : SigMap := SigMap.empty

/-! ### The two `std::map`s of the pass -/

/-- `std::map::find`. -/
def map_find {β : Type} (k : String) : List (String × β) → Option β
  | [] => none
  | (k2, v) :: rest => if k2 = k then some v else map_find k rest

/-- `std::map::emplace`: nothing happens when the key is already present. -/
def map_emplace {β : Type} (k : String) (v : β) (mp : List (String × β)) :
    List (String × β) :=
  match map_find k mp with
  | some _ => mp
  | none => mp ++ [(k, v)]

/-- A write through the reference `pos->second` into the entry with key `k`. -/
def map_update {β : Type} (k : String) (f : β → β) : List (String × β) → List (String × β)
  | [] => []
  | (k2, v) :: rest => if k2 = k then (k2, f v) :: rest else (k2, v) :: map_update k f rest

/-! ## The pass: `QL_inoutPass::execute` -/

/-- Lines 69-75: the handles of the wires with `port_input && port_output`, in
the order of `module->wires()`; `idx` is the handle of the head of the list. -/
def find_inout_wires : Nat → List Wire → List Nat
  | _, [] => []
  | idx, w :: rest =>
    if w.port_input && w.port_output then idx :: find_inout_wires (idx + 1) rest
    else find_inout_wires (idx + 1) rest

/-- Lines 81-97, the body of the first loop over `inoutWireVec`: the wires
`<name>_$out` and `<name>_$en` are added as copies of the inout wire and made
output-only, and the record of the wire is entered into `inoutMap`. -/
def add_ports_for (m : Module) (inoutMap : List (String × InoutPortInfo)) (wire : Nat) :
    Except Err (Module × List (String × InoutPortInfo)) :=
  let currWireName := (m.wire wire).name
  let wireOutName := currWireName ++ "_$out"
  let wireEnName := currWireName ++ "_$en"
  match m.addWire wireOutName (m.wire wire) with
  | .error e => .error e
  | .ok (m1, outWire) =>
    let m2 := m1.modifyWire outWire (fun w => { w with port_output := true, port_input := false })
    match m2.addWire wireEnName (m2.wire wire) with
    | .error e => .error e
    | .ok (m3, enWire) =>
      let m4 := m3.modifyWire enWire (fun w => { w with port_output := true, port_input := false })
      let obj : InoutPortInfo :=
        { inoutWireName := currWireName, newOutPort := outWire, newEnablePort := enWire,
          inoutConnSigName := [] }
      .ok (m4, map_emplace currWireName obj inoutMap)

/-- Lines 77-98: the first loop over `inoutWireVec`. -/
def add_ports (m : Module) (inoutMap : List (String × InoutPortInfo)) :
    List Nat → Except Err (Module × List (String × InoutPortInfo))
  | [] => .ok (m, inoutMap)
  | wire :: rest =>
    match add_ports_for m inoutMap wire with
    | .error e => .error e
    | .ok (m2, inoutMap2) => add_ports m2 inoutMap2 rest

/-- Lines 104-113: for every connection whose printed target is a key of
`inoutMap`, the printed source is pushed onto `inoutConnSigName` of that entry.
(`connSigInoutMap` is filled here too, but nothing ever reads it.) -/
def gather_connections (m : Module) (inoutMap : List (String × InoutPortInfo)) :
    List SigSig → List (String × InoutPortInfo)
  | [] => inoutMap
  | connection :: rest =>
    let wireName := log_signal m connection.1
    match map_find wireName inoutMap with
    | some _ =>
      gather_connections m
        (map_update wireName
          (fun obj => { obj with
            inoutConnSigName := obj.inoutConnSigName ++ [log_signal m connection.2] })
          inoutMap)
        rest
    | none => gather_connections m inoutMap rest

/-- `cell->type.in(ID($mux), ID($pmux), ID($_MUX_), ID($_TBUF_), ID($tribuf))`. -/
def is_mux_or_tribuf_type (type : String) : Bool :=
  type = "$mux" || type = "$pmux" || type = "$_MUX_" || type = "$_TBUF_" || type = "$tribuf"

/-- `cell->type.in(ID($_TBUF_), ID($tribuf))`. -/
def is_tribuf_type (type : String) : Bool :=
  type = "$_TBUF_" || type = "$tribuf"

/-- Lines 127-133: some bit of port `A` or `B` is, after `sigmap`, `State::Sz`. -/
def has_z_data_input (sigmap : SigMap) (cell : Cell) : Bool :=
  cell.connections.any (fun c =>
    (c.1 = "\\A" || c.1 = "\\B") &&
      (sigmap.apply c.2).any (fun b => decide (b = SigBit.const State.Sz)))

/-- Lines 123-142, the body of the loop over the connections of one cell, for
the connection with port name `portName`. -/
def scan_cell_connection (m : Module) (sigmap : SigMap) (cell : Cell)
    (enSigMap : List (String × SigSpec)) (portName : String) :
    Except Err (List (String × SigSpec)) :=
  if portName = "\\Y" && is_mux_or_tribuf_type cell.type then
    let tribuf := is_tribuf_type cell.type || has_z_data_input sigmap cell
    if tribuf then
      match cell.getPort "\\S" with
      | .error e => .error e
      | .ok s =>
        let sig_s := assign_map.apply s
        match cell.getPort "\\Y" with
        | .error e => .error e
        | .ok y =>
          let sig_y := assign_map.apply y
          match IdString.get_reference (log_signal m sig_y) with
          | .error e => .error e
          | .ok key => .ok (map_emplace key sig_s enSigMap)
    else .ok enSigMap
  else .ok enSigMap

/-- Lines 121-143: the loop over the connections of one cell. -/
def scan_cell (m : Module) (sigmap : SigMap) (cell : Cell)
    (enSigMap : List (String × SigSpec)) :
    List (String × SigSpec) → Except Err (List (String × SigSpec))
  | [] => .ok enSigMap
  | conn :: rest =>
    match scan_cell_connection m sigmap cell enSigMap conn.1 with
    | .error e => .error e
    | .ok enSigMap2 => scan_cell m sigmap cell enSigMap2 rest

/-- Lines 115-144: the loop over the cells of the module, which fills `enSigMap`. -/
def find_enables (m : Module) (sigmap : SigMap) (enSigMap : List (String × SigSpec)) :
    List Cell → Except Err (List (String × SigSpec))
  | [] => .ok enSigMap
  | cell :: rest =>
    match scan_cell m sigmap cell enSigMap cell.connections with
    | .error e => .error e
    | .ok enSigMap2 => find_enables m sigmap enSigMap2 rest

/-- Lines 161-174, the body of the loop over the connections, for the connection
`currConn`; `pos` is the result of `inoutMap.find(currWire)`. -/
def rewrite_connection (m : Module) (currWire : String) (pos : Option InoutPortInfo)
    (new_connections : List SigSig) (currConn : SigSig) : Except Err (List SigSig) :=
  match SigSpec.as_wire m currConn.1 with
  | .error e => .error e
  | .ok target =>
    if (m.wire target).name = currWire then
      match pos with
      | some currInoutObj =>
        .ok (new_connections ++ [(SigSpec.ofWire m currInoutObj.newOutPort, currConn.2)])
      | none => .ok new_connections
    else
      .ok (new_connections ++ [(currConn.1, currConn.2)])

/-- Lines 160-175: the loop over the connections that rebuilds the list for the
wire named `currWire`. -/
def rewrite_connections (m : Module) (currWire : String) (pos : Option InoutPortInfo)
    (new_connections : List SigSig) : List SigSig → Except Err (List SigSig)
  | [] => .ok new_connections
  | currConn :: rest =>
    match rewrite_connection m currWire pos new_connections currConn with
    | .error e => .error e
    | .ok new_connections2 => rewrite_connections m currWire pos new_connections2 rest

/-- Lines 187-190: `sig_en` starts as `assign_map(connSig)` and gets
`assign_map(connSig)` appended once per round of the loop. -/
def replicate_enable (connSig : SigSpec) : Nat → SigSpec → SigSpec
  | 0, sig_en => sig_en
  | n + 1, sig_en => replicate_enable connSig n (sig_en ++ assign_map.apply connSig)

/-- Lines 185-190: the source of the enable connection for `wire` and the
matched signal `connSig`.  The `int` arithmetic of line 188 is done on unbounded
integers: widths and offsets of a design are far below `2^31`. -/
def enable_source (wire : Wire) (connSig : SigSpec) : SigSpec :=
  replicate_enable connSig (Int.natAbs ((wire.width : Int) - wire.start_offset - 1))
    (assign_map.apply connSig)

/-- Lines 182-200: the loop over the recorded signal names of the wire. -/
def add_enable_connections (m : Module) (wire : Nat) (currInoutObj : InoutPortInfo)
    (enSigMap : List (String × SigSpec)) (new_connections : List SigSig) :
    List String → Except Err (List SigSig)
  | [] => .ok new_connections
  | sigName :: rest =>
    match IdString.get_reference sigName with
    | .error e => .error e
    | .ok key =>
      match map_find key enSigMap with
      | some connSig =>
        let sig_en := enable_source (m.wire wire) connSig
        add_enable_connections m wire currInoutObj enSigMap
          (new_connections ++
            [(assign_map.apply (SigSpec.ofWire m currInoutObj.newEnablePort), sig_en)])
          rest
      | none => add_enable_connections m wire currInoutObj enSigMap new_connections rest

/-- Lines 152-205, the body of the second loop over `inoutWireVec`. -/
def rewrite_port (m : Module) (inoutMap : List (String × InoutPortInfo))
    (enSigMap : List (String × SigSpec)) (wire : Nat) : Except Err Module :=
  let currWire := (m.wire wire).name
  let pos := map_find currWire inoutMap
  match rewrite_connections m currWire pos [] m.connections with
  | .error e => .error e
  | .ok new_connections =>
    match pos with
    | none => .ok m
    | some currInoutObj =>
      match add_enable_connections m wire currInoutObj enSigMap new_connections
              currInoutObj.inoutConnSigName with
      | .error e => .error e
      | .ok new_connections2 =>
        let m1 := { m with connections := new_connections2 }
        let wireInName := currWire ++ "_$in"
        let m2 := m1.modifyWire wire (fun w => { w with port_output := false })
        m2.rename wire wireInName

/-- Lines 148-206: the second loop over `inoutWireVec`. -/
def rewrite_ports (inoutMap : List (String × InoutPortInfo))
    (enSigMap : List (String × SigSpec)) : Module → List Nat → Except Err Module
  | m, [] => .ok m
  | m, wire :: rest =>
    match rewrite_port m inoutMap enSigMap wire with
    | .error e => .error e
    | .ok m2 => rewrite_ports inoutMap enSigMap m2 rest

/-- Lines 64-208: the body of the loop over the selected modules. -/
def ql_inout_module (m : Module) : Except Err Module :=
  match SigMap.ofModule m with
  | .error e => .error e
  | .ok sigmap =>
    let inoutWireVec := find_inout_wires 0 m.wires
    match add_ports m [] inoutWireVec with
    | .error e => .error e
    | .ok (m1, inoutMap) =>
      let inoutMap2 := gather_connections m1 inoutMap m1.connections
      match find_enables m1 sigmap [] m1.cells with
      | .error e => .error e
      | .ok enSigMap => rewrite_ports inoutMap2 enSigMap m1 inoutWireVec

/-- Lines 63-209: one run of the loop over the selected modules. -/
def execute_modules : List Module → Except Err (List Module)
  | [] => .ok []
  | m :: rest =>
    match ql_inout_module m with
    | .error e => .error e
    | .ok m2 =>
      match execute_modules rest with
      | .error e => .error e
      | .ok rest2 => .ok (m2 :: rest2)

/-- Lines 58-210: `while (keep_running) { keep_running = false; ... }`.  `none`
means that `fuel` rounds were not enough to leave the loop. -/
def execute_loop : Nat → Bool → Design → Option (Except Err Design)
  | 0, _, _ => none
  | fuel + 1, keep_running, design =>
    if keep_running then
      let keep_running := false
      match execute_modules design with
      | .error e => some (.error e)
      | .ok design2 => execute_loop fuel keep_running design2
    else some (.ok design)

/-- `QL_inoutPass::execute` on the selected modules of a design. -/
def execute (fuel : Nat) (design : Design) : Option (Except Err Design) :=
  execute_loop fuel true design

/-! ## Auxiliary definitions used in the statements -/

/-- The wire `<name>_$out` that lines 85-89 create for the inout wire `w`. -/
def out_wire_of (w : Wire) : Wire :=
  { w with name := w.name ++ "_$out", port_output := true, port_input := false }

/-- The wire `<name>_$en` that lines 90-94 create for the inout wire `w`. -/
def en_wire_of (w : Wire) : Wire :=
  { w with name := w.name ++ "_$en", port_output := true, port_input := false }

/-- What lines 203-205 make of the inout wire `w`. -/
def in_wire_of (w : Wire) : Wire :=
  { w with name := w.name ++ "_$in", port_output := false }

/-- The wires that the first loop appends to the wire table, for the inout
handles `vec`. -/
def new_wires (m : Module) : List Nat → List Wire
  | [] => []
  | j :: vec => out_wire_of (m.wire j) :: en_wire_of (m.wire j) :: new_wires m vec

/-- The entries that the first loop enters into `inoutMap`, for the inout
handles `vec`, when the next free handle is `base`. -/
def new_map (m : Module) : Nat → List Nat → List (String × InoutPortInfo)
  | _, [] => []
  | base, j :: vec =>
    ((m.wire j).name,
      { inoutWireName := (m.wire j).name, newOutPort := base, newEnablePort := base + 1,
        inoutConnSigName := [] }) :: new_map m (base + 2) vec

/-- The printed sources of the connections whose printed target is `k`, in the
order of the connection list: what lines 104-113 record under the key `k`. -/
def bound_signal_names (m : Module) (k : String) (conns : List SigSig) : List String :=
  (conns.filter (fun c => decide (log_signal m c.1 = k))).map (fun c => log_signal m c.2)

/-- What lines 160-175 make of one connection while the wire named `currWire`
is processed and `out` is its new output port. -/
def rewrite_target (m : Module) (currWire : String) (out : Nat) (c : SigSig) : SigSig :=
  match SigSpec.as_wire m c.1 with
  | .ok t => if (m.wire t).name = currWire then (SigSpec.ofWire m out, c.2) else c
  | .error _ => c

/-- The connections that lines 182-200 append for the inout wire `wire` with
enable port `enPort`, given the recorded signal names. -/
def enable_connections (m : Module) (wire enPort : Nat) (enSigMap : List (String × SigSpec))
    (names : List String) : List SigSig :=
  names.filterMap (fun s =>
    (map_find s enSigMap).map (fun sig =>
      (SigSpec.ofWire m enPort, enable_source (m.wire wire) sig)))

/-- What the second loop as a whole makes of one connection of the module it
starts on: a connection whose target is one of the wires `vec` is moved to the
output port recorded for that wire. -/
def rewrite_all (m : Module) (inoutMap : List (String × InoutPortInfo)) (vec : List Nat)
    (c : SigSig) : SigSig :=
  match SigSpec.as_wire m c.1 with
  | .ok t =>
    if t ∈ vec then
      match map_find (m.wire t).name inoutMap with
      | some info => (SigSpec.ofWire m info.newOutPort, c.2)
      | none => c
    else c
  | .error _ => c

/-- The enable connections that the second loop as a whole appends, wire by wire. -/
def all_enable_connections (m : Module) (inoutMap : List (String × InoutPortInfo))
    (enSigMap : List (String × SigSpec)) : List Nat → List SigSig
  | [] => []
  | j :: vec =>
    (match map_find (m.wire j).name inoutMap with
      | some info => enable_connections m j info.newEnablePort enSigMap info.inoutConnSigName
      | none => []) ++ all_enable_connections m inoutMap enSigMap vec

/-- The module when the first loop over `inoutWireVec` is done (line 98): the
new output and enable ports have been appended to the wire table. -/
def with_new_ports (m : Module) : Module :=
  { m with wires := m.wires ++ new_wires m (find_inout_wires 0 m.wires) }

/-- The value of `inoutMap` when the loop over the connections is done
(line 113). -/
def recorded_ports (m : Module) : List (String × InoutPortInfo) :=
  gather_connections (with_new_ports m)
    (new_map m m.wires.length (find_inout_wires 0 m.wires)) m.connections

/-- The value of `enSigMap` when the loop over the cells is done (line 144):
the result of the enable signal locator. -/
def enable_map (m : Module) : Except Err (List (String × SigSpec)) :=
  match SigMap.ofModule m with
  | .error e => .error e
  | .ok sigmap => find_enables (with_new_ports m) sigmap [] m.cells

/-- The bit exists: it is a constant, or a bit of a wire of the module. -/
def SigBit.valid (m : Module) : SigBit → Bool
  | .wire w offset => decide (w < m.wires.length) && decide (offset < (m.wire w).width)
  | .const _ => true

/-- All bits of the signal exist (what `SigSpec::check` asserts of a chunk). -/
def SigSpec.valid (m : Module) (sig : SigSpec) : Bool := sig.all (SigBit.valid m)

/-- Both sides of every connection of the module consist of existing bits. -/
def Module.connections_valid (m : Module) : Bool :=
  m.connections.all (fun c => SigSpec.valid m c.1 && SigSpec.valid m c.2)

/-- `cell->type.in(ID($mux), ID($pmux), ID($_MUX_))`: the multiplexer kinds among
the five kinds of line 123. -/
def is_mux_type (type : String) : Bool :=
  type = "$mux" || type = "$pmux" || type = "$_MUX_"

/-- The condition of lines 123-136 on a cell: its kind is one of the five kinds
and `tribuf` is set. -/
def Cell.is_tristate (sigmap : SigMap) (cell : Cell) : Bool :=
  is_mux_or_tribuf_type cell.type && (is_tribuf_type cell.type || has_z_data_input sigmap cell)

/-- The entry that lines 137-140 offer to `enSigMap` for a cell: the printed
signal of port `Y` with the signal of port `S`. -/
def Cell.enable_entry (m : Module) (sigmap : SigMap) (cell : Cell) : Option (String × SigSpec) :=
  if cell.is_tristate sigmap then
    match cell.getPort "\\Y", cell.getPort "\\S" with
    | .ok y, .ok s => some (log_signal m y, s)
    | _, _ => none
  else none

/-- The entries that the cells offer to `enSigMap`, in the order of the scan. -/
def enable_entries (m : Module) (sigmap : SigMap) (cells : List Cell) : List (String × SigSpec) :=
  cells.filterMap (Cell.enable_entry m sigmap)

/-- The number of times the body of the `while` loop of lines 60-210 is entered;
`none` means that `fuel` rounds were not enough to leave the loop. -/
def execute_loop_passes : Nat → Bool → Design → Option Nat
  | 0, _, _ => none
  | fuel + 1, keep_running, design =>
    if keep_running then
      let keep_running := false
      match execute_modules design with
      | .error _ => some 1
      | .ok design2 => (execute_loop_passes fuel keep_running design2).map (fun n => n + 1)
    else some 0

/-- The number of inout-flagged wires of all modules of a design. -/
def inout_port_count (design : Design) : Nat :=
  (design.map (fun m => (find_inout_wires 0 m.wires).length)).sum

/-- The cell with the signals of its ports `A` and `B` exchanged. -/
def Cell.swap_AB (cell : Cell) (a b : SigSpec) : Cell :=
  { cell with connections := cell.connections.map (fun p =>
      if p.1 = "\\A" then (p.1, b) else if p.1 = "\\B" then (p.1, a) else p) }

/-- The signal is the whole wire with handle `i`. -/
def SigSpec.is_whole_wire (m : Module) (sig : SigSpec) (i : Nat) : Bool :=
  match SigSpec.as_wire m sig with
  | .ok t => decide (t = i)
  | .error _ => false

/-- The sources of the connections whose target is the whole wire `i`, in the
order of the connection list. -/
def bound_signals (m : Module) (i : Nat) : List SigSpec :=
  (m.connections.filter (fun c => SigSpec.is_whole_wire m c.1 i)).map (fun c => c.2)

/-- The module with its cell list replaced by `cells`. -/
def Module.setCells (m : Module) (cells : List Cell) : Module :=
  { m with cells := cells }

/-- A wire is an inout port: both direction flags are set. -/
def Wire.is_inout (w : Wire) : Prop := w.port_input = true ∧ w.port_output = true

/-- The wire names of the module are pairwise distinct (the wire table of a
module is keyed by name). -/
def Module.names_distinct (m : Module) : Prop := (m.wires.map (fun w => w.name)).Nodup

instance (w : Wire) : Decidable w.is_inout := by unfold Wire.is_inout; exact inferInstance

instance (m : Module) : Decidable m.names_distinct := by
  unfold Module.names_distinct; exact inferInstance

/-! ## Example modules -/

/-- A one-bit inout wire `IO` driven from the net `N`, which is the output of a
multiplexer with select `S` and a high-impedance data input. -/
def scenario_module : Module :=
  { name := "\\M",
    wires := [
      { name := "\\IO", width := 1, start_offset := 0, port_input := true, port_output := true },
      { name := "\\N", width := 1, start_offset := 0, port_input := false, port_output := false },
      { name := "\\S", width := 1, start_offset := 0, port_input := true, port_output := false },
      { name := "\\Z", width := 1, start_offset := 0, port_input := true, port_output := false }],
    cells := [
      { name := "$T", type := "$mux",
        connections := [("\\A", [SigBit.wire 3 0]), ("\\B", [SigBit.const State.Sz]),
                        ("\\S", [SigBit.wire 2 0]), ("\\Y", [SigBit.wire 1 0])] }],
    connections := [([SigBit.wire 0 0], [SigBit.wire 1 0])] }

/-- What the pass makes of `scenario_module`. -/
def scenario_module_after : Module :=
  { name := "\\M",
    wires := [
      { name := "\\IO_$in", width := 1, start_offset := 0, port_input := true, port_output := false },
      { name := "\\N", width := 1, start_offset := 0, port_input := false, port_output := false },
      { name := "\\S", width := 1, start_offset := 0, port_input := true, port_output := false },
      { name := "\\Z", width := 1, start_offset := 0, port_input := true, port_output := false },
      { name := "\\IO_$out", width := 1, start_offset := 0, port_input := false, port_output := true },
      { name := "\\IO_$en", width := 1, start_offset := 0, port_input := false, port_output := true }],
    cells := [
      { name := "$T", type := "$mux",
        connections := [("\\A", [SigBit.wire 3 0]), ("\\B", [SigBit.const State.Sz]),
                        ("\\S", [SigBit.wire 2 0]), ("\\Y", [SigBit.wire 1 0])] }],
    connections := [([SigBit.wire 4 0], [SigBit.wire 1 0]), ([SigBit.wire 5 0], [SigBit.wire 2 0])] }

/-- Two inout wires, the first of which is named like the `_$in` wire of the
second. -/
def rename_module : Module :=
  { name := "\\M",
    wires := [
      { name := "\\X_$in", width := 1, start_offset := 0, port_input := true, port_output := true },
      { name := "\\X", width := 1, start_offset := 0, port_input := true, port_output := true }],
    cells := [],
    connections := [] }

/-- What the pass makes of `rename_module`. -/
def rename_module_after : Module :=
  { name := "\\M",
    wires := [
      { name := "\\X_$in_$in", width := 1, start_offset := 0, port_input := true, port_output := false },
      { name := "\\X_$in", width := 1, start_offset := 0, port_input := true, port_output := false },
      { name := "\\X_$in_$out", width := 1, start_offset := 0, port_input := false, port_output := true },
      { name := "\\X_$in_$en", width := 1, start_offset := 0, port_input := false, port_output := true },
      { name := "\\X_$out", width := 1, start_offset := 0, port_input := false, port_output := true },
      { name := "\\X_$en", width := 1, start_offset := 0, port_input := false, port_output := true }],
    cells := [],
    connections := [] }

/-- The scenario of `scenario_module` for arbitrary names: the inout wire `io`
(handle 0), the net `n` (handle 1), the select `s` (handle 2), the data wire `z`
(handle 3), all one bit wide, the connection `io <- n`, and the multiplexer `t`
with output `n`, select `s`, and the data inputs `z` and high impedance (on port
`A` when `zOnA` is set, on port `B` otherwise). -/
def scenario (io n s z t : String) (zOnA : Bool) : Module :=
  { name := "\\M",
    wires := [
      { name := io, width := 1, start_offset := 0, port_input := true, port_output := true },
      { name := n, width := 1, start_offset := 0, port_input := false, port_output := false },
      { name := s, width := 1, start_offset := 0, port_input := true, port_output := false },
      { name := z, width := 1, start_offset := 0, port_input := true, port_output := false }],
    cells := [
      { name := t, type := "$mux",
        connections := [
          ("\\A", if zOnA then [SigBit.const State.Sz] else [SigBit.wire 3 0]),
          ("\\B", if zOnA then [SigBit.wire 3 0] else [SigBit.const State.Sz]),
          ("\\S", [SigBit.wire 2 0]), ("\\Y", [SigBit.wire 1 0])] }],
    connections := [([SigBit.wire 0 0], [SigBit.wire 1 0])] }

/-- What the pass makes of `scenario io n s z t zOnA`: the wire `io` has become
the input `io_$in`, the outputs `io_$out` (handle 4) and `io_$en` (handle 5) have
been added, and the connections are `io_$out <- n` and `io_$en <- s`. -/
def scenario_after (io n s z t : String) (zOnA : Bool) : Module :=
  { name := "\\M",
    wires := [
      { name := io ++ "_$in", width := 1, start_offset := 0, port_input := true,
        port_output := false },
      { name := n, width := 1, start_offset := 0, port_input := false, port_output := false },
      { name := s, width := 1, start_offset := 0, port_input := true, port_output := false },
      { name := z, width := 1, start_offset := 0, port_input := true, port_output := false },
      { name := io ++ "_$out", width := 1, start_offset := 0, port_input := false,
        port_output := true },
      { name := io ++ "_$en", width := 1, start_offset := 0, port_input := false,
        port_output := true }],
    cells := [
      { name := t, type := "$mux",
        connections := [
          ("\\A", if zOnA then [SigBit.const State.Sz] else [SigBit.wire 3 0]),
          ("\\B", if zOnA then [SigBit.wire 3 0] else [SigBit.const State.Sz]),
          ("\\S", [SigBit.wire 2 0]), ("\\Y", [SigBit.wire 1 0])] }],
    connections := [([SigBit.wire 4 0], [SigBit.wire 1 0]), ([SigBit.wire 5 0], [SigBit.wire 2 0])] }

/-- A two-bit inout wire `W` declared as `[2:1]` (start offset 1), driven from
the two-bit net `N`, which is the output of a multiplexer with the one-bit
select `S` and a high-impedance data input. -/
def offset_module : Module :=
  { name := "\\M",
    wires := [
      { name := "\\W", width := 2, start_offset := 1, port_input := true, port_output := true },
      { name := "\\N", width := 2, start_offset := 0, port_input := false, port_output := false },
      { name := "\\S", width := 1, start_offset := 0, port_input := true, port_output := false },
      { name := "\\D", width := 2, start_offset := 0, port_input := true, port_output := false }],
    cells := [
      { name := "$T", type := "$mux",
        connections := [("\\A", [SigBit.const State.Sz, SigBit.const State.Sz]),
                        ("\\B", [SigBit.wire 3 0, SigBit.wire 3 1]),
                        ("\\S", [SigBit.wire 2 0]),
                        ("\\Y", [SigBit.wire 1 0, SigBit.wire 1 1])] }],
    connections := [([SigBit.wire 0 0, SigBit.wire 0 1], [SigBit.wire 1 0, SigBit.wire 1 1])] }

/-- What the pass makes of `offset_module`. -/
def offset_module_after : Module :=
  { name := "\\M",
    wires := [
      { name := "\\W_$in", width := 2, start_offset := 1, port_input := true, port_output := false },
      { name := "\\N", width := 2, start_offset := 0, port_input := false, port_output := false },
      { name := "\\S", width := 1, start_offset := 0, port_input := true, port_output := false },
      { name := "\\D", width := 2, start_offset := 0, port_input := true, port_output := false },
      { name := "\\W_$out", width := 2, start_offset := 1, port_input := false, port_output := true },
      { name := "\\W_$en", width := 2, start_offset := 1, port_input := false, port_output := true }],
    cells := [
      { name := "$T", type := "$mux",
        connections := [("\\A", [SigBit.const State.Sz, SigBit.const State.Sz]),
                        ("\\B", [SigBit.wire 3 0, SigBit.wire 3 1]),
                        ("\\S", [SigBit.wire 2 0]),
                        ("\\Y", [SigBit.wire 1 0, SigBit.wire 1 1])] }],
    connections := [
      ([SigBit.wire 4 0, SigBit.wire 4 1], [SigBit.wire 1 0, SigBit.wire 1 1]),
      ([SigBit.wire 5 0, SigBit.wire 5 1], [SigBit.wire 2 0])] }

/-- An inout wire `W` next to a two-bit output `V` of which only bit 0 is
driven by a connection: the target of the connection is the slice `V [0]`. -/
def slice_module : Module :=
  { name := "\\M",
    wires := [
      { name := "\\W", width := 1, start_offset := 0, port_input := true, port_output := true },
      { name := "\\V", width := 2, start_offset := 0, port_input := false, port_output := true },
      { name := "\\A", width := 1, start_offset := 0, port_input := true, port_output := false }],
    cells := [],
    connections := [([SigBit.wire 1 0], [SigBit.wire 2 0])] }

/-- An inout wire `IO` driven from the net `N`, which is the output of a
`$tribuf` cell with its ports `A`, `EN` and `Y`. -/
def tribuf_module : Module :=
  { name := "\\M",
    wires := [
      { name := "\\IO", width := 1, start_offset := 0, port_input := true, port_output := true },
      { name := "\\N", width := 1, start_offset := 0, port_input := false, port_output := false },
      { name := "\\E", width := 1, start_offset := 0, port_input := true, port_output := false },
      { name := "\\D", width := 1, start_offset := 0, port_input := true, port_output := false }],
    cells := [
      { name := "$T", type := "$tribuf",
        connections := [("\\A", [SigBit.wire 3 0]), ("\\EN", [SigBit.wire 2 0]),
                        ("\\Y", [SigBit.wire 1 0])] }],
    connections := [([SigBit.wire 0 0], [SigBit.wire 1 0])] }

/-- An inout wire `W` without any connection, in a module that already has a
wire named `W_$en`. -/
def clash_module : Module :=
  { name := "\\M",
    wires := [
      { name := "\\W", width := 1, start_offset := 0, port_input := true, port_output := true },
      { name := "\\W_$en", width := 1, start_offset := 0, port_input := true, port_output := false }],
    cells := [],
    connections := [] }

/-- An inout wire `IO` driven from the net `N`, in a module without any cell:
no tristate driver can be found for `N`. -/
def undriven_module : Module :=
  { name := "\\M",
    wires := [
      { name := "\\IO", width := 1, start_offset := 0, port_input := true, port_output := true },
      { name := "\\N", width := 1, start_offset := 0, port_input := true, port_output := false }],
    cells := [],
    connections := [([SigBit.wire 0 0], [SigBit.wire 1 0])] }

/-- What the pass makes of `undriven_module`. -/
def undriven_module_after : Module :=
  { name := "\\M",
    wires := [
      { name := "\\IO_$in", width := 1, start_offset := 0, port_input := true, port_output := false },
      { name := "\\N", width := 1, start_offset := 0, port_input := true, port_output := false },
      { name := "\\IO_$out", width := 1, start_offset := 0, port_input := false, port_output := true },
      { name := "\\IO_$en", width := 1, start_offset := 0, port_input := false, port_output := true }],
    cells := [],
    connections := [([SigBit.wire 2 0], [SigBit.wire 1 0])] }

/-- An inout wire `IO` driven from the net `N`, which is the output of two
multiplexers with a high-impedance data input: `$T1` with select `S1` is scanned
first, `$T2` with select `S2` last. -/
def two_driver_module : Module :=
  { name := "\\M",
    wires := [
      { name := "\\IO", width := 1, start_offset := 0, port_input := true, port_output := true },
      { name := "\\N", width := 1, start_offset := 0, port_input := false, port_output := false },
      { name := "\\S1", width := 1, start_offset := 0, port_input := true, port_output := false },
      { name := "\\S2", width := 1, start_offset := 0, port_input := true, port_output := false },
      { name := "\\D", width := 1, start_offset := 0, port_input := true, port_output := false }],
    cells := [
      { name := "$T1", type := "$mux",
        connections := [("\\A", [SigBit.wire 4 0]), ("\\B", [SigBit.const State.Sz]),
                        ("\\S", [SigBit.wire 2 0]), ("\\Y", [SigBit.wire 1 0])] },
      { name := "$T2", type := "$mux",
        connections := [("\\A", [SigBit.const State.Sz]), ("\\B", [SigBit.wire 4 0]),
                        ("\\S", [SigBit.wire 3 0]), ("\\Y", [SigBit.wire 1 0])] }],
    connections := [([SigBit.wire 0 0], [SigBit.wire 1 0])] }

/-- The scenario of the specification: the inout wire `IO` is driven from the
net `N`, and the output `Y` of the multiplexer (select `S`, a high-impedance data
input) is bound to `N` by the connection `N <- Y`. -/
def alias_module : Module :=
  { name := "\\M",
    wires := [
      { name := "\\IO", width := 1, start_offset := 0, port_input := true, port_output := true },
      { name := "\\N", width := 1, start_offset := 0, port_input := false, port_output := false },
      { name := "\\Y", width := 1, start_offset := 0, port_input := false, port_output := false },
      { name := "\\S", width := 1, start_offset := 0, port_input := true, port_output := false },
      { name := "\\D", width := 1, start_offset := 0, port_input := true, port_output := false }],
    cells := [
      { name := "$T", type := "$mux",
        connections := [("\\A", [SigBit.wire 4 0]), ("\\B", [SigBit.const State.Sz]),
                        ("\\S", [SigBit.wire 3 0]), ("\\Y", [SigBit.wire 2 0])] }],
    connections := [([SigBit.wire 0 0], [SigBit.wire 1 0]), ([SigBit.wire 1 0], [SigBit.wire 2 0])] }

/-- What the pass makes of `alias_module`. -/
def alias_module_after : Module :=
  { name := "\\M",
    wires := [
      { name := "\\IO_$in", width := 1, start_offset := 0, port_input := true, port_output := false },
      { name := "\\N", width := 1, start_offset := 0, port_input := false, port_output := false },
      { name := "\\Y", width := 1, start_offset := 0, port_input := false, port_output := false },
      { name := "\\S", width := 1, start_offset := 0, port_input := true, port_output := false },
      { name := "\\D", width := 1, start_offset := 0, port_input := true, port_output := false },
      { name := "\\IO_$out", width := 1, start_offset := 0, port_input := false, port_output := true },
      { name := "\\IO_$en", width := 1, start_offset := 0, port_input := false, port_output := true }],
    cells := [
      { name := "$T", type := "$mux",
        connections := [("\\A", [SigBit.wire 4 0]), ("\\B", [SigBit.const State.Sz]),
                        ("\\S", [SigBit.wire 3 0]), ("\\Y", [SigBit.wire 2 0])] }],
    connections := [([SigBit.wire 5 0], [SigBit.wire 1 0]), ([SigBit.wire 1 0], [SigBit.wire 2 0])] }

/-- A four-bit inout wire `IO` (start offset 0) driven from the four-bit net `N`,
which is the output of a multiplexer with the one-bit select `S` and a
high-impedance data input. -/
def wide_module : Module :=
  { name := "\\M",
    wires := [
      { name := "\\IO", width := 4, start_offset := 0, port_input := true, port_output := true },
      { name := "\\N", width := 4, start_offset := 0, port_input := false, port_output := false },
      { name := "\\S", width := 1, start_offset := 0, port_input := true, port_output := false },
      { name := "\\D", width := 4, start_offset := 0, port_input := true, port_output := false }],
    cells := [
      { name := "$T", type := "$mux",
        connections := [
          ("\\A", [SigBit.wire 3 0, SigBit.wire 3 1, SigBit.wire 3 2, SigBit.wire 3 3]),
          ("\\B", [SigBit.const State.Sz, SigBit.const State.Sz, SigBit.const State.Sz,
                   SigBit.const State.Sz]),
          ("\\S", [SigBit.wire 2 0]),
          ("\\Y", [SigBit.wire 1 0, SigBit.wire 1 1, SigBit.wire 1 2, SigBit.wire 1 3])] }],
    connections := [
      ([SigBit.wire 0 0, SigBit.wire 0 1, SigBit.wire 0 2, SigBit.wire 0 3],
       [SigBit.wire 1 0, SigBit.wire 1 1, SigBit.wire 1 2, SigBit.wire 1 3])] }

/-- What the pass makes of `wide_module`. -/
def wide_module_after : Module :=
  { name := "\\M",
    wires := [
      { name := "\\IO_$in", width := 4, start_offset := 0, port_input := true, port_output := false },
      { name := "\\N", width := 4, start_offset := 0, port_input := false, port_output := false },
      { name := "\\S", width := 1, start_offset := 0, port_input := true, port_output := false },
      { name := "\\D", width := 4, start_offset := 0, port_input := true, port_output := false },
      { name := "\\IO_$out", width := 4, start_offset := 0, port_input := false, port_output := true },
      { name := "\\IO_$en", width := 4, start_offset := 0, port_input := false, port_output := true }],
    cells := [
      { name := "$T", type := "$mux",
        connections := [
          ("\\A", [SigBit.wire 3 0, SigBit.wire 3 1, SigBit.wire 3 2, SigBit.wire 3 3]),
          ("\\B", [SigBit.const State.Sz, SigBit.const State.Sz, SigBit.const State.Sz,
                   SigBit.const State.Sz]),
          ("\\S", [SigBit.wire 2 0]),
          ("\\Y", [SigBit.wire 1 0, SigBit.wire 1 1, SigBit.wire 1 2, SigBit.wire 1 3])] }],
    connections := [
      ([SigBit.wire 4 0, SigBit.wire 4 1, SigBit.wire 4 2, SigBit.wire 4 3],
       [SigBit.wire 1 0, SigBit.wire 1 1, SigBit.wire 1 2, SigBit.wire 1 3]),
      ([SigBit.wire 5 0, SigBit.wire 5 1, SigBit.wire 5 2, SigBit.wire 5 3],
       [SigBit.wire 2 0, SigBit.wire 2 0, SigBit.wire 2 0, SigBit.wire 2 0])] }

/-- An inout wire `IO` that is the target of three connections: from `D`, which
no cell drives, and twice from `N`, the output of a multiplexer with select `S`
and a high-impedance data input. -/
def multi_module : Module :=
  { name := "\\M",
    wires := [
      { name := "\\IO", width := 1, start_offset := 0, port_input := true, port_output := true },
      { name := "\\N", width := 1, start_offset := 0, port_input := false, port_output := false },
      { name := "\\S", width := 1, start_offset := 0, port_input := true, port_output := false },
      { name := "\\Z", width := 1, start_offset := 0, port_input := true, port_output := false },
      { name := "\\D", width := 1, start_offset := 0, port_input := true, port_output := false }],
    cells := [
      { name := "$T", type := "$mux",
        connections := [("\\A", [SigBit.wire 3 0]), ("\\B", [SigBit.const State.Sz]),
                        ("\\S", [SigBit.wire 2 0]), ("\\Y", [SigBit.wire 1 0])] }],
    connections := [([SigBit.wire 0 0], [SigBit.wire 4 0]), ([SigBit.wire 0 0], [SigBit.wire 1 0]),
                    ([SigBit.wire 0 0], [SigBit.wire 1 0])] }

/-- What the pass makes of `multi_module`. -/
def multi_module_after : Module :=
  { name := "\\M",
    wires := [
      { name := "\\IO_$in", width := 1, start_offset := 0, port_input := true, port_output := false },
      { name := "\\N", width := 1, start_offset := 0, port_input := false, port_output := false },
      { name := "\\S", width := 1, start_offset := 0, port_input := true, port_output := false },
      { name := "\\Z", width := 1, start_offset := 0, port_input := true, port_output := false },
      { name := "\\D", width := 1, start_offset := 0, port_input := true, port_output := false },
      { name := "\\IO_$out", width := 1, start_offset := 0, port_input := false, port_output := true },
      { name := "\\IO_$en", width := 1, start_offset := 0, port_input := false, port_output := true }],
    cells := [
      { name := "$T", type := "$mux",
        connections := [("\\A", [SigBit.wire 3 0]), ("\\B", [SigBit.const State.Sz]),
                        ("\\S", [SigBit.wire 2 0]), ("\\Y", [SigBit.wire 1 0])] }],
    connections := [([SigBit.wire 5 0], [SigBit.wire 4 0]), ([SigBit.wire 5 0], [SigBit.wire 1 0]),
                    ([SigBit.wire 5 0], [SigBit.wire 1 0]), ([SigBit.wire 6 0], [SigBit.wire 2 0]),
                    ([SigBit.wire 6 0], [SigBit.wire 2 0])] }

/-! ## Lists and wire tables -/

theorem modifyAt_length {α : Type} (f : α → α) (i : Nat) (l : List α) :
    (modifyAt f i l).length = l.length := by
  induction l generalizing i with
  | nil => simp [modifyAt]
  | cons a as ih => cases i <;> simp [modifyAt, ih]

theorem getD_modifyAt {α : Type} (f : α → α) (i j : Nat) (l : List α) (d : α) :
    (modifyAt f i l).getD j d = if j = i ∧ i < l.length then f (l.getD j d) else l.getD j d := by
  induction l generalizing i j with
  | nil => simp [modifyAt]
  | cons a as ih =>
    cases i with
    | zero => cases j <;> simp [modifyAt]
    | succ i =>
      cases j with
      | zero => simp [modifyAt]
      | succ j => simpa [modifyAt] using ih i j

theorem mem_iff_getD {α : Type} (l : List α) (d a : α) :
    a ∈ l ↔ ∃ j, j < l.length ∧ l.getD j d = a := by
  constructor
  · intro h
    obtain ⟨j, hj, rfl⟩ := List.getElem_of_mem h
    exact ⟨j, hj, by simp [List.getD, List.getElem?_eq_getElem hj]⟩
  · rintro ⟨j, hj, rfl⟩
    simp [List.getD, List.getElem?_eq_getElem hj]

theorem getD_append_left {α : Type} (l l2 : List α) (d : α) (j : Nat) (h : j < l.length) :
    (l ++ l2).getD j d = l.getD j d := by
  simp [List.getD, List.getElem?_append_left h]

theorem modifyAt_append_right {α : Type} (f : α → α) (l r : List α) (k : Nat) :
    modifyAt f (l.length + k) (l ++ r) = l ++ modifyAt f k r := by
  induction l with
  | nil => simp
  | cons a as ih =>
    have : (a :: as).length + k = (as.length + k) + 1 := by simp; omega
    rw [this]
    simp [modifyAt, ih]

theorem Module.wire_modifyWire (m : Module) (i j : Nat) (f : Wire → Wire) :
    (m.modifyWire i f).wire j = if j = i ∧ i < m.wires.length then f (m.wire j) else m.wire j := by
  unfold Module.modifyWire Module.wire
  exact getD_modifyAt f i j m.wires _

theorem Module.mem_wires_iff (m : Module) (w : Wire) :
    w ∈ m.wires ↔ ∃ j, j < m.wires.length ∧ m.wire j = w := by
  unfold Module.wire
  exact mem_iff_getD m.wires _ w

theorem get_reference_ok {p q : String} (h : IdString.get_reference p = .ok q) : q = p := by
  unfold IdString.get_reference at h
  split at h
  · cases h; rfl
  · split at h
    · cases h
    · split at h
      · cases h
      · split at h
        · cases h
        · cases h; rfl

theorem count_id_eq_zero_iff (m : Module) (id : String) :
    m.count_id id = 0 ↔ (∀ w ∈ m.wires, w.name ≠ id) ∧ (∀ c ∈ m.cells, c.name ≠ id) := by
  unfold Module.count_id
  simp [List.filter_eq_nil_iff]

theorem addWire_ok {m m1 : Module} {nm : String} {other : Wire} {h : Nat}
    (hok : m.addWire nm other = .ok (m1, h)) :
    m1.wires = m.wires ++ [{ other with name := nm }] ∧ m1.cells = m.cells
      ∧ m1.connections = m.connections ∧ m1.name = m.name ∧ h = m.wires.length
      ∧ m.count_id nm = 0 ∧ IdString.get_reference nm = .ok nm := by
  unfold Module.addWire at hok
  split at hok
  · cases hok
  · rename_i nm2 hr
    have := get_reference_ok hr
    subst this
    split at hok
    · cases hok
    · split at hok
      · cases hok
      · rename_i h1 h2
        simp only [Except.ok.injEq, Prod.mk.injEq] at hok
        obtain ⟨hm, hh⟩ := hok
        subst hm
        exact ⟨rfl, rfl, rfl, rfl, hh.symm, by simpa using h2, hr⟩

theorem modifyAt_append_last {α : Type} (f : α → α) (l : List α) (a : α) :
    modifyAt f l.length (l ++ [a]) = l ++ [f a] := by
  have := modifyAt_append_right f l [a] 0
  simpa [modifyAt] using this

theorem add_ports_for_ok {m m2 : Module} {mp mp2 : List (String × InoutPortInfo)} {j : Nat}
    (hj : j < m.wires.length) (hok : add_ports_for m mp j = .ok (m2, mp2)) :
    m2.wires = m.wires ++ [out_wire_of (m.wire j), en_wire_of (m.wire j)]
      ∧ m2.cells = m.cells ∧ m2.connections = m.connections ∧ m2.name = m.name
      ∧ mp2 = map_emplace (m.wire j).name
          { inoutWireName := (m.wire j).name, newOutPort := m.wires.length,
            newEnablePort := m.wires.length + 1, inoutConnSigName := [] } mp
      ∧ m.count_id ((m.wire j).name ++ "_$out") = 0 := by
  unfold add_ports_for at hok
  cases h1 : m.addWire ((m.wire j).name ++ "_$out") (m.wire j) with
  | error e => simp [h1] at hok
  | ok r =>
    obtain ⟨m1, outWire⟩ := r
    obtain ⟨hw1, hc1, hk1, hn1, hout, hcnt, -⟩ := addWire_ok h1
    subst hout
    have hw1b : (m1.modifyWire m.wires.length
        (fun w => { w with port_output := true, port_input := false })).wires
          = m.wires ++ [out_wire_of (m.wire j)] := by
      show modifyAt _ _ m1.wires = _
      rw [hw1, modifyAt_append_last]
      rfl
    have hwj : (m1.modifyWire m.wires.length
        (fun w => { w with port_output := true, port_input := false })).wire j = m.wire j := by
      unfold Module.wire
      rw [hw1b]
      exact getD_append_left _ _ _ _ hj
    cases h3 : (m1.modifyWire m.wires.length
        (fun w => { w with port_output := true, port_input := false })).addWire
          ((m.wire j).name ++ "_$en")
          ((m1.modifyWire m.wires.length
            (fun w => { w with port_output := true, port_input := false })).wire j) with
    | error e => simp [h1, h3] at hok
    | ok r3 =>
      obtain ⟨m3, enWire⟩ := r3
      obtain ⟨hw3, hc3, hk3, hn3, hen, -, -⟩ := addWire_ok h3
      simp only [h1, h3, Except.ok.injEq, Prod.mk.injEq] at hok
      obtain ⟨hm2, hmp2⟩ := hok
      rw [hw1b] at hen
      rw [hw1b, hwj] at hw3
      have hlen : enWire = (m.wires ++ [out_wire_of (m.wire j)]).length := hen
      refine ⟨?_, ?_, ?_, ?_, ?_, hcnt⟩
      · rw [← hm2]
        show modifyAt _ _ m3.wires = _
        rw [hw3, hlen, modifyAt_append_last]
        simp [en_wire_of]
      · rw [← hm2]; show m3.cells = _; rw [hc3]; exact hc1
      · rw [← hm2]; show m3.connections = _; rw [hk3]; exact hk1
      · rw [← hm2]; show m3.name = _; rw [hn3]; exact hn1
      · rw [← hmp2, hlen]
        simp

/-! ## The two maps -/

theorem map_find_append {β : Type} (k : String) (a b : List (String × β)) :
    map_find k (a ++ b) = match map_find k a with
      | some v => some v
      | none => map_find k b := by
  induction a with
  | nil => simp [map_find]
  | cons x xs ih =>
    obtain ⟨k2, v⟩ := x
    by_cases h : k2 = k
    · simp [map_find, h]
    · simp [map_find, h, ih]

theorem map_find_update {β : Type} (k k2 : String) (f : β → β) (mp : List (String × β)) :
    map_find k (map_update k2 f mp) = if k2 = k then (map_find k mp).map f else map_find k mp := by
  induction mp with
  | nil => simp [map_find, map_update]
  | cons x xs ih =>
    obtain ⟨k3, v⟩ := x
    by_cases h3 : k3 = k2
    · by_cases h : k2 = k
      · simp [map_find, map_update, h3, h]
      · have : ¬ k3 = k := by rw [h3]; exact h
        simp [map_find, map_update, h3, h]
    · by_cases h : k3 = k
      · have : ¬ k2 = k := by rw [← h]; exact fun e => h3 e.symm
        subst h
        simp [map_find, map_update, h3, this]
      · simp [map_find, map_update, h3, h, ih]

theorem map_emplace_of_none {β : Type} (k : String) (v : β) (mp : List (String × β))
    (h : map_find k mp = none) : map_emplace k v mp = mp ++ [(k, v)] := by
  simp [map_emplace, h]

/-! ## The first loop: the new ports -/

theorem count_id_ne_zero_of_wire {m : Module} {w : Wire} (hw : w ∈ m.wires) :
    m.count_id w.name ≠ 0 := by
  intro h
  exact ((count_id_eq_zero_iff m w.name).1 h).1 w hw rfl

theorem new_wires_congr {m m2 : Module} {vec : List Nat}
    (h : ∀ j ∈ vec, m2.wire j = m.wire j) : new_wires m2 vec = new_wires m vec := by
  induction vec with
  | nil => rfl
  | cons j vec ih =>
    simp only [new_wires]
    rw [h j (List.mem_cons_self _ _), ih (fun j hj => h j (List.mem_cons_of_mem _ hj))]

theorem new_map_congr {m m2 : Module} {vec : List Nat} (base : Nat)
    (h : ∀ j ∈ vec, m2.wire j = m.wire j) : new_map m2 base vec = new_map m base vec := by
  induction vec generalizing base with
  | nil => rfl
  | cons j vec ih =>
    simp only [new_map]
    rw [h j (List.mem_cons_self _ _), ih _ (fun j hj => h j (List.mem_cons_of_mem _ hj))]

theorem add_ports_ok {vec : List Nat} {m m1 : Module} {mp mp1 : List (String × InoutPortInfo)}
    (hvec : ∀ j ∈ vec, j < m.wires.length)
    (hinv : ∀ k, map_find k mp ≠ none → m.count_id (k ++ "_$out") ≠ 0)
    (hok : add_ports m mp vec = .ok (m1, mp1)) :
    m1.wires = m.wires ++ new_wires m vec ∧ m1.cells = m.cells
      ∧ m1.connections = m.connections ∧ m1.name = m.name
      ∧ mp1 = mp ++ new_map m m.wires.length vec := by
  induction vec generalizing m mp with
  | nil =>
    simp only [add_ports, Except.ok.injEq, Prod.mk.injEq] at hok
    obtain ⟨rfl, rfl⟩ := hok
    simp [new_wires, new_map]
  | cons j vec ih =>
    unfold add_ports at hok
    cases h1 : add_ports_for m mp j with
    | error e => simp [h1] at hok
    | ok r =>
      obtain ⟨m2, mp2⟩ := r
      simp only [h1] at hok
      have hj : j < m.wires.length := hvec j (List.mem_cons_self _ _)
      obtain ⟨hw2, hc2, hk2, hn2, hmp2, hcnt⟩ := add_ports_for_ok hj h1
      have hnone : map_find (m.wire j).name mp = none := by
        by_contra hne
        exact hinv _ hne hcnt
      rw [map_emplace_of_none _ _ _ hnone] at hmp2
      have hwire : ∀ i ∈ vec, m2.wire i = m.wire i := by
        intro i hi
        unfold Module.wire
        rw [hw2]
        exact getD_append_left _ _ _ _ (hvec i (List.mem_cons_of_mem _ hi))
      have hvec2 : ∀ i ∈ vec, i < m2.wires.length := by
        intro i hi
        rw [hw2, List.length_append]
        have := hvec i (List.mem_cons_of_mem _ hi)
        omega
      have hinv2 : ∀ k, map_find k mp2 ≠ none → m2.count_id (k ++ "_$out") ≠ 0 := by
        intro k hk
        rw [hmp2, map_find_append] at hk
        cases hf : map_find k mp with
        | some v =>
          have h0 := hinv k (by rw [hf]; simp)
          intro hz
          apply h0
          rw [count_id_eq_zero_iff] at hz ⊢
          refine ⟨fun w hw => hz.1 w ?_, fun c hc => hz.2 c ?_⟩
          · rw [hw2]; exact List.mem_append_left _ hw
          · rw [hc2]; exact hc
        | none =>
          rw [hf] at hk
          have hkj : (m.wire j).name = k := by
            by_contra hne
            simp [map_find, hne] at hk
          have hmem : out_wire_of (m.wire j) ∈ m2.wires := by
            rw [hw2]; simp
          have := count_id_ne_zero_of_wire hmem
          rw [← hkj]
          exact this
      obtain ⟨hw1, hc1, hk1, hn1, hmp1⟩ := ih hvec2 hinv2 hok
      refine ⟨?_, hc1.trans hc2, hk1.trans hk2, hn1.trans hn2, ?_⟩
      · rw [hw1, hw2, new_wires_congr hwire]
        simp [new_wires]
      · rw [hmp1, hmp2, new_map_congr _ hwire, hw2]
        simp [new_map]

/-! ## The port classifier -/

theorem mem_find_inout_wires (ws : List Wire) (base j : Nat) (d : Wire) :
    j ∈ find_inout_wires base ws ↔
      base ≤ j ∧ j - base < ws.length ∧ (ws.getD (j - base) d).is_inout := by
  induction ws generalizing base with
  | nil => simp [find_inout_wires]
  | cons w ws ih =>
    unfold find_inout_wires
    by_cases hw : (w.port_input && w.port_output) = true
    · rw [if_pos hw, List.mem_cons, ih]
      constructor
      · rintro (rfl | ⟨h1, h2, h3⟩)
        · refine ⟨le_refl _, by simp, ?_⟩
          simpa [Wire.is_inout] using hw
        · refine ⟨by omega, by simp; omega, ?_⟩
          have : j - base = (j - (base + 1)) + 1 := by omega
          rw [this, List.getD_cons_succ]
          exact h3
      · rintro ⟨h1, h2, h3⟩
        by_cases hj : j = base
        · exact Or.inl hj
        · right
          have e : j - base = (j - (base + 1)) + 1 := by omega
          rw [e, List.getD_cons_succ] at h3
          rw [e] at h2
          exact ⟨by omega, by simpa using h2, h3⟩
    · rw [if_neg hw, ih]
      constructor
      · rintro ⟨h1, h2, h3⟩
        refine ⟨by omega, by simp; omega, ?_⟩
        have : j - base = (j - (base + 1)) + 1 := by omega
        rw [this, List.getD_cons_succ]
        exact h3
      · rintro ⟨h1, h2, h3⟩
        by_cases hj : j = base
        · subst hj
          exfalso
          apply hw
          simpa [Wire.is_inout] using h3
        · have e : j - base = (j - (base + 1)) + 1 := by omega
          rw [e, List.getD_cons_succ] at h3
          rw [e] at h2
          exact ⟨by omega, by simpa using h2, h3⟩

theorem mem_inout_vec (m : Module) (j : Nat) :
    j ∈ find_inout_wires 0 m.wires ↔ j < m.wires.length ∧ (m.wire j).is_inout := by
  rw [mem_find_inout_wires m.wires 0 j
    { name := "", width := 0, start_offset := 0, port_input := false, port_output := false }]
  simp [Module.wire]

theorem find_inout_wires_nodup (ws : List Wire) (base : Nat) :
    (find_inout_wires base ws).Nodup := by
  induction ws generalizing base with
  | nil => simp [find_inout_wires]
  | cons w ws ih =>
    unfold find_inout_wires
    split
    · rw [List.nodup_cons]
      refine ⟨?_, ih _⟩
      intro h
      have := (mem_find_inout_wires ws (base + 1) base w).1 h
      omega
    · exact ih _

/-! ## Distinct wire names -/

theorem names_distinct_iff (m : Module) :
    m.names_distinct ↔ ∀ a b, a < m.wires.length → b < m.wires.length →
      (m.wire a).name = (m.wire b).name → a = b := by
  unfold Module.names_distinct
  rw [List.nodup_iff_injective_getElem]
  constructor
  · intro h a b ha hb hab
    have ha2 : a < (m.wires.map (fun w => w.name)).length := by simpa using ha
    have hb2 : b < (m.wires.map (fun w => w.name)).length := by simpa using hb
    have := @h ⟨a, ha2⟩ ⟨b, hb2⟩ (by
      simp only [List.getElem_map]
      unfold Module.wire at hab
      rw [List.getD_eq_getElem _ _ ha, List.getD_eq_getElem _ _ hb] at hab
      exact hab)
    exact Fin.mk.inj_iff.1 this
  · intro h x y hxy
    have hx : x.1 < m.wires.length := by simpa using x.2
    have hy : y.1 < m.wires.length := by simpa using y.2
    apply Fin.ext
    apply h x.1 y.1 hx hy
    unfold Module.wire
    rw [List.getD_eq_getElem _ _ hx, List.getD_eq_getElem _ _ hy]
    simpa only [List.getElem_map] using hxy

theorem add_ports_for_distinct {m m2 : Module} {mp mp2 : List (String × InoutPortInfo)} {j : Nat}
    (hj : j < m.wires.length) (hok : add_ports_for m mp j = .ok (m2, mp2))
    (hd : m.names_distinct) : m2.names_distinct := by
  have hw2 := (add_ports_for_ok hj hok).1
  unfold add_ports_for at hok
  cases h1 : m.addWire ((m.wire j).name ++ "_$out") (m.wire j) with
  | error e => simp [h1] at hok
  | ok r =>
    obtain ⟨m1, outWire⟩ := r
    obtain ⟨hw1, hc1, hk1, hn1, hout, hcnt, -⟩ := addWire_ok h1
    subst hout
    have hw1b : (m1.modifyWire m.wires.length
        (fun w => { w with port_output := true, port_input := false })).wires
          = m.wires ++ [out_wire_of (m.wire j)] := by
      show modifyAt _ _ m1.wires = _
      rw [hw1, modifyAt_append_last]
      rfl
    cases h3 : (m1.modifyWire m.wires.length
        (fun w => { w with port_output := true, port_input := false })).addWire
          ((m.wire j).name ++ "_$en")
          ((m1.modifyWire m.wires.length
            (fun w => { w with port_output := true, port_input := false })).wire j) with
    | error e => simp [h1, h3] at hok
    | ok r3 =>
      obtain ⟨m3, enWire⟩ := r3
      obtain ⟨-, -, -, -, -, hcnt3, -⟩ := addWire_ok h3
      rw [count_id_eq_zero_iff] at hcnt hcnt3
      rw [hw1b] at hcnt3
      unfold Module.names_distinct at hd ⊢
      rw [hw2, List.map_append, List.nodup_append]
      refine ⟨hd, ?_, ?_⟩
      · simp only [List.map_cons, List.map_nil, List.nodup_cons, List.mem_singleton,
          List.not_mem_nil, not_false_eq_true, List.nodup_nil, and_true]
        intro h
        exact hcnt3.1 (out_wire_of (m.wire j)) (by simp) h
      · intro x hx hx2
        simp only [List.mem_map] at hx
        obtain ⟨w, hw, rfl⟩ := hx
        simp only [List.map_cons, List.map_nil, List.mem_cons, List.mem_singleton,
          List.not_mem_nil, or_false] at hx2
        rcases hx2 with h | h
        · exact hcnt.1 w hw h
        · exact hcnt3.1 w (List.mem_append_left _ hw) h

theorem add_ports_distinct {vec : List Nat} {m m1 : Module}
    {mp mp1 : List (String × InoutPortInfo)}
    (hvec : ∀ j ∈ vec, j < m.wires.length) (hd : m.names_distinct)
    (hok : add_ports m mp vec = .ok (m1, mp1)) : m1.names_distinct := by
  induction vec generalizing m mp with
  | nil =>
    simp only [add_ports, Except.ok.injEq, Prod.mk.injEq] at hok
    obtain ⟨rfl, rfl⟩ := hok
    exact hd
  | cons j vec ih =>
    unfold add_ports at hok
    cases h1 : add_ports_for m mp j with
    | error e => simp [h1] at hok
    | ok r =>
      obtain ⟨m2, mp2⟩ := r
      simp only [h1] at hok
      have hj : j < m.wires.length := hvec j (List.mem_cons_self _ _)
      have hw2 := (add_ports_for_ok hj h1).1
      refine ih ?_ (add_ports_for_distinct hj h1 hd) hok
      intro i hi
      rw [hw2, List.length_append]
      have := hvec i (List.mem_cons_of_mem _ hi)
      omega

/-! ## The connection analyzer -/

theorem gather_connections_find (m : Module) (k : String) (conns : List SigSig)
    (mp : List (String × InoutPortInfo)) :
    map_find k (gather_connections m mp conns) =
      (map_find k mp).map (fun info =>
        { info with inoutConnSigName := info.inoutConnSigName ++ bound_signal_names m k conns }) := by
  induction conns generalizing mp with
  | nil =>
    simp only [gather_connections, bound_signal_names, List.filter_nil, List.map_nil,
      List.append_nil]
    cases map_find k mp <;> rfl
  | cons c rest ih =>
    unfold gather_connections
    simp only
    cases hf : map_find (log_signal m c.1) mp with
    | none =>
      simp only
      rw [ih]
      by_cases hk : log_signal m c.1 = k
      · rw [← hk, hf]; rfl
      · simp [bound_signal_names, List.filter_cons, hk]
    | some v =>
      simp only
      rw [ih, map_find_update]
      by_cases hk : log_signal m c.1 = k
      · rw [if_pos hk]
        cases hf2 : map_find k mp with
        | none => rfl
        | some info =>
          simp [bound_signal_names, List.filter_cons, hk]
      · rw [if_neg hk]
        simp [bound_signal_names, List.filter_cons, hk]

/-! ## The port rewriter -/

theorem assign_map_apply (sig : SigSpec) : assign_map.apply sig = sig := by
  show List.map (fun b => b) sig = sig
  simp

theorem rewrite_connection_ok {m : Module} {cw : String} {info : InoutPortInfo}
    {c : SigSig} {acc res : List SigSig}
    (hok : rewrite_connection m cw (some info) acc c = .ok res) :
    res = acc ++ [rewrite_target m cw info.newOutPort c]
      ∧ ∃ t, SigSpec.as_wire m c.1 = .ok t := by
  unfold rewrite_connection at hok
  cases ht : SigSpec.as_wire m c.1 with
  | error e => simp [ht] at hok
  | ok t =>
    simp only [ht] at hok
    refine ⟨?_, t, rfl⟩
    by_cases hn : (m.wire t).name = cw
    · simp only [hn, if_true, Except.ok.injEq] at hok
      simp [rewrite_target, ht, hn, ← hok]
    · simp only [hn, if_false, Except.ok.injEq] at hok
      simp [rewrite_target, ht, hn, ← hok]

theorem rewrite_connections_ok {m : Module} {cw : String} {info : InoutPortInfo}
    {conns acc res : List SigSig}
    (hok : rewrite_connections m cw (some info) acc conns = .ok res) :
    res = acc ++ conns.map (rewrite_target m cw info.newOutPort)
      ∧ ∀ c ∈ conns, ∃ t, SigSpec.as_wire m c.1 = .ok t := by
  induction conns generalizing acc with
  | nil =>
    simp only [rewrite_connections, Except.ok.injEq] at hok
    simp [hok]
  | cons c rest ih =>
    unfold rewrite_connections at hok
    cases h1 : rewrite_connection m cw (some info) acc c with
    | error e => simp [h1] at hok
    | ok acc2 =>
      simp only [h1] at hok
      obtain ⟨e1, t, ht⟩ := rewrite_connection_ok h1
      obtain ⟨e2, h2⟩ := ih hok
      refine ⟨?_, ?_⟩
      · rw [e2, e1]; simp
      · intro c2 hc2
        rcases List.mem_cons.1 hc2 with rfl | h
        · exact ⟨t, ht⟩
        · exact h2 c2 h

theorem add_enable_connections_ok {m : Module} {wire : Nat} {info : InoutPortInfo}
    {en : List (String × SigSpec)} {names : List String} {acc res : List SigSig}
    (hok : add_enable_connections m wire info en acc names = .ok res) :
    res = acc ++ enable_connections m wire info.newEnablePort en names := by
  induction names generalizing acc with
  | nil =>
    simp only [add_enable_connections, Except.ok.injEq] at hok
    simp [enable_connections, hok]
  | cons s rest ih =>
    unfold add_enable_connections at hok
    cases hr : IdString.get_reference s with
    | error e => simp [hr] at hok
    | ok key =>
      have hkey := get_reference_ok hr
      subst hkey
      simp only [hr] at hok
      cases hf : map_find key en with
      | none =>
        simp only [hf] at hok
        rw [ih hok]
        simp [enable_connections, hf]
      | some sig =>
        simp only [hf] at hok
        rw [ih hok]
        simp [enable_connections, hf, assign_map_apply]

theorem getD_mem_dropAt {α : Type} (l : List α) (d : α) (i j : Nat)
    (hi : i < l.length) (hij : i ≠ j) : l.getD i d ∈ dropAt j l := by
  induction l generalizing i j with
  | nil => simp at hi
  | cons a as ih =>
    cases j with
    | zero =>
      cases i with
      | zero => exact absurd rfl hij
      | succ i =>
        simp only [dropAt, List.getD_cons_succ]
        exact (mem_iff_getD as d _).2 ⟨i, by simpa using hi, rfl⟩
    | succ j =>
      cases i with
      | zero => simp [dropAt]
      | succ i =>
        simp only [dropAt, List.getD_cons_succ, List.mem_cons]
        right
        exact ih i j (by simpa using hi) (fun h => hij (by rw [h]))

theorem rename_ok {m m2 : Module} {j : Nat} {nm : String}
    (hok : m.rename j nm = .ok m2) :
    m2 = m.modifyWire j (fun w => { w with name := nm })
      ∧ (∀ i, i < m.wires.length → i ≠ j → (m.wire i).name ≠ nm)
      ∧ (∀ c ∈ m.cells, c.name ≠ nm) := by
  unfold Module.rename at hok
  split at hok
  · cases hok
  · rename_i nm2 hr
    have := get_reference_ok hr
    subst this
    split at hok
    · cases hok
    · split at hok
      · cases hok
      · rename_i h1 h2
        simp only [Except.ok.injEq] at hok
        have h0 : ({ m with wires := dropAt j m.wires } : Module).count_id nm2 = 0 := by
          simpa using h2
        rw [count_id_eq_zero_iff] at h0
        refine ⟨hok.symm, ?_, h0.2⟩
        intro i hi hij
        exact h0.1 _ (getD_mem_dropAt m.wires _ i j hi hij)

theorem rewrite_port_ok {m m2 : Module} {mp : List (String × InoutPortInfo)}
    {en : List (String × SigSpec)} {j : Nat} {info : InoutPortInfo}
    (hj : j < m.wires.length) (hpos : map_find (m.wire j).name mp = some info)
    (hok : rewrite_port m mp en j = .ok m2) :
    m2.wires.length = m.wires.length
      ∧ (∀ i, m2.wire i = if i = j then in_wire_of (m.wire j) else m.wire i)
      ∧ m2.cells = m.cells ∧ m2.name = m.name
      ∧ m2.connections = m.connections.map (rewrite_target m (m.wire j).name info.newOutPort)
          ++ enable_connections m j info.newEnablePort en info.inoutConnSigName
      ∧ (∀ c ∈ m.connections, ∃ t, SigSpec.as_wire m c.1 = .ok t)
      ∧ (∀ i, i < m.wires.length → i ≠ j → (m.wire i).name ≠ (m.wire j).name ++ "_$in") := by
  unfold rewrite_port at hok
  simp only [hpos] at hok
  cases h1 : rewrite_connections m (m.wire j).name (some info) [] m.connections with
  | error e => simp [h1] at hok
  | ok rc =>
    simp only [h1] at hok
    obtain ⟨hrc, hall⟩ := rewrite_connections_ok h1
    cases h2 : add_enable_connections m j info en rc info.inoutConnSigName with
    | error e => simp [h2] at hok
    | ok nc =>
      simp only [h2] at hok
      have hnc := add_enable_connections_ok h2
      obtain ⟨hm2, hnames, -⟩ := rename_ok hok
      have hwire : ∀ i, m2.wire i = if i = j then in_wire_of (m.wire j) else m.wire i := by
        intro i
        rw [hm2, Module.wire_modifyWire, Module.wire_modifyWire]
        have hl : (Module.modifyWire { m with connections := nc } j
            (fun w => { w with port_output := false })).wires.length = m.wires.length := by
          show (modifyAt _ _ _).length = _
          rw [modifyAt_length]
        rw [hl]
        by_cases hij : i = j
        · subst hij
          simp only [true_and, hj, if_true]
          rfl
        · simp only [hij, false_and, if_false]
          rfl
      refine ⟨?_, hwire, ?_, ?_, ?_, hall, ?_⟩
      · rw [hm2]
        show (modifyAt _ _ (modifyAt _ _ _)).length = _
        rw [modifyAt_length, modifyAt_length]
      · rw [hm2]; rfl
      · rw [hm2]; rfl
      · rw [hm2]
        show nc = _
        rw [hnc, hrc]
        simp
      · intro i hi hij
        have := hnames i (by
          show i < (modifyAt _ _ _).length
          rw [modifyAt_length]; exact hi) hij
        rw [Module.wire_modifyWire] at this
        simp only [hij, false_and, if_false] at this
        exact this

theorem rewrite_ports_wires {vec : List Nat} {m m2 : Module}
    {mp : List (String × InoutPortInfo)} {en : List (String × SigSpec)}
    (hnd : vec.Nodup) (hvec : ∀ j ∈ vec, j < m.wires.length)
    (hkeys : ∀ j ∈ vec, map_find (m.wire j).name mp ≠ none)
    (hok : rewrite_ports mp en m vec = .ok m2) :
    m2.wires.length = m.wires.length
      ∧ (∀ i, m2.wire i = if i ∈ vec then in_wire_of (m.wire i) else m.wire i)
      ∧ m2.cells = m.cells ∧ m2.name = m.name := by
  induction vec generalizing m with
  | nil =>
    simp only [rewrite_ports, Except.ok.injEq] at hok
    subst hok
    simp
  | cons j vec ih =>
    unfold rewrite_ports at hok
    cases h1 : rewrite_port m mp en j with
    | error e => simp [h1] at hok
    | ok m1 =>
      simp only [h1] at hok
      have hj : j < m.wires.length := hvec j (List.mem_cons_self _ _)
      cases hpos : map_find (m.wire j).name mp with
      | none => exact absurd hpos (hkeys j (List.mem_cons_self _ _))
      | some info =>
        obtain ⟨hlen, hwire, hcells, hname, -, -, -⟩ := rewrite_port_ok hj hpos h1
        rw [List.nodup_cons] at hnd
        have hne : ∀ i ∈ vec, i ≠ j := fun i hi h => hnd.1 (h ▸ hi)
        have hvec1 : ∀ i ∈ vec, i < m1.wires.length := fun i hi => by
          rw [hlen]; exact hvec i (List.mem_cons_of_mem _ hi)
        have hkeys1 : ∀ i ∈ vec, map_find (m1.wire i).name mp ≠ none := fun i hi => by
          rw [hwire i, if_neg (hne i hi)]
          exact hkeys i (List.mem_cons_of_mem _ hi)
        obtain ⟨hlen2, hwire2, hcells2, hname2⟩ := ih hnd.2 hvec1 hkeys1 hok
        refine ⟨hlen2.trans hlen, ?_, hcells2.trans hcells, hname2.trans hname⟩
        intro i
        rw [hwire2 i, hwire i]
        by_cases hij : i = j
        · subst hij
          simp [hnd.1]
        · by_cases hiv : i ∈ vec
          · simp [hij, hiv]
          · simp [hij, hiv]

/-! ### Signals that are whole wires -/

theorem as_wire_ok_iff {m : Module} {sig : SigSpec} {t : Nat}
    (h : SigSpec.as_wire m sig = .ok t) :
    SigSpec.is_wire m sig = true ∧ ∃ off rest, sig = SigBit.wire t off :: rest := by
  unfold SigSpec.as_wire at h
  split at h
  · rename_i w off rest
    split at h
    · rename_i hw
      simp only [Except.ok.injEq] at h
      subst h
      exact ⟨hw, off, rest, rfl⟩
    · cases h
  · cases h

theorem as_wire_lt {m : Module} {sig : SigSpec} {t : Nat}
    (h : SigSpec.as_wire m sig = .ok t) : t < m.wires.length := by
  obtain ⟨hw, off, rest, rfl⟩ := as_wire_ok_iff h
  unfold SigSpec.is_wire at hw
  simp only [Bool.and_eq_true, decide_eq_true_eq] at hw
  exact hw.1.2

theorem as_wire_ofWire {m m2 : Module} {e t : Nat}
    (h : SigSpec.as_wire m (SigSpec.ofWire m2 e) = .ok t) : t = e := by
  obtain ⟨-, off, rest, hs⟩ := as_wire_ok_iff h
  unfold SigSpec.ofWire at hs
  have hmem : SigBit.wire t off ∈ List.map (fun i => SigBit.wire e i) (List.range (m2.wire e).width) := by
    rw [hs]; exact List.mem_cons_self _ _
  simp only [List.mem_map] at hmem
  obtain ⟨i, -, hi⟩ := hmem
  cases hi
  rfl

theorem ofWire_congr {m m2 : Module} (hw : ∀ i, (m2.wire i).width = (m.wire i).width)
    (e : Nat) : SigSpec.ofWire m2 e = SigSpec.ofWire m e := by
  unfold SigSpec.ofWire
  rw [hw e]

theorem as_wire_congr {m m2 : Module} (hlen : m2.wires.length = m.wires.length)
    (hw : ∀ i, (m2.wire i).width = (m.wire i).width) (sig : SigSpec) :
    SigSpec.as_wire m2 sig = SigSpec.as_wire m sig := by
  unfold SigSpec.as_wire SigSpec.is_wire
  cases sig with
  | nil => rfl
  | cons b rest =>
    cases b with
    | const s => rfl
    | wire w off => simp only [hlen, hw]

theorem rewrite_all_nil (m : Module) (mp : List (String × InoutPortInfo)) (c : SigSig) :
    rewrite_all m mp [] c = c := by
  unfold rewrite_all
  split <;> simp

theorem enable_connections_congr {m m1 : Module} {i e : Nat} {en : List (String × SigSpec)}
    {names : List String} (hi : m1.wire i = m.wire i)
    (hw : ∀ k, (m1.wire k).width = (m.wire k).width) :
    enable_connections m1 i e en names = enable_connections m i e en names := by
  unfold enable_connections
  rw [hi, ofWire_congr hw]

theorem all_enable_connections_congr {m m1 : Module} {mp : List (String × InoutPortInfo)}
    {en : List (String × SigSpec)} {vec : List Nat}
    (hv : ∀ i ∈ vec, m1.wire i = m.wire i)
    (hw : ∀ k, (m1.wire k).width = (m.wire k).width) :
    all_enable_connections m1 mp en vec = all_enable_connections m mp en vec := by
  induction vec with
  | nil => rfl
  | cons j vec ih =>
    simp only [all_enable_connections]
    rw [ih (fun i hi => hv i (List.mem_cons_of_mem _ hi)), hv j (List.mem_cons_self _ _)]
    cases map_find (m.wire j).name mp with
    | none => rfl
    | some info =>
      simp only
      rw [enable_connections_congr (hv j (List.mem_cons_self _ _)) hw]

theorem mem_enable_connections {m : Module} {i e : Nat} {en : List (String × SigSpec)}
    {names : List String} {c : SigSig} (hc : c ∈ enable_connections m i e en names) :
    ∃ s sig, s ∈ names ∧ map_find s en = some sig
      ∧ c = (SigSpec.ofWire m e, enable_source (m.wire i) sig) := by
  unfold enable_connections at hc
  rw [List.mem_filterMap] at hc
  obtain ⟨s, hs, hmap⟩ := hc
  cases hf : map_find s en with
  | none => rw [hf] at hmap; cases hmap
  | some sig =>
    rw [hf] at hmap
    simp only [Option.map_some', Option.some.injEq] at hmap
    exact ⟨s, sig, hs, hf, hmap.symm⟩

theorem rewrite_ports_connections {vec : List Nat} {m m2 : Module}
    {mp : List (String × InoutPortInfo)} {en : List (String × SigSpec)}
    (hnd : vec.Nodup) (hvec : ∀ j ∈ vec, j < m.wires.length)
    (hinj : ∀ a b, a < m.wires.length → b < m.wires.length →
      (m.wire a).name = (m.wire b).name → a = b)
    (hkeys : ∀ j ∈ vec, ∃ info, map_find (m.wire j).name mp = some info
      ∧ info.newOutPort ∉ vec ∧ info.newEnablePort ∉ vec)
    (hok : rewrite_ports mp en m vec = .ok m2) :
    m2.connections = m.connections.map (rewrite_all m mp vec)
        ++ all_enable_connections m mp en vec
      ∧ (vec ≠ [] → ∀ c ∈ m.connections, ∃ t, SigSpec.as_wire m c.1 = .ok t)
      ∧ (∀ a b, a < m2.wires.length → b < m2.wires.length →
          (m2.wire a).name = (m2.wire b).name → a = b) := by
  induction vec generalizing m with
  | nil =>
    simp only [rewrite_ports, Except.ok.injEq] at hok
    subst hok
    refine ⟨?_, fun h => absurd rfl h, hinj⟩
    simp only [all_enable_connections, List.append_nil]
    rw [List.map_congr_left (fun c _ => rewrite_all_nil m mp c)]
    simp
  | cons j vec ih =>
    unfold rewrite_ports at hok
    cases h1 : rewrite_port m mp en j with
    | error e => simp [h1] at hok
    | ok m1 =>
      simp only [h1] at hok
      have hj : j < m.wires.length := hvec j (List.mem_cons_self _ _)
      obtain ⟨info, hpos, hout, hen⟩ := hkeys j (List.mem_cons_self _ _)
      obtain ⟨hlen, hwire, hcells, hname, hconn, hall, hnames⟩ := rewrite_port_ok hj hpos h1
      rw [List.nodup_cons] at hnd
      have hne : ∀ i ∈ vec, i ≠ j := fun i hi h => hnd.1 (h ▸ hi)
      have hwd : ∀ i, (m1.wire i).width = (m.wire i).width := by
        intro i
        rw [hwire i]
        split
        · rename_i h; subst h; rfl
        · rfl
      have hvec1 : ∀ i ∈ vec, i < m1.wires.length := fun i hi => by
        rw [hlen]; exact hvec i (List.mem_cons_of_mem _ hi)
      have hinj1 : ∀ a b, a < m1.wires.length → b < m1.wires.length →
          (m1.wire a).name = (m1.wire b).name → a = b := by
        intro a b ha hb hab
        rw [hlen] at ha hb
        rw [hwire a, hwire b] at hab
        by_cases haj : a = j
        · by_cases hbj : b = j
          · rw [haj, hbj]
          · rw [if_pos haj, if_neg hbj] at hab
            exact absurd hab.symm (hnames b hb hbj)
        · by_cases hbj : b = j
          · rw [if_neg haj, if_pos hbj] at hab
            exact absurd hab (hnames a ha haj)
          · rw [if_neg haj, if_neg hbj] at hab
            exact hinj a b ha hb hab
      have hkeys1 : ∀ i ∈ vec, ∃ info, map_find (m1.wire i).name mp = some info
          ∧ info.newOutPort ∉ vec ∧ info.newEnablePort ∉ vec := by
        intro i hi
        obtain ⟨inf, h1, h2, h3⟩ := hkeys i (List.mem_cons_of_mem _ hi)
        refine ⟨inf, ?_, fun h => h2 (List.mem_cons_of_mem _ h),
          fun h => h3 (List.mem_cons_of_mem _ h)⟩
        rw [hwire i, if_neg (hne i hi)]
        exact h1
      obtain ⟨hc2, -, hinj2⟩ := ih hnd.2 hvec1 hinj1 hkeys1 hok
      refine ⟨?_, fun _ => hall, hinj2⟩
      rw [hc2, hconn, List.map_append, List.map_map]
      have hA : List.map (rewrite_all m1 mp vec ∘ rewrite_target m (m.wire j).name info.newOutPort)
          m.connections = List.map (rewrite_all m mp (j :: vec)) m.connections := by
        apply List.map_congr_left
        intro c hc
        obtain ⟨t, ht⟩ := hall c hc
        have htl := as_wire_lt ht
        simp only [Function.comp]
        by_cases htj : t = j
        · subst htj
          have e1 : rewrite_target m (m.wire t).name info.newOutPort c
              = (SigSpec.ofWire m info.newOutPort, c.2) := by
            simp [rewrite_target, ht]
          have e2 : rewrite_all m mp (t :: vec) c = (SigSpec.ofWire m info.newOutPort, c.2) := by
            simp [rewrite_all, ht, hpos]
          rw [e1, e2]
          unfold rewrite_all
          cases hw : SigSpec.as_wire m1 (SigSpec.ofWire m info.newOutPort, c.2).1 with
          | error e => rfl
          | ok t2 =>
            have h := as_wire_ofWire hw
            have hnv : t2 ∉ vec := by
              rw [h]; exact fun h => hout (List.mem_cons_of_mem _ h)
            simp [hnv]
        · have hn : ¬ (m.wire t).name = (m.wire j).name := fun h => htj (hinj t j htl hj h)
          have e1 : rewrite_target m (m.wire j).name info.newOutPort c = c := by
            simp [rewrite_target, ht, hn]
          rw [e1]
          unfold rewrite_all
          rw [as_wire_congr hlen hwd, ht]
          simp only [List.mem_cons, htj, false_or]
          rw [hwire t, if_neg htj]
          simp only [ofWire_congr hwd]
      have hE : List.map (rewrite_all m1 mp vec)
          (enable_connections m j info.newEnablePort en info.inoutConnSigName)
            = enable_connections m j info.newEnablePort en info.inoutConnSigName := by
        have hfix : ∀ c ∈ enable_connections m j info.newEnablePort en info.inoutConnSigName,
            rewrite_all m1 mp vec c = id c := by
          intro c hc
          obtain ⟨s, sig, -, -, rfl⟩ := mem_enable_connections hc
          unfold rewrite_all
          cases hw : SigSpec.as_wire m1
              (SigSpec.ofWire m info.newEnablePort, enable_source (m.wire j) sig).1 with
          | error e => rfl
          | ok t2 =>
            have h := as_wire_ofWire hw
            have hnv : t2 ∉ vec := by
              rw [h]; exact fun h => hen (List.mem_cons_of_mem _ h)
            simp [hnv]
        rw [List.map_congr_left hfix, List.map_id]
      have hR : all_enable_connections m1 mp en vec = all_enable_connections m mp en vec :=
        all_enable_connections_congr (fun i hi => by rw [hwire i, if_neg (hne i hi)]) hwd
      rw [hA, hE, hR]
      simp [all_enable_connections, hpos]

/-! ## The pass on one module -/

theorem ql_inout_module_ok {m m2 : Module} (hok : ql_inout_module m = .ok m2) :
    ∃ sigmap m1 mp en, SigMap.ofModule m = .ok sigmap
      ∧ add_ports m [] (find_inout_wires 0 m.wires) = .ok (m1, mp)
      ∧ find_enables m1 sigmap [] m1.cells = .ok en
      ∧ rewrite_ports (gather_connections m1 mp m1.connections) en m1
          (find_inout_wires 0 m.wires) = .ok m2 := by
  unfold ql_inout_module at hok
  cases h0 : SigMap.ofModule m with
  | error e => simp [h0] at hok
  | ok sigmap =>
    simp only [h0] at hok
    cases h1 : add_ports m [] (find_inout_wires 0 m.wires) with
    | error e => simp [h1] at hok
    | ok r =>
      obtain ⟨m1, mp⟩ := r
      simp only [h1] at hok
      cases h2 : find_enables m1 sigmap [] m1.cells with
      | error e => simp [h2] at hok
      | ok en =>
        simp only [h2] at hok
        exact ⟨sigmap, m1, mp, en, rfl, rfl, h2, hok⟩

theorem new_wires_length (m : Module) (vec : List Nat) :
    (new_wires m vec).length = 2 * vec.length := by
  induction vec with
  | nil => rfl
  | cons j vec ih => simp [new_wires, ih]; omega

theorem new_map_find_ne_none (m : Module) (base : Nat) (vec : List Nat) (j : Nat)
    (hj : j ∈ vec) : map_find (m.wire j).name (new_map m base vec) ≠ none := by
  induction vec generalizing base with
  | nil => simp at hj
  | cons i vec ih =>
    simp only [new_map, map_find]
    by_cases h : (m.wire i).name = (m.wire j).name
    · simp [h]
    · rw [if_neg h]
      rcases List.mem_cons.1 hj with rfl | h2
      · exact absurd rfl h
      · exact ih _ h2

theorem ext_getD {α : Type} (l1 l2 : List α) (d : α) (hlen : l1.length = l2.length)
    (h : ∀ i, i < l1.length → l1.getD i d = l2.getD i d) : l1 = l2 := by
  apply List.ext_getElem hlen
  intro i h1 h2
  have := h i h1
  rw [List.getD_eq_getElem _ _ h1, List.getD_eq_getElem _ _ h2] at this
  exact this

theorem getD_append_right_ge {α : Type} (l l2 : List α) (d : α) (i : Nat)
    (h : l.length ≤ i) : (l ++ l2).getD i d = l2.getD (i - l.length) d := by
  simp [List.getD, List.getElem?_append_right h]

theorem getD_map_lt {α β : Type} (f : α → β) (l : List α) (d : β) (d2 : α) (i : Nat)
    (h : i < l.length) : (l.map f).getD i d = f (l.getD i d2) := by
  rw [List.getD_eq_getElem _ _ (by simpa using h), List.getElem_map,
    List.getD_eq_getElem _ _ h]

/-- The wire table after the pass: every inout wire has become its `_$in`
wire, and the `_$out` and `_$en` wires have been appended. -/
theorem ql_inout_module_wires {m m2 : Module} (hok : ql_inout_module m = .ok m2) :
    m2.wires = m.wires.map (fun w => if w.is_inout then in_wire_of w else w)
        ++ new_wires m (find_inout_wires 0 m.wires)
      ∧ m2.cells = m.cells ∧ m2.name = m.name := by
  obtain ⟨sigmap, m1, mp, en, -, h1, -, h3⟩ := ql_inout_module_ok hok
  have hvec : ∀ j ∈ find_inout_wires 0 m.wires, j < m.wires.length :=
    fun j hj => ((mem_inout_vec m j).1 hj).1
  obtain ⟨hw1, hc1, hk1, hn1, hmp⟩ := add_ports_ok hvec (by simp [map_find]) h1
  have hwire1 : ∀ i, i < m.wires.length → m1.wire i = m.wire i := by
    intro i hi
    unfold Module.wire
    rw [hw1]
    exact getD_append_left _ _ _ _ hi
  have hvec1 : ∀ j ∈ find_inout_wires 0 m.wires, j < m1.wires.length := by
    intro j hj
    rw [hw1, List.length_append]
    have := hvec j hj
    omega
  have hkeys : ∀ j ∈ find_inout_wires 0 m.wires,
      map_find (m1.wire j).name (gather_connections m1 mp m1.connections) ≠ none := by
    intro j hj
    rw [gather_connections_find, hwire1 j (hvec j hj), hmp]
    have := new_map_find_ne_none m m.wires.length _ j hj
    simp only [List.nil_append]
    cases hf : map_find (m.wire j).name (new_map m m.wires.length (find_inout_wires 0 m.wires)) with
    | none => exact absurd hf this
    | some v => simp
  obtain ⟨hlen2, hwire2, hc2, hn2⟩ :=
    rewrite_ports_wires (find_inout_wires_nodup _ _) hvec1 hkeys h3
  refine ⟨?_, hc2.trans hc1, hn2.trans hn1⟩
  apply ext_getD _ _
    { name := "", width := 0, start_offset := 0, port_input := false, port_output := false }
  · rw [hlen2, hw1]
    simp
  · intro i _
    have e2 := hwire2 i
    unfold Module.wire at e2
    rw [e2]
    by_cases hi : i < m.wires.length
    · have e1 := hwire1 i hi
      unfold Module.wire at e1
      rw [e1]
      rw [getD_append_left _ _ _ _ (by simpa using hi)]
      have hmem := mem_inout_vec m i
      unfold Module.wire at hmem
      rw [getD_map_lt _ _ _
        { name := "", width := 0, start_offset := 0, port_input := false, port_output := false }
        _ hi]
      by_cases hio : (m.wires.getD i
        { name := "", width := 0, start_offset := 0, port_input := false,
          port_output := false }).is_inout
      · rw [if_pos (hmem.2 ⟨hi, hio⟩), if_pos hio]
      · rw [if_neg (fun h => hio (hmem.1 h).2), if_neg hio]
    · have hni : i ∉ find_inout_wires 0 m.wires := fun h => hi (hvec i h)
      rw [if_neg hni, hw1]
      rw [getD_append_right_ge _ _ _ _ (by omega),
        getD_append_right_ge _ _ _ _ (by simp; omega)]
      simp

theorem mem_new_wires {m : Module} {vec : List Nat} {w : Wire} :
    w ∈ new_wires m vec ↔
      ∃ j ∈ vec, w = out_wire_of (m.wire j) ∨ w = en_wire_of (m.wire j) := by
  induction vec with
  | nil => simp [new_wires]
  | cons i vec ih =>
    simp only [new_wires, List.mem_cons, ih]
    constructor
    · rintro (h | h | ⟨j, hj, h⟩)
      · exact ⟨i, Or.inl rfl, Or.inl h⟩
      · exact ⟨i, Or.inl rfl, Or.inr h⟩
      · exact ⟨j, Or.inr hj, h⟩
    · rintro ⟨j, rfl | hj, h | h⟩
      · exact Or.inl h
      · exact Or.inr (Or.inl h)
      · exact Or.inr (Or.inr ⟨j, hj, Or.inl h⟩)
      · exact Or.inr (Or.inr ⟨j, hj, Or.inr h⟩)

/-- The names of the new wires are not in use in the module the pass starts on. -/
theorem new_wires_fresh {m m2 : Module} (hd : m.names_distinct)
    (hok : ql_inout_module m = .ok m2) :
    ∀ w ∈ m.wires, ∀ w2 ∈ new_wires m (find_inout_wires 0 m.wires), w.name ≠ w2.name := by
  obtain ⟨sigmap, m1, mp, en, -, h1, -, -⟩ := ql_inout_module_ok hok
  have hvec : ∀ j ∈ find_inout_wires 0 m.wires, j < m.wires.length :=
    fun j hj => ((mem_inout_vec m j).1 hj).1
  obtain ⟨hw1, -, -, -, -⟩ := add_ports_ok hvec (by simp [map_find]) h1
  have hd1 := add_ports_distinct hvec hd h1
  unfold Module.names_distinct at hd1
  rw [hw1, List.map_append, List.nodup_append] at hd1
  intro w hw w2 hw2 h
  exact hd1.2.2 (List.mem_map.2 ⟨w, hw, rfl⟩) (List.mem_map.2 ⟨w2, hw2, h.symm⟩)

theorem append_suffix_ne (s t : String) (ht : t ≠ "") : s ++ t ≠ s := by
  intro h
  have h2 := congrArg String.length h
  rw [String.length_append] at h2
  have : t.length = 0 := by omega
  apply ht
  have hd : t.data = [] := List.length_eq_zero.1 this
  cases t
  simp_all

/-! ## The pass on a design -/

theorem execute_ok {fuel : Nat} {design design2 : Design}
    (h : execute fuel design = some (.ok design2)) : execute_modules design = .ok design2 := by
  unfold execute at h
  cases fuel with
  | zero => simp [execute_loop] at h
  | succ fuel =>
    simp only [execute_loop, if_true] at h
    cases h1 : execute_modules design with
    | error e => simp [h1] at h
    | ok d2 =>
      simp only [h1] at h
      cases fuel with
      | zero => simp [execute_loop] at h
      | succ fuel =>
        simp only [execute_loop, Bool.false_eq_true, if_false, Option.some.injEq,
          Except.ok.injEq] at h
        rw [h]

theorem execute_of_modules (fuel : Nat) (design : Design) :
    execute (fuel + 2) design = some (execute_modules design) := by
  unfold execute
  simp only [execute_loop, if_true]
  cases h1 : execute_modules design with
  | error e => rfl
  | ok d2 => simp

theorem execute_modules_ok {design design2 : Design}
    (h : execute_modules design = .ok design2) :
    List.Forall₂ (fun m m2 => ql_inout_module m = .ok m2) design design2 := by
  induction design generalizing design2 with
  | nil =>
    simp only [execute_modules, Except.ok.injEq] at h
    subst h
    exact List.Forall₂.nil
  | cons m rest ih =>
    unfold execute_modules at h
    cases h1 : ql_inout_module m with
    | error e => simp [h1] at h
    | ok m2 =>
      simp only [h1] at h
      cases h2 : execute_modules rest with
      | error e => simp [h2] at h
      | ok rest2 =>
        simp only [h2, Except.ok.injEq] at h
        subst h
        exact List.Forall₂.cons h1 (ih h2)

theorem no_inout_after_module {m m2 : Module} (hok : ql_inout_module m = .ok m2) :
    ∀ w ∈ m2.wires, ¬ w.is_inout := by
  obtain ⟨hw, -, -⟩ := ql_inout_module_wires hok
  intro w hmem
  rw [hw, List.mem_append] at hmem
  rcases hmem with h | h
  · rw [List.mem_map] at h
    obtain ⟨x, -, rfl⟩ := h
    by_cases hx : x.is_inout
    · rw [if_pos hx]
      simp [Wire.is_inout, in_wire_of]
    · rw [if_neg hx]
      exact hx
  · obtain ⟨j, -, rfl | rfl⟩ := mem_new_wires.1 h
    · simp [Wire.is_inout, out_wire_of]
    · simp [Wire.is_inout, en_wire_of]

/-! ## The wires after the pass -/

theorem wire_after_lt {m m2 : Module} (hok : ql_inout_module m = .ok m2) {i : Nat}
    (hi : i < m.wires.length) :
    m2.wire i = if (m.wire i).is_inout then in_wire_of (m.wire i) else m.wire i := by
  obtain ⟨hw, -, -⟩ := ql_inout_module_wires hok
  unfold Module.wire
  rw [hw, getD_append_left _ _ _ _ (by simpa using hi)]
  exact getD_map_lt _ _ _ _ _ hi

theorem wire_after_ge {m m2 : Module} (hok : ql_inout_module m = .ok m2) {i : Nat}
    (hi : m.wires.length ≤ i) (hi2 : i < m2.wires.length) :
    m2.wire i ∈ new_wires m (find_inout_wires 0 m.wires) := by
  obtain ⟨hw, -, -⟩ := ql_inout_module_wires hok
  have hlen : i - m.wires.length < (new_wires m (find_inout_wires 0 m.wires)).length := by
    rw [hw] at hi2
    simp only [List.length_append, List.length_map] at hi2
    omega
  unfold Module.wire
  rw [hw, getD_append_right_ge _ _ _ _ (by simpa using hi)]
  simp only [List.length_map]
  exact (mem_iff_getD _ _ _).2 ⟨_, hlen, rfl⟩

/-! ## The connections after the pass -/

theorem new_map_find_pos (m : Module) (base : Nat) (vec : List Nat) (j : Nat)
    (hinj : ∀ a ∈ vec, ∀ b ∈ vec, (m.wire a).name = (m.wire b).name → a = b)
    (hj : j ∈ vec) :
    ∃ p, vec[p]? = some j
      ∧ map_find (m.wire j).name (new_map m base vec)
          = some { inoutWireName := (m.wire j).name, newOutPort := base + 2 * p,
                   newEnablePort := base + 2 * p + 1, inoutConnSigName := [] }
      ∧ (new_wires m vec)[2 * p]? = some (out_wire_of (m.wire j))
      ∧ (new_wires m vec)[2 * p + 1]? = some (en_wire_of (m.wire j)) := by
  induction vec generalizing base with
  | nil => simp at hj
  | cons i vec ih =>
    by_cases hij : i = j
    · subst hij
      exact ⟨0, by simp, by simp [new_map, map_find], by simp [new_wires], by simp [new_wires]⟩
    · have hjv : j ∈ vec := by
        rcases List.mem_cons.1 hj with h | h
        · exact absurd h.symm hij
        · exact h
      have hname : ¬ (m.wire i).name = (m.wire j).name := fun h =>
        hij (hinj i (List.mem_cons_self _ _) j hj h)
      obtain ⟨p, h1, h2, h3, h4⟩ := ih (base + 2)
        (fun a ha b hb => hinj a (List.mem_cons_of_mem _ ha) b (List.mem_cons_of_mem _ hb)) hjv
      refine ⟨p + 1, by simpa using h1, ?_, ?_, ?_⟩
      · simp only [new_map, map_find, if_neg hname]
        rw [h2]
        have e1 : base + 2 + 2 * p = base + 2 * (p + 1) := by omega
        rw [e1]
      · have e : 2 * (p + 1) = 2 * p + 1 + 1 := by omega
        rw [e]
        simpa [new_wires] using h3
      · have e : 2 * (p + 1) + 1 = 2 * p + 1 + 1 + 1 := by omega
        rw [e]
        simpa [new_wires] using h4

theorem module_eq_with_new_ports {m m1 : Module}
    (hw : m1.wires = m.wires ++ new_wires m (find_inout_wires 0 m.wires))
    (hc : m1.cells = m.cells) (hk : m1.connections = m.connections) (hn : m1.name = m.name) :
    m1 = with_new_ports m := by
  cases m1
  cases m
  simp only [with_new_ports] at *
  simp [hw, hc, hk, hn]

theorem with_new_ports_wire_lt (m : Module) {i : Nat} (hi : i < m.wires.length) :
    (with_new_ports m).wire i = m.wire i := by
  unfold Module.wire with_new_ports
  exact getD_append_left _ _ _ _ hi

theorem getD_of_getElem? {α : Type} {l : List α} {k : Nat} {x : α} (d : α)
    (h : l[k]? = some x) : l.getD k d = x := by
  simp [List.getD, h]

/-- The record that the pass keeps for an inout wire, and the two wires behind
the handles in it. -/
theorem recorded_ports_find {m : Module} (hd : (with_new_ports m).names_distinct)
    {j : Nat} (hj : j ∈ find_inout_wires 0 m.wires) :
    ∃ p, (find_inout_wires 0 m.wires)[p]? = some j
      ∧ map_find (m.wire j).name (recorded_ports m)
          = some { inoutWireName := (m.wire j).name, newOutPort := m.wires.length + 2 * p,
                   newEnablePort := m.wires.length + 2 * p + 1,
                   inoutConnSigName :=
                    bound_signal_names (with_new_ports m) (m.wire j).name m.connections }
      ∧ (with_new_ports m).wire (m.wires.length + 2 * p) = out_wire_of (m.wire j)
      ∧ (with_new_ports m).wire (m.wires.length + 2 * p + 1) = en_wire_of (m.wire j) := by
  have hvec : ∀ j ∈ find_inout_wires 0 m.wires, j < m.wires.length :=
    fun j hj => ((mem_inout_vec m j).1 hj).1
  have hlen : m.wires.length ≤ (with_new_ports m).wires.length := by
    simp [with_new_ports]
  have hinj : ∀ a ∈ find_inout_wires 0 m.wires, ∀ b ∈ find_inout_wires 0 m.wires,
      (m.wire a).name = (m.wire b).name → a = b := by
    intro a ha b hb hab
    have := (names_distinct_iff (with_new_ports m)).1 hd a b
      (lt_of_lt_of_le (hvec a ha) hlen) (lt_of_lt_of_le (hvec b hb) hlen)
    rw [with_new_ports_wire_lt m (hvec a ha), with_new_ports_wire_lt m (hvec b hb)] at this
    exact this hab
  obtain ⟨p, h1, h2, h3, h4⟩ := new_map_find_pos m m.wires.length _ j hinj hj
  refine ⟨p, h1, ?_, ?_, ?_⟩
  · unfold recorded_ports
    rw [gather_connections_find, h2]
    simp
  · unfold Module.wire with_new_ports
    rw [getD_append_right_ge _ _ _ _ (by omega)]
    simp only [Nat.add_sub_cancel_left]
    exact getD_of_getElem? _ h3
  · unfold Module.wire with_new_ports
    rw [getD_append_right_ge _ _ _ _ (by omega)]
    have e : m.wires.length + 2 * p + 1 - m.wires.length = 2 * p + 1 := by omega
    simp only [e]
    exact getD_of_getElem? _ h4

/-- The connection list after the pass: the old connections, each rewritten,
followed by the enable connections of the inout wires in the order of
`inoutWireVec`. -/
theorem ql_inout_module_connections {m m2 : Module} (hd : m.names_distinct)
    (hok : ql_inout_module m = .ok m2) :
    ∃ en, enable_map m = .ok en
      ∧ (with_new_ports m).names_distinct
      ∧ m2.connections =
          m.connections.map (rewrite_all (with_new_ports m) (recorded_ports m)
              (find_inout_wires 0 m.wires))
            ++ all_enable_connections (with_new_ports m) (recorded_ports m) en
                (find_inout_wires 0 m.wires)
      ∧ (find_inout_wires 0 m.wires ≠ [] →
          ∀ c ∈ m.connections, ∃ t, SigSpec.as_wire (with_new_ports m) c.1 = .ok t) := by
  obtain ⟨sigmap, m1, mp, en, h0, h1, h2, h3⟩ := ql_inout_module_ok hok
  have hvec : ∀ j ∈ find_inout_wires 0 m.wires, j < m.wires.length :=
    fun j hj => ((mem_inout_vec m j).1 hj).1
  obtain ⟨hw1, hc1, hk1, hn1, hmp⟩ := add_ports_ok hvec (by simp [map_find]) h1
  have hd1 := add_ports_distinct hvec hd h1
  have hm1 := module_eq_with_new_ports hw1 hc1 hk1 hn1
  subst hm1
  simp only [List.nil_append] at hmp
  subst hmp
  have hk : (with_new_ports m).connections = m.connections := rfl
  have hcells : (with_new_ports m).cells = m.cells := rfl
  rw [hk] at h3
  rw [hcells] at h2
  have hlen : m.wires.length ≤ (with_new_ports m).wires.length := by
    simp [with_new_ports]
  have hkeys : ∀ j ∈ find_inout_wires 0 m.wires,
      ∃ info, map_find ((with_new_ports m).wire j).name (recorded_ports m) = some info
        ∧ info.newOutPort ∉ find_inout_wires 0 m.wires
        ∧ info.newEnablePort ∉ find_inout_wires 0 m.wires := by
    intro j hj
    obtain ⟨p, -, hf, -, -⟩ := recorded_ports_find hd1 hj
    rw [with_new_ports_wire_lt m (hvec j hj)]
    refine ⟨_, hf, ?_, ?_⟩
    · intro h
      have := hvec _ h
      simp only at this
      omega
    · intro h
      have := hvec _ h
      simp only at this
      omega
  obtain ⟨hconn, hall, -⟩ := rewrite_ports_connections (find_inout_wires_nodup _ _)
    (fun j hj => lt_of_lt_of_le (hvec j hj) hlen)
    ((names_distinct_iff _).1 hd1) hkeys h3
  refine ⟨en, ?_, hd1, hconn, hall⟩
  unfold enable_map
  rw [h0]
  exact h2

theorem as_wire_of_with_new_ports {m : Module} {sig : SigSpec} {t : Nat}
    (ht : t < m.wires.length) :
    SigSpec.as_wire (with_new_ports m) sig = .ok t ↔ SigSpec.as_wire m sig = .ok t := by
  have hlen : m.wires.length ≤ (with_new_ports m).wires.length := by
    simp [with_new_ports]
  cases sig with
  | nil => simp [SigSpec.as_wire]
  | cons b rest =>
    cases b with
    | const s => simp [SigSpec.as_wire]
    | wire w off =>
      unfold SigSpec.as_wire SigSpec.is_wire
      simp only
      by_cases hw : w = t
      · subst hw
        have h1 : w < (with_new_ports m).wires.length := by omega
        simp only [with_new_ports_wire_lt m ht, h1, ht]
      · constructor
        · intro h
          split at h
          · simp only [Except.ok.injEq] at h; exact absurd h hw
          · cases h
        · intro h
          split at h
          · simp only [Except.ok.injEq] at h; exact absurd h hw
          · cases h

theorem as_wire_with_new_ports {m : Module} {sig : SigSpec} {t : Nat}
    (h : SigSpec.as_wire m sig = .ok t) : SigSpec.as_wire (with_new_ports m) sig = .ok t :=
  (as_wire_of_with_new_ports (as_wire_lt h)).2 h

theorem wire_after_ge_eq {m m2 : Module} (hok : ql_inout_module m = .ok m2) {i : Nat}
    (hi : m.wires.length ≤ i) : m2.wire i = (with_new_ports m).wire i := by
  obtain ⟨hw, -, -⟩ := ql_inout_module_wires hok
  unfold Module.wire with_new_ports
  rw [hw, getD_append_right_ge _ _ _ _ (by simpa using hi),
    getD_append_right_ge _ _ _ _ hi]
  simp

theorem wires_length_after {m m2 : Module} (hok : ql_inout_module m = .ok m2) :
    m2.wires.length = m.wires.length + 2 * (find_inout_wires 0 m.wires).length := by
  obtain ⟨hw, -, -⟩ := ql_inout_module_wires hok
  rw [hw]
  simp [new_wires_length]

theorem width_after {m m2 : Module} (hok : ql_inout_module m = .ok m2) (i : Nat) :
    (m2.wire i).width = ((with_new_ports m).wire i).width := by
  by_cases hi : i < m.wires.length
  · rw [wire_after_lt hok hi, with_new_ports_wire_lt m hi]
    split <;> rfl
  · rw [wire_after_ge_eq hok (by omega)]

theorem rewrite_all_snd (m : Module) (mp : List (String × InoutPortInfo)) (vec : List Nat)
    (c : SigSig) : (rewrite_all m mp vec c).2 = c.2 := by
  unfold rewrite_all
  split
  · split
    · split <;> rfl
    · rfl
  · rfl

/-! ## Names -/

theorem string_append_left_inj (p a b : String) : p ++ a = p ++ b ↔ a = b := by
  constructor
  · intro h
    have h2 := congrArg String.data h
    simp only [String.data_append] at h2
    have h3 := List.append_cancel_left h2
    cases a; cases b
    simp_all
  · intro h; rw [h]

theorem append_ne_empty (p sfx : String) (hp : p ≠ "") : p ++ sfx ≠ "" := by
  intro h
  apply hp
  have h2 := congrArg String.data h
  rw [String.data_append] at h2
  have h3 : p.data = [] := (List.append_eq_nil.1 h2).1
  cases p
  simp_all

theorem get_reference_append (p sfx : String) (hp : IdString.get_reference p = .ok p)
    (hp0 : p ≠ "") (hs : sfx.data.all (fun ch => decide (32 < ch.toNat)) = true) :
    IdString.get_reference (p ++ sfx) = .ok (p ++ sfx) := by
  unfold IdString.get_reference at hp ⊢
  rw [String.data_append]
  cases hd : p.data with
  | nil =>
    exfalso; apply hp0
    cases p
    simp_all
  | cons c rest =>
    rw [hd] at hp
    simp only [List.cons_append]
    simp only at hp
    split at hp
    · cases hp
    · rename_i h1
      split at hp
      · cases hp
      · rename_i h2
        split at hp
        · cases hp
        · rename_i h3
          rw [if_neg h1]
          have h4 : ¬ rest ++ sfx.data = [] := by
            intro h
            exact h2 (List.append_eq_nil.1 h).1
          rw [if_neg h4]
          have h5 : ¬ ((c :: (rest ++ sfx.data)).any (fun ch => decide (ch.toNat ≤ 32)) = true) := by
            intro h
            rw [← List.cons_append, List.any_append, Bool.or_eq_true] at h
            rcases h with h | h
            · exact h3 h
            · rw [List.any_eq_true] at h
              obtain ⟨ch, hch, hle⟩ := h
              rw [List.all_eq_true] at hs
              have := hs ch hch
              simp only [decide_eq_true_eq] at this hle
              omega
          rw [if_neg h5]

/-! ## Printed signals -/

theorem mem_pack_bit {b : SigBit} {cs : List SigChunk} {w o n : Nat}
    (h : SigChunk.wire w o n ∈ SigSpec.pack_bit b cs) :
    (∃ off, b = SigBit.wire w off) ∨ ∃ o2 n2, SigChunk.wire w o2 n2 ∈ cs := by
  unfold SigSpec.pack_bit at h
  split at h
  · rename_i s data cs2
    simp only [List.mem_cons] at h
    rcases h with h | h
    · cases h
    · exact Or.inr ⟨o, n, List.mem_cons_of_mem _ h⟩
  · rename_i s cs2 _
    simp only [List.mem_cons] at h
    rcases h with h | h
    · cases h
    · exact Or.inr ⟨o, n, h⟩
  · rename_i w1 o1 w2 o2 n2 cs2
    split at h
    · rename_i hc
      simp only [List.mem_cons] at h
      rcases h with h | h
      · cases h
        exact Or.inl ⟨_, rfl⟩
      · exact Or.inr ⟨o, n, List.mem_cons_of_mem _ h⟩
    · simp only [List.mem_cons] at h
      rcases h with h | h | h
      · cases h
        exact Or.inl ⟨_, rfl⟩
      · cases h
        exact Or.inr ⟨o, n, List.mem_cons_self _ _⟩
      · exact Or.inr ⟨o, n, List.mem_cons_of_mem _ h⟩
  · rename_i w1 o1 cs2 _
    simp only [List.mem_cons] at h
    rcases h with h | h
    · cases h
      exact Or.inl ⟨_, rfl⟩
    · exact Or.inr ⟨o, n, h⟩

theorem mem_pack {sig : SigSpec} {w o n : Nat} (h : SigChunk.wire w o n ∈ SigSpec.pack sig) :
    ∃ off, SigBit.wire w off ∈ sig := by
  induction sig generalizing o n with
  | nil => simp [SigSpec.pack] at h
  | cons b rest ih =>
    simp only [SigSpec.pack] at h
    rcases mem_pack_bit h with ⟨off, rfl⟩ | ⟨o2, n2, h2⟩
    · exact ⟨off, List.mem_cons_self _ _⟩
    · obtain ⟨off, hoff⟩ := ih h2
      exact ⟨off, List.mem_cons_of_mem _ hoff⟩

theorem dump_sigchunk_congr {m m1 : Module} {c : SigChunk} ( autoint : Bool)
    (h : ∀ w o n, c = SigChunk.wire w o n → m1.wire w = m.wire w) :
    dump_sigchunk m1 c autoint = dump_sigchunk m c autoint := by
  cases c with
  | const data => rfl
  | wire w o n =>
    unfold dump_sigchunk
    simp only [h w o n rfl]

theorem log_signal_congr {m m1 : Module} {sig : SigSpec}
    (h : ∀ w off, SigBit.wire w off ∈ sig → m1.wire w = m.wire w) :
    log_signal m1 sig = log_signal m sig := by
  have hc : ∀ c ∈ SigSpec.pack sig, ∀ a, dump_sigchunk m1 c a = dump_sigchunk m c a := by
    intro c hc a
    apply dump_sigchunk_congr
    intro w o n hcw
    rw [hcw] at hc
    obtain ⟨off, hoff⟩ := mem_pack hc
    exact h w off hoff
  unfold log_signal
  split
  · rename_i c hp
    exact hc c (by rw [hp]; simp) true
  · rename_i cs hne
    have : List.map (fun c => dump_sigchunk m1 c false ++ " ") (SigSpec.pack sig).reverse
        = List.map (fun c => dump_sigchunk m c false ++ " ") (SigSpec.pack sig).reverse := by
      apply List.map_congr_left
      intro c hmem
      rw [hc c (List.mem_reverse.1 hmem) false]
    rw [this]

theorem pack_run (w off k : Nat) :
    SigSpec.pack ((List.range (k + 1)).map (fun i => SigBit.wire w (off + i)))
      = [SigChunk.wire w off (k + 1)] := by
  induction k generalizing off with
  | zero => simp [List.range_succ, SigSpec.pack, SigSpec.pack_bit]
  | succ k ih =>
    rw [List.range_succ_eq_map]
    simp only [List.map_cons, List.map_map, SigSpec.pack, Nat.add_zero]
    have e : (fun i => SigBit.wire w (off + i)) ∘ Nat.succ
        = fun i => SigBit.wire w ((off + 1) + i) := by
      funext i
      simp only [Function.comp, Nat.succ_eq_add_one]
      congr 1
      omega
    rw [e, ih (off + 1)]
    simp [SigSpec.pack_bit]

/-- A valid signal that is a whole wire is printed as the name of the wire. -/
theorem log_signal_of_as_wire {m : Module} {sig : SigSpec} {t : Nat}
    (hw : SigSpec.as_wire m sig = .ok t) (hv : SigSpec.valid m sig = true) :
    log_signal m sig = (m.wire t).name := by
  obtain ⟨his, off, rest, hs⟩ := as_wire_ok_iff hw
  rw [hs] at his
  unfold SigSpec.is_wire at his
  simp only [Bool.and_eq_true, decide_eq_true_eq] at his
  obtain ⟨⟨hrun, -⟩, hwidth⟩ := his
  rw [← hs] at hrun hwidth
  have hlen : sig.length = rest.length + 1 := by rw [hs]; simp
  have hoff : off = 0 := by
    have hmem : SigBit.wire t (off + rest.length) ∈ sig := by
      rw [hrun, List.mem_map]
      exact ⟨rest.length, by rw [List.mem_range]; omega, rfl⟩
    unfold SigSpec.valid at hv
    rw [List.all_eq_true] at hv
    have := hv _ hmem
    simp only [SigBit.valid, Bool.and_eq_true, decide_eq_true_eq] at this
    omega
  subst hoff
  unfold log_signal
  rw [hrun, hlen, pack_run]
  simp only [dump_sigchunk]
  rw [if_pos ⟨by omega, trivial⟩]

theorem mem_all_enable_connections {m : Module} {mp : List (String × InoutPortInfo)}
    {en : List (String × SigSpec)} {vec : List Nat} {c : SigSig}
    (h : c ∈ all_enable_connections m mp en vec) :
    ∃ j ∈ vec, ∃ info, map_find (m.wire j).name mp = some info
      ∧ c ∈ enable_connections m j info.newEnablePort en info.inoutConnSigName := by
  induction vec with
  | nil => simp [all_enable_connections] at h
  | cons i vec ih =>
    simp only [all_enable_connections, List.mem_append] at h
    rcases h with h | h
    · cases hf : map_find (m.wire i).name mp with
      | none => rw [hf] at h; simp at h
      | some info =>
        rw [hf] at h
        exact ⟨i, List.mem_cons_self _ _, info, hf, h⟩
    · obtain ⟨j, hj, info, h1, h2⟩ := ih h
      exact ⟨j, List.mem_cons_of_mem _ hj, info, h1, h2⟩

theorem mem_ofWire {m : Module} {e : Nat} {b : SigBit} (h : b ∈ SigSpec.ofWire m e) :
    ∃ off, b = SigBit.wire e off := by
  unfold SigSpec.ofWire at h
  rw [List.mem_map] at h
  obtain ⟨i, -, hi⟩ := h
  exact ⟨i, hi.symm⟩

theorem valid_wire_bit {m : Module} {sig : SigSpec} (hv : SigSpec.valid m sig = true)
    {w off : Nat} (h : SigBit.wire w off ∈ sig) :
    w < m.wires.length ∧ off < (m.wire w).width := by
  unfold SigSpec.valid at hv
  rw [List.all_eq_true] at hv
  have := hv _ h
  simpa [SigBit.valid] using this

theorem valid_with_new_ports {m : Module} {sig : SigSpec} (hv : SigSpec.valid m sig = true) :
    SigSpec.valid (with_new_ports m) sig = true := by
  unfold SigSpec.valid
  rw [List.all_eq_true]
  intro b hb
  cases b with
  | const s => rfl
  | wire w off =>
    obtain ⟨h1, h2⟩ := valid_wire_bit hv hb
    have hlen : m.wires.length ≤ (with_new_ports m).wires.length := by
      simp [with_new_ports]
    simp only [SigBit.valid, Bool.and_eq_true, decide_eq_true_eq]
    rw [with_new_ports_wire_lt m h1]
    exact ⟨by omega, h2⟩

theorem connections_valid_mem {m : Module} (hv : m.connections_valid = true) {c : SigSig}
    (hc : c ∈ m.connections) : SigSpec.valid m c.1 = true ∧ SigSpec.valid m c.2 = true := by
  unfold Module.connections_valid at hv
  rw [List.all_eq_true] at hv
  simpa using hv c hc

/-! ## The enable signal locator -/

theorem map_find_emplace {β : Type} (k k2 : String) (v : β) (mp : List (String × β)) :
    map_find k (map_emplace k2 v mp) = match map_find k mp with
      | some x => some x
      | none => if k2 = k then some v else none := by
  unfold map_emplace
  cases h2 : map_find k2 mp with
  | some x =>
    simp only
    cases h : map_find k mp with
    | some y => rfl
    | none =>
      simp only
      by_cases hk : k2 = k
      · rw [hk, h] at h2; cases h2
      · rw [if_neg hk]
  | none =>
    simp only
    rw [map_find_append]
    cases h : map_find k mp with
    | some y => rfl
    | none => simp [map_find]

theorem map_emplace_of_some {β : Type} (k : String) (v x : β) (mp : List (String × β))
    (h : map_find k mp = some x) : map_emplace k v mp = mp := by
  simp [map_emplace, h]

theorem map_emplace_idem {β : Type} (k : String) (v : β) (mp : List (String × β)) :
    map_emplace k v (map_emplace k v mp) = map_emplace k v mp := by
  have h := map_find_emplace k k v mp
  cases h1 : map_find k mp with
  | some x =>
    rw [h1] at h
    exact map_emplace_of_some k v x _ h
  | none =>
    rw [h1] at h
    simp only [if_true] at h
    exact map_emplace_of_some k v v _ h

theorem map_find_foldl_emplace {β : Type} (k : String) (entries : List (String × β))
    (acc : List (String × β)) :
    map_find k (entries.foldl (fun mp e => map_emplace e.1 e.2 mp) acc) =
      match map_find k acc with
      | some x => some x
      | none => map_find k entries := by
  induction entries generalizing acc with
  | nil =>
    simp only [List.foldl_nil, map_find]
    cases map_find k acc <;> rfl
  | cons e rest ih =>
    obtain ⟨k2, v⟩ := e
    simp only [List.foldl_cons]
    rw [ih, map_find_emplace]
    cases h : map_find k acc with
    | some x => rfl
    | none =>
      simp only [map_find]
      by_cases hk : k2 = k
      · simp [hk]
      · simp [hk]

theorem scan_cell_connection_ok {m : Module} {sm : SigMap} {cell : Cell}
    {acc acc1 : List (String × SigSpec)} {pn : String}
    (hok : scan_cell_connection m sm cell acc pn = .ok acc1) :
    (pn = "\\Y" ∧ cell.is_tristate sm = true →
        ∃ s y, cell.getPort "\\S" = .ok s ∧ cell.getPort "\\Y" = .ok y
          ∧ acc1 = map_emplace (log_signal m y) s acc)
      ∧ (¬ (pn = "\\Y" ∧ cell.is_tristate sm = true) → acc1 = acc) := by
  unfold scan_cell_connection at hok
  by_cases h1 : (decide (pn = "\\Y") && is_mux_or_tribuf_type cell.type) = true
  · rw [if_pos h1] at hok
    simp only at hok
    by_cases h2 : (is_tribuf_type cell.type || has_z_data_input sm cell) = true
    · rw [if_pos h2] at hok
      have htri : pn = "\\Y" ∧ cell.is_tristate sm = true := by
        simp only [Bool.and_eq_true, decide_eq_true_eq] at h1
        exact ⟨h1.1, by simp only [Cell.is_tristate, Bool.and_eq_true]; exact ⟨h1.2, h2⟩⟩
      cases hs : cell.getPort "\\S" with
      | error e => simp [hs] at hok
      | ok s =>
        cases hy : cell.getPort "\\Y" with
        | error e => simp [hs, hy] at hok
        | ok y =>
          simp only [hs, hy, assign_map_apply] at hok
          cases hr : IdString.get_reference (log_signal m y) with
          | error e => simp [hr] at hok
          | ok key =>
            have := get_reference_ok hr
            subst this
            simp only [hr, Except.ok.injEq] at hok
            exact ⟨fun _ => ⟨s, y, rfl, rfl, hok.symm⟩, fun h => absurd htri h⟩
    · rw [if_neg h2] at hok
      simp only [Except.ok.injEq] at hok
      refine ⟨fun h => ?_, fun _ => hok.symm⟩
      exfalso
      apply h2
      have := h.2
      simp only [Cell.is_tristate, Bool.and_eq_true] at this
      exact this.2
  · rw [if_neg h1] at hok
    simp only [Except.ok.injEq] at hok
    refine ⟨fun h => ?_, fun _ => hok.symm⟩
    exfalso
    apply h1
    have := h.2
    simp only [Cell.is_tristate, Bool.and_eq_true] at this
    simp only [Bool.and_eq_true, decide_eq_true_eq]
    exact ⟨h.1, this.1⟩

theorem scan_cell_ok {m : Module} {sm : SigMap} {cell : Cell}
    {conns : List (String × SigSpec)} {acc acc2 : List (String × SigSpec)}
    (hok : scan_cell m sm cell acc conns = .ok acc2) :
    ((cell.is_tristate sm = true ∧ ∃ p ∈ conns, p.1 = "\\Y") →
        ∃ s y, cell.getPort "\\S" = .ok s ∧ cell.getPort "\\Y" = .ok y
          ∧ acc2 = map_emplace (log_signal m y) s acc)
      ∧ (¬ (cell.is_tristate sm = true ∧ ∃ p ∈ conns, p.1 = "\\Y") → acc2 = acc) := by
  induction conns generalizing acc with
  | nil =>
    simp only [scan_cell, Except.ok.injEq] at hok
    exact ⟨fun h => by simp at h, fun _ => hok.symm⟩
  | cons p rest ih =>
    unfold scan_cell at hok
    cases h1 : scan_cell_connection m sm cell acc p.1 with
    | error e => simp [h1] at hok
    | ok acc1 =>
      simp only [h1] at hok
      obtain ⟨hc1, hc2⟩ := scan_cell_connection_ok h1
      obtain ⟨hr1, hr2⟩ := ih hok
      by_cases hp : p.1 = "\\Y" ∧ cell.is_tristate sm = true
      · obtain ⟨s, y, hs, hy, hacc1⟩ := hc1 hp
        refine ⟨fun _ => ⟨s, y, hs, hy, ?_⟩, fun h => absurd ⟨hp.2, p, List.mem_cons_self _ _, hp.1⟩ h⟩
        by_cases hrest : cell.is_tristate sm = true ∧ ∃ q ∈ rest, q.1 = "\\Y"
        · obtain ⟨s2, y2, hs2, hy2, hacc2⟩ := hr1 hrest
          rw [hs] at hs2
          rw [hy] at hy2
          simp only [Except.ok.injEq] at hs2 hy2
          subst hs2 hy2
          rw [hacc2, hacc1, map_emplace_idem]
        · rw [hr2 hrest, hacc1]
      · have e1 := hc2 hp
        subst e1
        constructor
        · rintro ⟨ht, q, hq, hqy⟩
          rcases List.mem_cons.1 hq with rfl | hq2
          · exact absurd ⟨hqy, ht⟩ hp
          · exact hr1 ⟨ht, q, hq2, hqy⟩
        · intro h
          apply hr2
          rintro ⟨ht, q, hq, hqy⟩
          exact h ⟨ht, q, List.mem_cons_of_mem _ hq, hqy⟩

theorem getPort_ok_iff (cell : Cell) (pn : String) :
    (∃ y, cell.getPort pn = .ok y) ↔ ∃ p ∈ cell.connections, p.1 = pn := by
  unfold Cell.getPort
  constructor
  · rintro ⟨y, hy⟩
    cases hf : cell.connections.find? (fun p => decide (p.1 = pn)) with
    | none => rw [hf] at hy; cases hy
    | some p =>
      refine ⟨p, List.mem_of_find?_eq_some hf, ?_⟩
      simpa using List.find?_some hf
  · rintro ⟨p, hp, hpn⟩
    cases hf : cell.connections.find? (fun p => decide (p.1 = pn)) with
    | none =>
      rw [List.find?_eq_none] at hf
      exact absurd (by simpa using hpn) (hf p hp)
    | some q => exact ⟨q.2, rfl⟩

theorem scan_cell_entry {m : Module} {sm : SigMap} {cell : Cell}
    {acc acc2 : List (String × SigSpec)}
    (hok : scan_cell m sm cell acc cell.connections = .ok acc2) :
    acc2 = (match cell.enable_entry m sm with
      | some e => map_emplace e.1 e.2 acc
      | none => acc)
      ∧ (cell.is_tristate sm = true → ∀ y, cell.getPort "\\Y" = .ok y →
          ∃ s, cell.getPort "\\S" = .ok s) := by
  obtain ⟨h1, h2⟩ := scan_cell_ok hok
  unfold Cell.enable_entry
  by_cases ht : cell.is_tristate sm = true
  · rw [if_pos ht]
    cases hy : cell.getPort "\\Y" with
    | error e =>
      have hno : ¬ (cell.is_tristate sm = true ∧ ∃ p ∈ cell.connections, p.1 = "\\Y") := by
        rintro ⟨-, hp⟩
        obtain ⟨y, hy2⟩ := (getPort_ok_iff cell "\\Y").2 hp
        rw [hy] at hy2; cases hy2
      exact ⟨h2 hno, fun _ y hy2 => by cases hy2⟩
    | ok y =>
      obtain ⟨s, y2, hs, hy2, hacc⟩ := h1 ⟨ht, (getPort_ok_iff cell "\\Y").1 ⟨y, hy⟩⟩
      rw [hy] at hy2
      simp only [Except.ok.injEq] at hy2
      subst hy2
      rw [hs]
      exact ⟨hacc, fun _ _ _ => ⟨s, rfl⟩⟩
  · rw [if_neg ht]
    exact ⟨h2 (fun h => ht h.1), fun h => absurd h ht⟩

theorem find_enables_ok {m : Module} {sm : SigMap} {cells : List Cell}
    {acc en : List (String × SigSpec)}
    (hok : find_enables m sm acc cells = .ok en) :
    en = (enable_entries m sm cells).foldl (fun mp e => map_emplace e.1 e.2 mp) acc
      ∧ ∀ cell ∈ cells, cell.is_tristate sm = true → ∀ y, cell.getPort "\\Y" = .ok y →
          ∃ s, cell.getPort "\\S" = .ok s := by
  induction cells generalizing acc with
  | nil =>
    simp only [find_enables, Except.ok.injEq] at hok
    exact ⟨by simp [enable_entries, hok], fun c hc => by simp at hc⟩
  | cons cell rest ih =>
    unfold find_enables at hok
    cases h1 : scan_cell m sm cell acc cell.connections with
    | error e => simp [h1] at hok
    | ok acc1 =>
      simp only [h1] at hok
      obtain ⟨he, hs⟩ := scan_cell_entry h1
      obtain ⟨hen, hrest⟩ := ih hok
      constructor
      · rw [hen, he]
        unfold enable_entries
        cases hentry : cell.enable_entry m sm with
        | none => simp [List.filterMap_cons, hentry]
        | some e => simp [List.filterMap_cons, hentry]
      · intro c hc
        rcases List.mem_cons.1 hc with rfl | h
        · exact hs
        · exact hrest c h

theorem enable_map_ok {m : Module} {en : List (String × SigSpec)}
    (hen : enable_map m = .ok en) :
    ∃ sm, SigMap.ofModule m = .ok sm
      ∧ (∀ k, map_find k en = map_find k (enable_entries (with_new_ports m) sm m.cells))
      ∧ ∀ cell ∈ m.cells, cell.is_tristate sm = true → ∀ y, cell.getPort "\\Y" = .ok y →
          ∃ s, cell.getPort "\\S" = .ok s := by
  unfold enable_map at hen
  cases h0 : SigMap.ofModule m with
  | error e => simp [h0] at hen
  | ok sm =>
    simp only [h0] at hen
    obtain ⟨h1, h2⟩ := find_enables_ok hen
    refine ⟨sm, rfl, ?_, h2⟩
    intro k
    rw [h1, map_find_foldl_emplace]
    rfl

theorem map_find_eq_none_iff {β : Type} (k : String) (mp : List (String × β)) :
    map_find k mp = none ↔ ∀ e ∈ mp, e.1 ≠ k := by
  induction mp with
  | nil => simp [map_find]
  | cons x xs ih =>
    obtain ⟨k2, v⟩ := x
    by_cases h : k2 = k
    · simp [map_find, h]
    · simp [map_find, h, ih]

theorem map_find_some_mem {β : Type} {k : String} {mp : List (String × β)} {v : β}
    (h : map_find k mp = some v) : (k, v) ∈ mp := by
  induction mp with
  | nil => simp [map_find] at h
  | cons x xs ih =>
    obtain ⟨k2, v2⟩ := x
    by_cases hk : k2 = k
    · simp only [map_find, hk, if_true, Option.some.injEq] at h
      rw [hk, h]
      exact List.mem_cons_self _ _
    · simp only [map_find, hk, if_false] at h
      exact List.mem_cons_of_mem _ (ih h)

theorem is_mux_or_tribuf_type_eq (type : String) :
    is_mux_or_tribuf_type type = (is_mux_type type || is_tribuf_type type) := by
  simp [is_mux_or_tribuf_type, is_mux_type, is_tribuf_type, Bool.or_assoc]

/-- The condition of lines 123-136 in words: a buffer kind, or a multiplexer kind
with a data bit that `sigmap` takes to the high-impedance constant. -/
theorem is_tristate_iff (sm : SigMap) (cell : Cell) :
    cell.is_tristate sm = true ↔
      is_tribuf_type cell.type = true
        ∨ (is_mux_type cell.type = true
            ∧ ∃ p ∈ cell.connections, (p.1 = "\\A" ∨ p.1 = "\\B")
                ∧ ∃ b ∈ p.2, sm b = SigBit.const State.Sz) := by
  have hz : has_z_data_input sm cell = true ↔
      ∃ p ∈ cell.connections, (p.1 = "\\A" ∨ p.1 = "\\B")
        ∧ ∃ b ∈ p.2, sm b = SigBit.const State.Sz := by
    simp [has_z_data_input, SigMap.apply]
  unfold Cell.is_tristate
  rw [is_mux_or_tribuf_type_eq, ← hz]
  cases is_mux_type cell.type <;> cases is_tribuf_type cell.type <;>
    cases has_z_data_input sm cell <;> simp

theorem mem_enable_entries {m : Module} {sm : SigMap} {cells : List Cell} {k : String}
    {v : SigSpec} :
    (k, v) ∈ enable_entries m sm cells ↔
      ∃ cell ∈ cells, cell.is_tristate sm = true
        ∧ (∃ y, cell.getPort "\\Y" = .ok y ∧ log_signal m y = k)
        ∧ cell.getPort "\\S" = .ok v := by
  unfold enable_entries
  rw [List.mem_filterMap]
  constructor
  · rintro ⟨cell, hc, he⟩
    unfold Cell.enable_entry at he
    split at he
    · rename_i ht
      split at he
      · rename_i y s hy hs
        simp only [Option.some.injEq, Prod.mk.injEq] at he
        exact ⟨cell, hc, ht, ⟨y, hy, he.1⟩, by rw [hs, he.2]⟩
      · cases he
    · cases he
  · rintro ⟨cell, hc, ht, ⟨y, hy, hk⟩, hs⟩
    refine ⟨cell, hc, ?_⟩
    unfold Cell.enable_entry
    rw [if_pos ht, hy, hs]
    simp only [hk]

/-! ## The replicated enable -/

theorem replicate_enable_eq (connSig : SigSpec) (n : Nat) (sig_en : SigSpec) :
    replicate_enable connSig n sig_en = sig_en ++ (List.replicate n connSig).flatten := by
  induction n generalizing sig_en with
  | zero => simp [replicate_enable]
  | succ n ih =>
    simp only [replicate_enable, assign_map_apply]
    rw [ih, List.replicate_succ, List.flatten_cons, List.append_assoc]

theorem enable_source_eq (wire : Wire) (connSig : SigSpec) :
    enable_source wire connSig =
      (List.replicate (Int.natAbs ((wire.width : Int) - wire.start_offset - 1) + 1)
        connSig).flatten := by
  unfold enable_source
  rw [replicate_enable_eq, assign_map_apply, List.replicate_succ, List.flatten_cons]

/-! ## More on the wires after the pass -/

theorem find_inout_wires_length (ws : List Wire) (base : Nat) :
    (find_inout_wires base ws).length = (ws.filter (fun w => decide w.is_inout)).length := by
  induction ws generalizing base with
  | nil => rfl
  | cons w ws ih =>
    unfold find_inout_wires
    by_cases hw : (w.port_input && w.port_output) = true
    · have hio : w.is_inout := by simpa [Wire.is_inout] using hw
      rw [if_pos hw, List.filter_cons_of_pos (by simpa using hio)]
      simp [ih]
    · have hio : ¬ w.is_inout := by simpa [Wire.is_inout] using hw
      rw [if_neg hw, List.filter_cons_of_neg (by simpa using hio)]
      exact ih _

theorem new_wires_eq_flatMap (m : Module) (pre ws : List Wire) (h : m.wires = pre ++ ws) :
    new_wires m (find_inout_wires pre.length ws)
      = (ws.filter (fun w => decide w.is_inout)).flatMap
          (fun w => [out_wire_of w, en_wire_of w]) := by
  induction ws generalizing pre with
  | nil => rfl
  | cons w ws ih =>
    have hnext := ih (pre ++ [w]) (by rw [h]; simp)
    simp only [List.length_append, List.length_singleton] at hnext
    unfold find_inout_wires
    by_cases hw : (w.port_input && w.port_output) = true
    · have hio : w.is_inout := by simpa [Wire.is_inout] using hw
      rw [if_pos hw, List.filter_cons_of_pos (by simpa using hio)]
      have hwire : m.wire pre.length = w := by
        unfold Module.wire
        rw [h, getD_append_right_ge _ _ _ _ (le_refl _)]
        simp
      simp only [new_wires, List.flatMap_cons, hwire, hnext]
      rfl
    · have hio : ¬ w.is_inout := by simpa [Wire.is_inout] using hw
      rw [if_neg hw, List.filter_cons_of_neg (by simpa using hio)]
      exact hnext

/-- The wire names are pairwise distinct after the pass when they were so
before. -/
theorem names_distinct_after {m m2 : Module} (hd : m.names_distinct)
    (hok : ql_inout_module m = .ok m2) : m2.names_distinct := by
  obtain ⟨sigmap, m1, mp, en, h0, h1, h2, h3⟩ := ql_inout_module_ok hok
  have hvec : ∀ j ∈ find_inout_wires 0 m.wires, j < m.wires.length :=
    fun j hj => ((mem_inout_vec m j).1 hj).1
  obtain ⟨hw1, hc1, hk1, hn1, hmp⟩ := add_ports_ok hvec (by simp [map_find]) h1
  have hd1 := add_ports_distinct hvec hd h1
  have hm1 := module_eq_with_new_ports hw1 hc1 hk1 hn1
  subst hm1
  simp only [List.nil_append] at hmp
  subst hmp
  have hk : (with_new_ports m).connections = m.connections := rfl
  rw [hk] at h3
  have hlen : m.wires.length ≤ (with_new_ports m).wires.length := by
    simp [with_new_ports]
  have hkeys : ∀ j ∈ find_inout_wires 0 m.wires,
      ∃ info, map_find ((with_new_ports m).wire j).name (recorded_ports m) = some info
        ∧ info.newOutPort ∉ find_inout_wires 0 m.wires
        ∧ info.newEnablePort ∉ find_inout_wires 0 m.wires := by
    intro j hj
    obtain ⟨p, -, hf, -, -⟩ := recorded_ports_find hd1 hj
    rw [with_new_ports_wire_lt m (hvec j hj)]
    refine ⟨_, hf, ?_, ?_⟩
    · intro h
      have := hvec _ h
      simp only at this
      omega
    · intro h
      have := hvec _ h
      simp only at this
      omega
  obtain ⟨-, -, hinj⟩ := rewrite_ports_connections (find_inout_wires_nodup _ _)
    (fun j hj => lt_of_lt_of_le (hvec j hj) hlen)
    ((names_distinct_iff _).1 hd1) hkeys h3
  exact (names_distinct_iff m2).2 hinj

/-- Every connection that the pass appends is the enable connection of an inout
wire, with a value of the enable map replicated as its source. -/
theorem appended_connections {m m2 : Module} {en : List (String × SigSpec)}
    (hd : m.names_distinct) (hen : enable_map m = .ok en)
    (hok : ql_inout_module m = .ok m2) :
    ∀ c ∈ m2.connections.drop m.connections.length,
      ∃ i e k v, i < m.wires.length ∧ (m.wire i).is_inout
        ∧ e < m2.wires.length ∧ (m2.wire e).name = (m.wire i).name ++ "_$en"
        ∧ map_find k en = some v
        ∧ c = (SigSpec.ofWire m2 e, enable_source (m.wire i) v) := by
  obtain ⟨en2, hen2, hd1, hconn, -⟩ := ql_inout_module_connections hd hok
  rw [hen] at hen2
  simp only [Except.ok.injEq] at hen2
  subst hen2
  intro c hc
  have hdrop : m2.connections.drop m.connections.length
      = all_enable_connections (with_new_ports m) (recorded_ports m) en
          (find_inout_wires 0 m.wires) := by
    rw [hconn]
    have hl : (List.map (rewrite_all (with_new_ports m) (recorded_ports m)
        (find_inout_wires 0 m.wires)) m.connections).length = m.connections.length := by
      simp
    rw [← hl, List.drop_left]
  rw [hdrop] at hc
  obtain ⟨j, hjv, info, hfj, hcj⟩ := mem_all_enable_connections hc
  obtain ⟨hjl, hjio⟩ := (mem_inout_vec m j).1 hjv
  obtain ⟨p, hp, hf, -, he⟩ := recorded_ports_find hd1 hjv
  rw [with_new_ports_wire_lt m hjl, hf] at hfj
  simp only [Option.some.injEq] at hfj
  subst hfj
  obtain ⟨s, sig, -, hfs, rfl⟩ := mem_enable_connections hcj
  have hpl : p < (find_inout_wires 0 m.wires).length := by
    by_contra h
    rw [List.getElem?_eq_none (by omega)] at hp
    cases hp
  refine ⟨j, m.wires.length + 2 * p + 1, s, sig, hjl, hjio, ?_, ?_, hfs, ?_⟩
  · rw [wires_length_after hok]; omega
  · rw [wire_after_ge_eq hok (by omega), he]; rfl
  · rw [ofWire_congr (width_after hok), with_new_ports_wire_lt m hjl]

/-! ## The enable connections, wire by wire -/

theorem all_enable_connections_cons (m : Module) (mp : List (String × InoutPortInfo))
    (en : List (String × SigSpec)) (j : Nat) (vec : List Nat) :
    all_enable_connections m mp en (j :: vec)
      = (match map_find (m.wire j).name mp with
          | some info => enable_connections m j info.newEnablePort en info.inoutConnSigName
          | none => []) ++ all_enable_connections m mp en vec := rfl

theorem all_enable_connections_append (m : Module) (mp : List (String × InoutPortInfo))
    (en : List (String × SigSpec)) (a b : List Nat) :
    all_enable_connections m mp en (a ++ b)
      = all_enable_connections m mp en a ++ all_enable_connections m mp en b := by
  induction a with
  | nil => rfl
  | cons j a ih =>
    rw [List.cons_append, all_enable_connections_cons, all_enable_connections_cons, ih,
      List.append_assoc]

/-- No rewritten old connection has a bit of a new wire in its target, except
the output port it has been moved to. -/
theorem rewritten_target_bits {m : Module} (hd1 : (with_new_ports m).names_distinct)
    (hvalid : m.connections_valid = true) {c0 : SigSig} (hc0 : c0 ∈ m.connections)
    {b : SigBit}
    (hb : b ∈ (rewrite_all (with_new_ports m) (recorded_ports m)
      (find_inout_wires 0 m.wires) c0).1) (p off : Nat) :
    b ≠ SigBit.wire (m.wires.length + 2 * p + 1) off := by
  intro hboff
  subst hboff
  have hv0 := (connections_valid_mem hvalid hc0).1
  have hold : SigBit.wire (m.wires.length + 2 * p + 1) off ∉ c0.1 := by
    intro h
    have := (valid_wire_bit hv0 h).1
    omega
  unfold rewrite_all at hb
  cases hw : SigSpec.as_wire (with_new_ports m) c0.1 with
  | error e =>
    rw [hw] at hb
    exact hold hb
  | ok t =>
    rw [hw] at hb
    simp only at hb
    by_cases htv : t ∈ find_inout_wires 0 m.wires
    · rw [if_pos htv] at hb
      obtain ⟨htl, -⟩ := (mem_inout_vec m t).1 htv
      obtain ⟨pt, -, hft, -, -⟩ := recorded_ports_find hd1 htv
      rw [with_new_ports_wire_lt m htl, hft] at hb
      obtain ⟨off2, h2⟩ := mem_ofWire hb
      simp only [SigBit.wire.injEq] at h2
      omega
    · rw [if_neg htv] at hb
      exact hold hb

/-- The position of a handle in a list without repetition is unique. -/
theorem nodup_index_unique {l : List Nat} (hnd : l.Nodup) {p q j : Nat}
    (hp : l[p]? = some j) (hq : l[q]? = some j) : p = q := by
  have hpl : p < l.length := by
    by_contra h
    rw [List.getElem?_eq_none (by omega)] at hp
    cases hp
  have hql : q < l.length := by
    by_contra h
    rw [List.getElem?_eq_none (by omega)] at hq
    cases hq
  rw [List.getElem?_eq_getElem hpl] at hp
  rw [List.getElem?_eq_getElem hql] at hq
  have hinj := List.nodup_iff_injective_getElem.1 hnd
  have := @hinj ⟨p, hpl⟩ ⟨q, hql⟩ (by
    simp only [Option.some.injEq] at hp hq
    simp only [hp, hq])
  exact congrArg Fin.val this

/-- The enable connections appended for other wires have no bit of the enable
port of the wire at position `p`. -/
theorem other_enable_target_bits {m : Module} (hd1 : (with_new_ports m).names_distinct)
    {en : List (String × SigSpec)} {a : List Nat} {i p : Nat}
    (ha : ∀ j ∈ a, j ∈ find_inout_wires 0 m.wires) (hia : i ∉ a)
    (hp : (find_inout_wires 0 m.wires)[p]? = some i) {c : SigSig}
    (hc : c ∈ all_enable_connections (with_new_ports m) (recorded_ports m) en a)
    {b : SigBit} (hb : b ∈ c.1) (off : Nat) :
    b ≠ SigBit.wire (m.wires.length + 2 * p + 1) off := by
  intro hboff
  subst hboff
  obtain ⟨j, hja, info, hfj, hcj⟩ := mem_all_enable_connections hc
  have hjv := ha j hja
  obtain ⟨hjl, -⟩ := (mem_inout_vec m j).1 hjv
  obtain ⟨pj, hpj, hfj2, -, -⟩ := recorded_ports_find hd1 hjv
  rw [with_new_ports_wire_lt m hjl, hfj2] at hfj
  simp only [Option.some.injEq] at hfj
  subst hfj
  obtain ⟨s, sig, -, -, rfl⟩ := mem_enable_connections hcj
  obtain ⟨off2, h2⟩ := mem_ofWire hb
  simp only [SigBit.wire.injEq] at h2
  have hpp : pj = p := by omega
  subst hpp
  rw [hp] at hpj
  simp only [Option.some.injEq] at hpj
  subst hpj
  exact hia hja

/-- What lines 104-113 record for the inout wire `i`: the printed sources of the
connections whose target is the whole wire `i`. -/
theorem bound_signal_names_eq {m : Module} (hwf : m.names_distinct)
    (hvalid : m.connections_valid = true) {i : Nat} (hi : i < m.wires.length)
    (hall : ∀ c ∈ m.connections, ∃ t, SigSpec.as_wire (with_new_ports m) c.1 = .ok t) :
    bound_signal_names (with_new_ports m) (m.wire i).name m.connections
      = (bound_signals m i).map (log_signal m) := by
  unfold bound_signal_names bound_signals
  rw [List.map_map]
  have hfilter : m.connections.filter
        (fun c => decide (log_signal (with_new_ports m) c.1 = (m.wire i).name))
      = m.connections.filter (fun c => SigSpec.is_whole_wire m c.1 i) := by
    apply List.filter_congr
    intro c0 hc0
    obtain ⟨hv1, -⟩ := connections_valid_mem hvalid hc0
    obtain ⟨t, ht⟩ := hall c0 hc0
    obtain ⟨-, offt, rest, hst⟩ := as_wire_ok_iff ht
    have htl : t < m.wires.length :=
      (valid_wire_bit hv1 (by rw [hst]; exact List.mem_cons_self _ _)).1
    rw [log_signal_of_as_wire ht (valid_with_new_ports hv1), with_new_ports_wire_lt m htl]
    unfold SigSpec.is_whole_wire
    rw [(as_wire_of_with_new_ports htl).1 ht]
    simp only
    by_cases hti : t = i
    · subst hti; simp
    · have hne : (m.wire t).name ≠ (m.wire i).name :=
        fun h => hti ((names_distinct_iff m).1 hwf t i htl hi h)
      simp [hti, hne]
  rw [hfilter]
  apply List.map_congr_left
  intro c0 hc0
  have hc0m : c0 ∈ m.connections := (List.mem_filter.1 hc0).1
  obtain ⟨-, hv2⟩ := connections_valid_mem hvalid hc0m
  exact log_signal_congr (fun w off3 hmem =>
    with_new_ports_wire_lt m (valid_wire_bit hv2 hmem).1)

theorem length_filterMap_option_map {α β γ : Type} (l : List α) (f : α → Option β)
    (g : α → β → γ) :
    (l.filterMap (fun s => (f s).map (g s))).length
      = (l.filter (fun s => (f s).isSome)).length := by
  induction l with
  | nil => rfl
  | cons a l ih =>
    cases h : f a with
    | none => simp [List.filterMap_cons, List.filter_cons, h, ih]
    | some v => simp [List.filterMap_cons, List.filter_cons, h, ih]

/-- The enable connections of the whole second loop, split at the inout wire at
position `p` of `inoutWireVec`. -/
theorem all_enable_connections_at {m : Module} (hd1 : (with_new_ports m).names_distinct)
    (en : List (String × SigSpec)) {i p : Nat}
    (hp : (find_inout_wires 0 m.wires)[p]? = some i) :
    all_enable_connections (with_new_ports m) (recorded_ports m) en
        (find_inout_wires 0 m.wires)
      = all_enable_connections (with_new_ports m) (recorded_ports m) en
          ((find_inout_wires 0 m.wires).take p)
        ++ enable_connections (with_new_ports m) i (m.wires.length + 2 * p + 1) en
            (bound_signal_names (with_new_ports m) (m.wire i).name m.connections)
        ++ all_enable_connections (with_new_ports m) (recorded_ports m) en
            ((find_inout_wires 0 m.wires).drop (p + 1)) := by
  have hpl : p < (find_inout_wires 0 m.wires).length := by
    by_contra h
    rw [List.getElem?_eq_none (by omega)] at hp
    cases hp
  have hget : (find_inout_wires 0 m.wires)[p] = i := by
    rw [List.getElem?_eq_getElem hpl] at hp
    exact Option.some.inj hp
  have hiv : i ∈ find_inout_wires 0 m.wires := by
    rw [← hget]
    exact List.getElem_mem _
  obtain ⟨hil, -⟩ := (mem_inout_vec m i).1 hiv
  obtain ⟨q, hq, hf, -, -⟩ := recorded_ports_find hd1 hiv
  have hqp : q = p := nodup_index_unique (find_inout_wires_nodup _ _) hq hp
  subst hqp
  have hsplit : find_inout_wires 0 m.wires
      = (find_inout_wires 0 m.wires).take q ++ i :: (find_inout_wires 0 m.wires).drop (q + 1) := by
    rw [← hget, List.getElem_cons_drop, List.take_append_drop]
  conv_lhs => rw [hsplit]
  rw [all_enable_connections_append, all_enable_connections_cons,
    with_new_ports_wire_lt m hil, hf, List.append_assoc]

/-- Membership in the parts of a list without repetition around position `p`. -/
theorem not_mem_take_drop {l : List Nat} (hnd : l.Nodup) {p i : Nat} (hp : l[p]? = some i) :
    i ∉ l.take p ∧ i ∉ l.drop (p + 1) := by
  have hpl : p < l.length := by
    by_contra h
    rw [List.getElem?_eq_none (by omega)] at hp
    cases hp
  have hget : l[p] = i := by
    rw [List.getElem?_eq_getElem hpl] at hp
    exact Option.some.inj hp
  have hsplit : l = l.take p ++ i :: l.drop (p + 1) := by
    rw [← hget, List.getElem_cons_drop, List.take_append_drop]
  rw [hsplit] at hnd
  rw [List.nodup_append] at hnd
  obtain ⟨-, h2, h3⟩ := hnd
  refine ⟨fun h => ?_, ?_⟩
  · exact h3 h (List.mem_cons_self _ _)
  · exact (List.nodup_cons.1 h2).1

/-! ## The pass and the cell list

The pass reads the cells in the enable signal locator only, and their names when
a wire is added or renamed. -/

theorem count_id_setCells {m : Module} {cs : List Cell}
    (hn : cs.map (fun c => c.name) = m.cells.map (fun c => c.name)) (id : String) :
    (m.setCells cs).count_id id = m.count_id id := by
  have h : ∀ l : List Cell, (l.filter (fun c => decide (c.name = id))).length
      = ((l.map (fun c => c.name)).filter (fun n => decide (n = id))).length := by
    intro l
    induction l with
    | nil => rfl
    | cons c l ih =>
      by_cases hc : c.name = id
      · simp [List.filter_cons, hc, ih]
      · simp [List.filter_cons, hc, ih]
  unfold Module.count_id Module.setCells
  simp only
  rw [h cs, h m.cells, hn]

theorem addWire_setCells {m : Module} {cs : List Cell}
    (hn : cs.map (fun c => c.name) = m.cells.map (fun c => c.name))
    (nm : String) (other : Wire) :
    (m.setCells cs).addWire nm other
      = (m.addWire nm other).map (fun r => (r.1.setCells cs, r.2)) := by
  unfold Module.addWire
  cases IdString.get_reference nm with
  | error e => rfl
  | ok n =>
    simp only [count_id_setCells hn]
    by_cases h1 : n = ""
    · rw [if_pos h1, if_pos h1]; rfl
    · rw [if_neg h1, if_neg h1]
      by_cases h2 : m.count_id n ≠ 0
      · rw [if_pos h2, if_pos h2]; rfl
      · rw [if_neg h2, if_neg h2]; rfl

theorem addWire_cells {m m1 : Module} {nm : String} {other : Wire} {h : Nat}
    (hok : m.addWire nm other = .ok (m1, h)) : m1.cells = m.cells :=
  (addWire_ok hok).2.1

theorem rename_setCells {m : Module} {cs : List Cell}
    (hn : cs.map (fun c => c.name) = m.cells.map (fun c => c.name))
    (wire : Nat) (nm : String) :
    (m.setCells cs).rename wire nm = (m.rename wire nm).map (fun r => r.setCells cs) := by
  unfold Module.rename
  cases IdString.get_reference nm with
  | error e => rfl
  | ok n =>
    simp only
    have hc : (Module.count_id { m.setCells cs with wires := dropAt wire (m.setCells cs).wires } n)
        = Module.count_id { m with wires := dropAt wire m.wires } n :=
      @count_id_setCells { m with wires := dropAt wire m.wires } cs hn n
    rw [hc]
    by_cases h1 : n = ""
    · rw [if_pos h1, if_pos h1]; rfl
    · rw [if_neg h1, if_neg h1]
      by_cases h2 : Module.count_id { m with wires := dropAt wire m.wires } n ≠ 0
      · rw [if_pos h2, if_pos h2]; rfl
      · rw [if_neg h2, if_neg h2]; rfl

theorem rename_cells {m m2 : Module} {j : Nat} {nm : String}
    (hok : m.rename j nm = .ok m2) : m2.cells = m.cells := by
  rw [(rename_ok hok).1]
  rfl

theorem add_ports_for_setCells {m : Module} {cs : List Cell}
    (hn : cs.map (fun c => c.name) = m.cells.map (fun c => c.name))
    (mp : List (String × InoutPortInfo)) (wire : Nat) :
    add_ports_for (m.setCells cs) mp wire
        = (add_ports_for m mp wire).map (fun r => (r.1.setCells cs, r.2))
      ∧ ∀ r, add_ports_for m mp wire = .ok r → r.1.cells = m.cells := by
  unfold add_ports_for
  have hw : (m.setCells cs).wire wire = m.wire wire := rfl
  simp only [hw]
  rw [addWire_setCells hn]
  cases h1 : m.addWire ((m.wire wire).name ++ "_$out") (m.wire wire) with
  | error e => exact ⟨rfl, fun r hr => by cases hr⟩
  | ok r1 =>
    obtain ⟨m1, outWire⟩ := r1
    have hc1 := addWire_cells h1
    simp only [Except.map]
    have hn1 : cs.map (fun c => c.name)
        = (m1.modifyWire outWire
            (fun w => { w with port_output := true, port_input := false })).cells.map
              (fun c => c.name) := by
      rw [hn, ← hc1]; rfl
    have h2 := addWire_setCells hn1 ((m.wire wire).name ++ "_$en")
      ((m1.modifyWire outWire
        (fun w => { w with port_output := true, port_input := false })).wire wire)
    have hmod : (m1.setCells cs).modifyWire outWire
          (fun w => { w with port_output := true, port_input := false })
        = (m1.modifyWire outWire
            (fun w => { w with port_output := true, port_input := false })).setCells cs := rfl
    rw [hmod]
    have hw2 : ((m1.modifyWire outWire
          (fun w => { w with port_output := true, port_input := false })).setCells cs).wire wire
        = (m1.modifyWire outWire
          (fun w => { w with port_output := true, port_input := false })).wire wire := rfl
    rw [hw2, h2]
    cases h3 : (m1.modifyWire outWire
        (fun w => { w with port_output := true, port_input := false })).addWire
          ((m.wire wire).name ++ "_$en")
          ((m1.modifyWire outWire
            (fun w => { w with port_output := true, port_input := false })).wire wire) with
    | error e => exact ⟨rfl, fun r hr => by cases hr⟩
    | ok r3 =>
      obtain ⟨m3, enWire⟩ := r3
      have hc3 := addWire_cells h3
      refine ⟨rfl, fun r hr => ?_⟩
      simp only [Except.ok.injEq] at hr
      subst hr
      show m3.cells = m.cells
      rw [hc3, ← hc1]
      rfl

theorem add_ports_setCells {cs : List Cell} (vec : List Nat) :
    ∀ (m : Module) (mp : List (String × InoutPortInfo)),
      cs.map (fun c => c.name) = m.cells.map (fun c => c.name) →
      add_ports (m.setCells cs) mp vec
          = (add_ports m mp vec).map (fun r => (r.1.setCells cs, r.2))
        ∧ ∀ r, add_ports m mp vec = .ok r → r.1.cells = m.cells := by
  induction vec with
  | nil =>
    intro m mp _
    refine ⟨rfl, fun r hr => ?_⟩
    simp only [add_ports, Except.ok.injEq] at hr
    subst hr
    rfl
  | cons wire rest ih =>
    intro m mp hn
    obtain ⟨h1, h2⟩ := add_ports_for_setCells hn mp wire
    unfold add_ports
    rw [h1]
    cases hf : add_ports_for m mp wire with
    | error e => exact ⟨rfl, fun r hr => by cases hr⟩
    | ok r1 =>
      obtain ⟨m1, mp1⟩ := r1
      have hc1 : m1.cells = m.cells := h2 _ hf
      have hn1 : cs.map (fun c => c.name) = m1.cells.map (fun c => c.name) := by
        rw [hn, hc1]
      obtain ⟨h3, h4⟩ := ih m1 mp1 hn1
      simp only [Except.map]
      refine ⟨h3, fun r hr => ?_⟩
      rw [h4 r hr, hc1]

theorem log_signal_setCells (m : Module) (cs : List Cell) (sig : SigSpec) :
    log_signal (m.setCells cs) sig = log_signal m sig :=
  log_signal_congr (fun _ _ _ => rfl)

theorem gather_connections_setCells (m : Module) (cs : List Cell) (conns : List SigSig) :
    ∀ mp : List (String × InoutPortInfo),
      gather_connections (m.setCells cs) mp conns = gather_connections m mp conns := by
  induction conns with
  | nil => intro mp; rfl
  | cons c rest ih =>
    intro mp
    unfold gather_connections
    simp only [log_signal_setCells, ih]

theorem as_wire_setCells (m : Module) (cs : List Cell) (sig : SigSpec) :
    SigSpec.as_wire (m.setCells cs) sig = SigSpec.as_wire m sig := rfl

theorem rewrite_connections_setCells (m : Module) (cs : List Cell) (cw : String)
    (pos : Option InoutPortInfo) (conns : List SigSig) :
    ∀ acc : List SigSig,
      rewrite_connections (m.setCells cs) cw pos acc conns
        = rewrite_connections m cw pos acc conns := by
  induction conns with
  | nil => intro acc; rfl
  | cons c rest ih =>
    intro acc
    unfold rewrite_connections
    have h : rewrite_connection (m.setCells cs) cw pos acc c = rewrite_connection m cw pos acc c :=
      rfl
    rw [h]
    cases rewrite_connection m cw pos acc c with
    | error e => rfl
    | ok acc2 => exact ih acc2

theorem add_enable_connections_setCells (m : Module) (cs : List Cell) (wire : Nat)
    (info : InoutPortInfo) (en : List (String × SigSpec)) (names : List String) :
    ∀ acc : List SigSig,
      add_enable_connections (m.setCells cs) wire info en acc names
        = add_enable_connections m wire info en acc names := by
  induction names with
  | nil => intro acc; rfl
  | cons s rest ih =>
    intro acc
    unfold add_enable_connections
    cases IdString.get_reference s with
    | error e => rfl
    | ok key =>
      simp only
      cases map_find key en with
      | none => exact ih acc
      | some v => exact ih _

theorem rewrite_port_setCells {m : Module} {cs : List Cell}
    (hn : cs.map (fun c => c.name) = m.cells.map (fun c => c.name))
    (mp : List (String × InoutPortInfo)) (en : List (String × SigSpec)) (wire : Nat) :
    rewrite_port (m.setCells cs) mp en wire
        = (rewrite_port m mp en wire).map (fun r => r.setCells cs)
      ∧ ∀ r, rewrite_port m mp en wire = .ok r → r.cells = m.cells := by
  unfold rewrite_port
  have hw : (m.setCells cs).wire wire = m.wire wire := rfl
  have hk : (m.setCells cs).connections = m.connections := rfl
  simp only [hw, hk, rewrite_connections_setCells, add_enable_connections_setCells]
  cases rewrite_connections m (m.wire wire).name (map_find (m.wire wire).name mp) []
      m.connections with
  | error e => exact ⟨rfl, fun r hr => by cases hr⟩
  | ok nc =>
    simp only
    cases map_find (m.wire wire).name mp with
    | none =>
      refine ⟨rfl, fun r hr => ?_⟩
      simp only [Except.ok.injEq] at hr
      subst hr
      rfl
    | some info =>
      simp only
      cases add_enable_connections m wire info en nc info.inoutConnSigName with
      | error e => exact ⟨rfl, fun r hr => by cases hr⟩
      | ok nc2 =>
        simp only
        refine ⟨?_, fun r hr => ?_⟩
        · exact @rename_setCells
            (Module.modifyWire { m with connections := nc2 } wire
              (fun w => { w with port_output := false })) cs hn wire
            ((m.wire wire).name ++ "_$in")
        · rw [rename_cells hr]
          rfl

theorem rewrite_ports_setCells {cs : List Cell} (mp : List (String × InoutPortInfo))
    (en : List (String × SigSpec)) (vec : List Nat) :
    ∀ m : Module, cs.map (fun c => c.name) = m.cells.map (fun c => c.name) →
      rewrite_ports mp en (m.setCells cs) vec
        = (rewrite_ports mp en m vec).map (fun r => r.setCells cs) := by
  induction vec with
  | nil => intro m _; rfl
  | cons wire rest ih =>
    intro m hn
    obtain ⟨h1, h2⟩ := rewrite_port_setCells hn mp en wire
    unfold rewrite_ports
    rw [h1]
    cases hf : rewrite_port m mp en wire with
    | error e => rfl
    | ok m1 =>
      simp only [Except.map]
      exact ih m1 (by rw [hn, h2 m1 hf])

/-! ## The enable signal locator and the cells -/

theorem scan_cell_connection_setCells (m : Module) (cs : List Cell) (sm : SigMap) (c : Cell)
    (acc : List (String × SigSpec)) (pn : String) :
    scan_cell_connection (m.setCells cs) sm c acc pn = scan_cell_connection m sm c acc pn := by
  unfold scan_cell_connection
  simp only [log_signal_setCells]

theorem scan_cell_connection_congr (m : Module) (sm : SigMap) {c2 c : Cell}
    (ht : c2.type = c.type) (hz : has_z_data_input sm c2 = has_z_data_input sm c)
    (hs : c2.getPort "\\S" = c.getPort "\\S") (hy : c2.getPort "\\Y" = c.getPort "\\Y")
    (acc : List (String × SigSpec)) (pn : String) :
    scan_cell_connection m sm c2 acc pn = scan_cell_connection m sm c acc pn := by
  unfold scan_cell_connection
  rw [ht, hz, hs, hy]

theorem scan_cell_congr (m : Module) (cs : List Cell) (sm : SigMap) {c2 c : Cell}
    (ht : c2.type = c.type) (hz : has_z_data_input sm c2 = has_z_data_input sm c)
    (hs : c2.getPort "\\S" = c.getPort "\\S") (hy : c2.getPort "\\Y" = c.getPort "\\Y")
    (conns : List (String × SigSpec)) :
    ∀ (conns2 : List (String × SigSpec)) (acc : List (String × SigSpec)),
      conns2.map (fun p => p.1) = conns.map (fun p => p.1) →
      scan_cell (m.setCells cs) sm c2 acc conns2 = scan_cell m sm c acc conns := by
  induction conns with
  | nil =>
    intro conns2 acc h
    cases conns2 with
    | nil => rfl
    | cons p rest => cases h
  | cons p rest ih =>
    intro conns2 acc h
    cases conns2 with
    | nil => cases h
    | cons p2 rest2 =>
      simp only [List.map_cons, List.cons.injEq] at h
      unfold scan_cell
      rw [scan_cell_connection_setCells, scan_cell_connection_congr m sm ht hz hs hy, h.1]
      cases scan_cell_connection m sm c acc p.1 with
      | error e => rfl
      | ok acc2 => exact ih rest2 acc2 h.2

theorem find_enables_congr (m : Module) (cs : List Cell) (sm : SigMap) {cells2 cells : List Cell}
    (hrel : List.Forall₂ (fun c2 c =>
      c2.type = c.type ∧ has_z_data_input sm c2 = has_z_data_input sm c
        ∧ c2.getPort "\\S" = c.getPort "\\S" ∧ c2.getPort "\\Y" = c.getPort "\\Y"
        ∧ c2.connections.map (fun p => p.1) = c.connections.map (fun p => p.1))
      cells2 cells) :
    ∀ acc : List (String × SigSpec),
      find_enables (m.setCells cs) sm acc cells2 = find_enables m sm acc cells := by
  induction hrel with
  | nil => intro acc; rfl
  | cons h _ ih =>
    intro acc
    obtain ⟨ht, hz, hs, hy, hp⟩ := h
    unfold find_enables
    rw [scan_cell_congr m cs sm ht hz hs hy _ _ acc hp]
    split
    · rfl
    · exact ih _

theorem new_wires_setCells (m : Module) (cs : List Cell) (vec : List Nat) :
    new_wires (m.setCells cs) vec = new_wires m vec := by
  induction vec with
  | nil => rfl
  | cons j vec ih =>
    unfold new_wires
    rw [ih]
    rfl

theorem with_new_ports_setCells (m : Module) (cs : List Cell) :
    with_new_ports (m.setCells cs) = (with_new_ports m).setCells cs := by
  unfold with_new_ports
  have h : (m.setCells cs).wires = m.wires := rfl
  rw [h, new_wires_setCells]
  rfl

/-- The pass on a module whose cells have been replaced by cells with the same
names that the enable signal locator cannot tell apart. -/
theorem ql_inout_module_setCells {m : Module} {cs : List Cell}
    (hn : cs.map (fun c => c.name) = m.cells.map (fun c => c.name))
    (hrel : ∀ sm : SigMap, List.Forall₂ (fun c2 c =>
      c2.type = c.type ∧ has_z_data_input sm c2 = has_z_data_input sm c
        ∧ c2.getPort "\\S" = c.getPort "\\S" ∧ c2.getPort "\\Y" = c.getPort "\\Y"
        ∧ c2.connections.map (fun p => p.1) = c.connections.map (fun p => p.1))
      cs m.cells) :
    enable_map (m.setCells cs) = enable_map m
      ∧ ql_inout_module (m.setCells cs)
          = (ql_inout_module m).map (fun r => r.setCells cs) := by
  constructor
  · unfold enable_map
    have h0 : SigMap.ofModule (m.setCells cs) = SigMap.ofModule m := rfl
    rw [h0]
    cases SigMap.ofModule m with
    | error e => rfl
    | ok sm =>
      simp only
      rw [with_new_ports_setCells]
      exact find_enables_congr (with_new_ports m) cs sm (hrel sm) []
  · unfold ql_inout_module
    have h0 : SigMap.ofModule (m.setCells cs) = SigMap.ofModule m := rfl
    have hw : (m.setCells cs).wires = m.wires := rfl
    rw [h0, hw]
    cases SigMap.ofModule m with
    | error e => rfl
    | ok sm =>
      simp only
      obtain ⟨h1, h2⟩ := add_ports_setCells (find_inout_wires 0 m.wires) m [] hn
      rw [h1]
      cases hf : add_ports m [] (find_inout_wires 0 m.wires) with
      | error e => rfl
      | ok r1 =>
        obtain ⟨m1, mp⟩ := r1
        have hc1 : m1.cells = m.cells := h2 _ hf
        simp only [Except.map]
        have hk : (m1.setCells cs).connections = m1.connections := rfl
        have hcs : (m1.setCells cs).cells = cs := rfl
        have hrel1 := hrel sm
        rw [← hc1] at hrel1
        rw [hk, hcs, gather_connections_setCells, find_enables_congr m1 cs sm hrel1 []]
        cases find_enables m1 sm [] m1.cells with
        | error e => rfl
        | ok en =>
          simp only
          exact rewrite_ports_setCells _ en _ m1 (by rw [hn, hc1])

/-! ## Exchanging the data inputs of a cell -/

theorem swap_AB_ports (cell : Cell) (a b : SigSpec) :
    (cell.swap_AB a b).connections.map (fun p => p.1) = cell.connections.map (fun p => p.1) := by
  unfold Cell.swap_AB
  simp only [List.map_map]
  apply List.map_congr_left
  intro p _
  simp only [Function.comp]
  split
  · rfl
  · split <;> rfl

theorem getPort_mem {cell : Cell} {n : String} {s : SigSpec} (h : cell.getPort n = .ok s) :
    (n, s) ∈ cell.connections := by
  unfold Cell.getPort at h
  cases hf : cell.connections.find? (fun p => decide (p.1 = n)) with
  | none => rw [hf] at h; cases h
  | some p =>
    rw [hf] at h
    simp only [Except.ok.injEq] at h
    have h1 := List.find?_some hf
    have h2 := List.mem_of_find?_eq_some hf
    simp only [decide_eq_true_eq] at h1
    rw [← h1, ← h]
    exact h2

theorem find?_map_key {α β : Type} [DecidableEq α] (f : α × β → α × β)
    (hf : ∀ p, (f p).1 = p.1) (n : α) (l : List (α × β)) :
    List.find? (fun p => decide (p.1 = n)) (l.map f)
      = (List.find? (fun p => decide (p.1 = n)) l).map f := by
  induction l with
  | nil => rfl
  | cons p rest ih =>
    simp only [List.map_cons, List.find?_cons, hf p]
    cases decide (p.1 = n) with
    | true => rfl
    | false => exact ih

theorem getPort_swap (cell : Cell) (a b : SigSpec) (n : String) :
    (cell.swap_AB a b).getPort n
      = (cell.getPort n).map (fun s => if n = "\\A" then b else if n = "\\B" then a else s) := by
  unfold Cell.getPort Cell.swap_AB
  simp only
  rw [find?_map_key _ (fun p => by split; rfl; split <;> rfl) n]
  cases hfind : List.find? (fun p => decide (p.1 = n)) cell.connections with
  | none => rfl
  | some p =>
    have hp := List.find?_some hfind
    simp only [decide_eq_true_eq] at hp
    simp only [Option.map, Except.map, hp]
    split
    · rfl
    · split <;> rfl

theorem getPort_swap_other (cell : Cell) (a b : SigSpec) (n : String)
    (hA : n ≠ "\\A") (hB : n ≠ "\\B") :
    (cell.swap_AB a b).getPort n = cell.getPort n := by
  rw [getPort_swap]
  simp only [if_neg hA, if_neg hB]
  cases cell.getPort n <;> rfl

theorem getPort_swap_A {cell : Cell} {a b a0 : SigSpec} (h : cell.getPort "\\A" = .ok a0) :
    (cell.swap_AB a b).getPort "\\A" = .ok b := by
  rw [getPort_swap, h]
  rfl

theorem getPort_swap_B {cell : Cell} {a b b0 : SigSpec} (h : cell.getPort "\\B" = .ok b0) :
    (cell.swap_AB a b).getPort "\\B" = .ok a := by
  rw [getPort_swap, h]
  rfl

/-- A cell whose port names are distinct has a high-impedance data input just
when the signal of `A` or the signal of `B` has a high-impedance bit. -/
theorem has_z_data_input_iff (sm : SigMap) {cell : Cell} {a b : SigSpec}
    (hports : (cell.connections.map (fun p => p.1)).Nodup)
    (ha : cell.getPort "\\A" = .ok a) (hb : cell.getPort "\\B" = .ok b) :
    has_z_data_input sm cell = true
      ↔ (sm.apply a).any (fun x => decide (x = SigBit.const State.Sz)) = true
        ∨ (sm.apply b).any (fun x => decide (x = SigBit.const State.Sz)) = true := by
  have hma := getPort_mem ha
  have hmb := getPort_mem hb
  have hinj : ∀ p ∈ cell.connections, ∀ q ∈ cell.connections, p.1 = q.1 → p = q :=
    fun p hp q hq h => List.inj_on_of_nodup_map hports hp hq h
  unfold has_z_data_input
  rw [List.any_eq_true]
  constructor
  · rintro ⟨p, hp, hP⟩
    simp only [Bool.and_eq_true, Bool.or_eq_true, decide_eq_true_eq] at hP
    obtain ⟨hn | hn, hz⟩ := hP
    · have := hinj p hp _ hma hn
      subst this
      exact Or.inl hz
    · have := hinj p hp _ hmb hn
      subst this
      exact Or.inr hz
  · rintro (hz | hz)
    · exact ⟨_, hma, by simp [hz]⟩
    · exact ⟨_, hmb, by simp [hz]⟩

theorem has_z_data_input_swap (sm : SigMap) {cell : Cell} {a b : SigSpec}
    (hports : (cell.connections.map (fun p => p.1)).Nodup)
    (ha : cell.getPort "\\A" = .ok a) (hb : cell.getPort "\\B" = .ok b) :
    has_z_data_input sm (cell.swap_AB a b) = has_z_data_input sm cell := by
  have hports2 : ((cell.swap_AB a b).connections.map (fun p => p.1)).Nodup := by
    rw [swap_AB_ports]; exact hports
  rw [Bool.eq_iff_iff, has_z_data_input_iff sm hports ha hb,
    has_z_data_input_iff sm hports2 (getPort_swap_A ha) (getPort_swap_B hb)]
  exact Or.comm

/-- The cell with its data inputs exchanged and the cell itself are alike for the
enable signal locator. -/
theorem swap_AB_alike (sm : SigMap) {cell : Cell} {a b : SigSpec}
    (hports : (cell.connections.map (fun p => p.1)).Nodup)
    (ha : cell.getPort "\\A" = .ok a) (hb : cell.getPort "\\B" = .ok b) :
    (cell.swap_AB a b).type = cell.type
      ∧ has_z_data_input sm (cell.swap_AB a b) = has_z_data_input sm cell
      ∧ (cell.swap_AB a b).getPort "\\S" = cell.getPort "\\S"
      ∧ (cell.swap_AB a b).getPort "\\Y" = cell.getPort "\\Y"
      ∧ (cell.swap_AB a b).connections.map (fun p => p.1)
          = cell.connections.map (fun p => p.1) :=
  ⟨rfl, has_z_data_input_swap sm hports ha hb,
    getPort_swap_other cell a b _ (by decide) (by decide),
    getPort_swap_other cell a b _ (by decide) (by decide), swap_AB_ports cell a b⟩

theorem forall₂_alike_refl (sm : SigMap) (cells : List Cell) :
    List.Forall₂ (fun c2 c =>
      c2.type = c.type ∧ has_z_data_input sm c2 = has_z_data_input sm c
        ∧ c2.getPort "\\S" = c.getPort "\\S" ∧ c2.getPort "\\Y" = c.getPort "\\Y"
        ∧ c2.connections.map (fun p => p.1) = c.connections.map (fun p => p.1))
      cells cells := by
  induction cells with
  | nil => exact List.Forall₂.nil
  | cons c rest ih => exact List.Forall₂.cons ⟨rfl, rfl, rfl, rfl, rfl⟩ ih

theorem swap_in_list_alike (sm : SigMap) (pre post : List Cell) {cell : Cell} {a b : SigSpec}
    (hports : (cell.connections.map (fun p => p.1)).Nodup)
    (ha : cell.getPort "\\A" = .ok a) (hb : cell.getPort "\\B" = .ok b) :
    List.Forall₂ (fun c2 c =>
      c2.type = c.type ∧ has_z_data_input sm c2 = has_z_data_input sm c
        ∧ c2.getPort "\\S" = c.getPort "\\S" ∧ c2.getPort "\\Y" = c.getPort "\\Y"
        ∧ c2.connections.map (fun p => p.1) = c.connections.map (fun p => p.1))
      (pre ++ cell.swap_AB a b :: post) (pre ++ cell :: post) := by
  induction pre with
  | nil => exact List.Forall₂.cons (swap_AB_alike sm hports ha hb) (forall₂_alike_refl sm post)
  | cons c rest ih => exact List.Forall₂.cons ⟨rfl, rfl, rfl, rfl, rfl⟩ ih

theorem swap_in_list_names (pre post : List Cell) (cell : Cell) (a b : SigSpec) :
    (pre ++ cell.swap_AB a b :: post).map (fun c => c.name)
      = (pre ++ cell :: post).map (fun c => c.name) := by
  simp only [List.map_append, List.map_cons]
  rfl

theorem enable_entry_swap (mm : Module) (sm : SigMap) {cell : Cell} {a b : SigSpec}
    (hports : (cell.connections.map (fun p => p.1)).Nodup)
    (ha : cell.getPort "\\A" = .ok a) (hb : cell.getPort "\\B" = .ok b) :
    Cell.enable_entry mm sm (cell.swap_AB a b) = Cell.enable_entry mm sm cell := by
  obtain ⟨ht, hz, hs, hy, -⟩ := swap_AB_alike sm hports ha hb
  unfold Cell.enable_entry Cell.is_tristate
  rw [ht, hz, hs, hy]

theorem enable_entry_value {mm : Module} {sm : SigMap} {cell : Cell} {k : String}
    {s : SigSpec} (h : Cell.enable_entry mm sm cell = some (k, s)) :
    cell.getPort "\\S" = .ok s := by
  unfold Cell.enable_entry at h
  split at h
  · split at h
    · rename_i y s2 hy hs
      simp only [Option.some.injEq, Prod.mk.injEq] at h
      rw [hs, h.2]
    · cases h
  · cases h

/-! ## The claims -/

/-- C1: when `execute` completes on a design, no wire of any module it has
processed has both `port_input` and `port_output` set: every wire that was an
inout wire has its output flag cleared, and every wire the pass created is
output-only. -/
theorem C1_no_inout_wire_after_execute (fuel : Nat) (design design2 : Design)
    (hrun : execute fuel design = some (.ok design2)) :
    (∀ m2 ∈ design2, ∀ w ∈ m2.wires, ¬ w.is_inout)
      ∧ List.Forall₂ (fun m m2 =>
          (∀ i, i < m.wires.length → (m.wire i).is_inout → (m2.wire i).port_output = false)
          ∧ (∀ i, m.wires.length ≤ i → i < m2.wires.length →
              (m2.wire i).port_output = true ∧ (m2.wire i).port_input = false))
          design design2 := by
  have hall := execute_modules_ok (execute_ok hrun)
  constructor
  · intro m2 hm2
    clear hrun
    induction hall with
    | nil => simp at hm2
    | cons h _ ih =>
      rcases List.mem_cons.1 hm2 with rfl | h2
      · exact no_inout_after_module h
      · exact ih h2
  · refine hall.imp ?_
    intro m m2 hok
    constructor
    · intro i hi hio
      rw [wire_after_lt hok hi, if_pos hio]
      rfl
    · intro i hi hi2
      obtain ⟨j, -, h | h⟩ := mem_new_wires.1 (wire_after_ge hok hi hi2)
      · rw [h]; exact ⟨rfl, rfl⟩
      · rw [h]; exact ⟨rfl, rfl⟩

/-- The hypothesis of C1 holds for the design made of `scenario_module`. -/
theorem C1_no_inout_wire_after_execute_witness :
    execute 2 [scenario_module] = some (.ok [scenario_module_after])
      ∧ (∀ m2 ∈ [scenario_module_after], ∀ w ∈ m2.wires, ¬ w.is_inout) :=
  ⟨rfl, (C1_no_inout_wire_after_execute 2 [scenario_module] [scenario_module_after] rfl).1⟩

/-- C2, as stated, fails: in `rename_module` the inout wire `\X_$in` satisfies
the hypothesis of the claim (none of `\X_$in_$in`, `\X_$in_$out`, `\X_$in_$en`
is in use), the pass completes, and a wire named `\X_$in` is still there: it is
the former inout wire `\X`. -/
theorem C2_counterexample :
    (rename_module.wire 0).is_inout
      ∧ (rename_module.wire 0).name = "\\X_$in"
      ∧ rename_module.count_id ("\\X_$in" ++ "_$in") = 0
      ∧ rename_module.count_id ("\\X_$in" ++ "_$out") = 0
      ∧ rename_module.count_id ("\\X_$in" ++ "_$en") = 0
      ∧ ql_inout_module rename_module = .ok rename_module_after
      ∧ ∃ w ∈ rename_module_after.wires, w.name = "\\X_$in" := by
  refine ⟨by decide, rfl, by decide, by decide, by decide, rfl, ?_⟩
  exact ⟨rename_module_after.wire 1, by decide, rfl⟩

/-- C2, amended: let the wire names of the module be pairwise distinct and let
the wire with handle `i` be an inout wire named `W` of width `n` and start offset
`s`, with `W_$in`, `W_$out`, `W_$en` not in use and with `W` not of the form
`X_$in` for an inout wire `X` of the module.  When the pass completes, the module
has a wire `W_$out` and a wire `W_$en`, each of width `n` and start offset `s` and
output-only; the original wire is named `W_$in`, has width `n` and is input-only;
and no wire is named `W`. -/
theorem C2_inout_wire_split (m m2 : Module) (i : Nat)
    (hwf : m.names_distinct) (hi : i < m.wires.length) (hio : (m.wire i).is_inout)
    (_hin : m.count_id ((m.wire i).name ++ "_$in") = 0)
    (_hout : m.count_id ((m.wire i).name ++ "_$out") = 0)
    (_hen : m.count_id ((m.wire i).name ++ "_$en") = 0)
    (hnot : ∀ j, j < m.wires.length → (m.wire j).is_inout →
      (m.wire j).name ++ "_$in" ≠ (m.wire i).name)
    (hrun : ql_inout_module m = .ok m2) :
    ({ name := (m.wire i).name ++ "_$out", width := (m.wire i).width,
       start_offset := (m.wire i).start_offset, port_input := false,
       port_output := true } : Wire) ∈ m2.wires
      ∧ ({ name := (m.wire i).name ++ "_$en", width := (m.wire i).width,
           start_offset := (m.wire i).start_offset, port_input := false,
           port_output := true } : Wire) ∈ m2.wires
      ∧ (m2.wire i).name = (m.wire i).name ++ "_$in"
      ∧ (m2.wire i).width = (m.wire i).width
      ∧ (m2.wire i).port_input = true ∧ (m2.wire i).port_output = false
      ∧ ∀ w ∈ m2.wires, w.name ≠ (m.wire i).name := by
  obtain ⟨hw, -, -⟩ := ql_inout_module_wires hrun
  have hiv : i ∈ find_inout_wires 0 m.wires := (mem_inout_vec m i).2 ⟨hi, hio⟩
  have hwi := wire_after_lt hrun hi
  rw [if_pos hio] at hwi
  refine ⟨?_, ?_, ?_, ?_, ?_, ?_, ?_⟩
  · rw [hw]
    exact List.mem_append_right _ (mem_new_wires.2 ⟨i, hiv, Or.inl rfl⟩)
  · rw [hw]
    exact List.mem_append_right _ (mem_new_wires.2 ⟨i, hiv, Or.inr rfl⟩)
  · rw [hwi]; rfl
  · rw [hwi]; rfl
  · rw [hwi]; exact hio.1
  · rw [hwi]; rfl
  · intro w hmem
    rw [hw, List.mem_append] at hmem
    have hmi : m.wire i ∈ m.wires := (Module.mem_wires_iff m _).2 ⟨i, hi, rfl⟩
    rcases hmem with h | h
    · rw [List.mem_map] at h
      obtain ⟨x, hx, rfl⟩ := h
      obtain ⟨j, hj, rfl⟩ := (Module.mem_wires_iff m x).1 hx
      by_cases hx : (m.wire j).is_inout
      · rw [if_pos hx]
        exact hnot j hj hx
      · rw [if_neg hx]
        intro hname
        have := (names_distinct_iff m).1 hwf j i hj hi hname
        rw [this] at hx
        exact hx hio
    · intro hname
      exact new_wires_fresh hwf hrun (m.wire i) hmi w h hname.symm

/-- The hypotheses of the amended C2 hold for the inout wire of
`scenario_module`. -/
theorem C2_inout_wire_split_witness :
    ql_inout_module scenario_module = .ok scenario_module_after
      ∧ ∀ w ∈ scenario_module_after.wires, w.name ≠ (scenario_module.wire 0).name :=
  ⟨rfl, (C2_inout_wire_split scenario_module scenario_module_after 0 (by decide) (by decide)
    (by decide) (by decide) (by decide) (by decide) (by decide) rfl).2.2.2.2.2.2⟩

/-- C3: in a module whose wire names are pairwise distinct and on which the pass
completes, the connections that existed before the pass are the first
connections after it, in the same order and number: a connection whose target
was an inout wire `W` has the wire `W_$out` as its target and the same source,
and every other connection has the same target and source as before. -/
theorem C3_connectivity_preserved (m m2 : Module) (hwf : m.names_distinct)
    (hrun : ql_inout_module m = .ok m2) :
    m.connections.length ≤ m2.connections.length
      ∧ ∀ (k : Nat) (c : SigSig), m.connections[k]? = some c →
          ∃ c2, m2.connections[k]? = some c2 ∧ c2.2 = c.2
            ∧ ((∃ t, SigSpec.as_wire m c.1 = .ok t ∧ (m.wire t).is_inout
                  ∧ ∃ o, o < m2.wires.length
                      ∧ (m2.wire o).name = (m.wire t).name ++ "_$out"
                      ∧ c2.1 = SigSpec.ofWire m2 o)
                ∨ ((∀ t, SigSpec.as_wire m c.1 = .ok t → ¬ (m.wire t).is_inout)
                    ∧ c2.1 = c.1)) := by
  obtain ⟨en, -, hd1, hconn, -⟩ := ql_inout_module_connections hwf hrun
  constructor
  · rw [hconn]; simp
  · intro k c hk
    have hklt : k < m.connections.length := by
      by_contra h
      rw [List.getElem?_eq_none (by omega)] at hk
      cases hk
    refine ⟨rewrite_all (with_new_ports m) (recorded_ports m) (find_inout_wires 0 m.wires) c,
      ?_, rewrite_all_snd _ _ _ _, ?_⟩
    · rw [hconn, List.getElem?_append_left (by simpa using hklt), List.getElem?_map, hk]
      rfl
    · cases hw : SigSpec.as_wire (with_new_ports m) c.1 with
      | error e =>
        right
        constructor
        · intro t ht
          rw [as_wire_with_new_ports ht] at hw
          cases hw
        · simp [rewrite_all, hw]
      | ok t =>
        by_cases htv : t ∈ find_inout_wires 0 m.wires
        · left
          obtain ⟨htl, hio⟩ := (mem_inout_vec m t).1 htv
          obtain ⟨p, hp, hf, ho, -⟩ := recorded_ports_find hd1 htv
          have hpl : p < (find_inout_wires 0 m.wires).length := by
            by_contra h
            rw [List.getElem?_eq_none (by omega)] at hp
            cases hp
          refine ⟨t, (as_wire_of_with_new_ports htl).1 hw, hio, m.wires.length + 2 * p,
            ?_, ?_, ?_⟩
          · rw [wires_length_after hrun]; omega
          · rw [wire_after_ge_eq hrun (by omega), ho]; rfl
          · rw [ofWire_congr (width_after hrun)]
            simp [rewrite_all, hw, htv, with_new_ports_wire_lt m htl, hf]
        · right
          constructor
          · intro t2 ht2 hio
            have h2 := as_wire_with_new_ports ht2
            rw [hw] at h2
            simp only [Except.ok.injEq] at h2
            subst h2
            exact htv ((mem_inout_vec m t).2 ⟨as_wire_lt ht2, hio⟩)
          · simp [rewrite_all, hw, htv]

/-- The hypotheses of C3 hold for `scenario_module`, whose only connection has
the inout wire as its target. -/
theorem C3_connectivity_preserved_witness :
    ql_inout_module scenario_module = .ok scenario_module_after
      ∧ scenario_module.connections.length ≤ scenario_module_after.connections.length :=
  ⟨rfl, (C3_connectivity_preserved scenario_module scenario_module_after (by decide) rfl).1⟩

/-- C4, at the failing input `offset_module`: the inout wire `\W` is two bits
wide with start offset 1, its bound signal `\N` is a key of the enable map with
the one-bit select `\S`, and the connection added for `\W_$en` (handle 5, two
bits wide) has the select replicated `|2 - 1 - 1| + 1 = 1` time as its source:
one bit, not two. -/
theorem C4_enable_source_width_at_offset :
    (offset_module.wire 0).is_inout
      ∧ (offset_module.wire 0).width = 2
      ∧ enable_map offset_module = .ok [("\\N", [SigBit.wire 2 0])]
      ∧ ql_inout_module offset_module = .ok offset_module_after
      ∧ offset_module_after.connections[1]?
          = some (SigSpec.ofWire offset_module_after 5, [SigBit.wire 2 0])
      ∧ (offset_module_after.wire 5).name = "\\W_$en"
      ∧ (SigSpec.ofWire offset_module_after 5).length = 2
      ∧ ([SigBit.wire 2 0] : SigSpec).length = 1 :=
  ⟨by decide, rfl, rfl, rfl, rfl, rfl, rfl, rfl⟩

/-- C5, as stated, fails for some choices of names: when the net of the
scenario is itself named `\IO_$out`, the pass stops at the assertion of
`Module::add` while it creates the output port. -/
theorem C5_counterexample :
    ql_inout_module (scenario "\\IO" "\\IO_$out" "\\S" "\\Z" "$T" false)
      = .error Err.name_in_use := rfl

/-- C5, amended: for every choice of names such that `IO` and `N` are RTLIL
identifiers, the four wire names are pairwise distinct, and none of `IO_$in`,
`IO_$out`, `IO_$en` is the name of a wire or of the cell, one pass turns the
scenario module into the module where `IO` is renamed `IO_$in` and is
input-only, `IO_$out` and `IO_$en` exist and are output-only, and the connection
list is exactly `[IO_$out <- N, IO_$en <- S]`. -/
theorem C5_scenario (io n s z t : String) (zOnA : Bool)
    (hio : IdString.get_reference io = .ok io) (hio0 : io ≠ "")
    (hn : IdString.get_reference n = .ok n)
    (hnd : [io, n, s, z].Nodup)
    (hfresh : ∀ x ∈ [io ++ "_$in", io ++ "_$out", io ++ "_$en"], x ∉ [n, s, z, t]) :
    ql_inout_module (scenario io n s z t zOnA) = .ok (scenario_after io n s z t zOnA) := by
  have hout := get_reference_append io "_$out" hio hio0 (by decide)
  have hen := get_reference_append io "_$en" hio hio0 (by decide)
  have hin := get_reference_append io "_$in" hio hio0 (by decide)
  have e1 : io ++ "_$out" ≠ io := append_suffix_ne _ _ (by decide)
  have e2 : io ++ "_$en" ≠ io := append_suffix_ne _ _ (by decide)
  have e3 : io ++ "_$in" ≠ io := append_suffix_ne _ _ (by decide)
  have e4 : io ++ "_$en" ≠ io ++ "_$out" := fun h =>
    absurd ((string_append_left_inj _ _ _).1 h) (by decide)
  have e5 : io ++ "_$in" ≠ io ++ "_$out" := fun h =>
    absurd ((string_append_left_inj _ _ _).1 h) (by decide)
  have e6 : io ++ "_$in" ≠ io ++ "_$en" := fun h =>
    absurd ((string_append_left_inj _ _ _).1 h) (by decide)
  have e7 : io ++ "_$out" ≠ "" := append_ne_empty _ _ hio0
  have e8 : io ++ "_$en" ≠ "" := append_ne_empty _ _ hio0
  have e9 : io ++ "_$in" ≠ "" := append_ne_empty _ _ hio0
  simp only [List.mem_cons, List.mem_singleton, List.not_mem_nil, or_false, forall_eq_or_imp,
    forall_eq, not_or] at hfresh
  obtain ⟨⟨f1, f2, f3, f4⟩, ⟨g1, g2, g3, g4⟩, ⟨k1, k2, k3, k4⟩⟩ := hfresh
  simp only [List.nodup_cons, List.mem_cons, List.mem_singleton, List.not_mem_nil, or_false,
    not_or, not_false_eq_true, List.nodup_nil, and_true] at hnd
  obtain ⟨⟨n1, n2, n3⟩, ⟨n4, n5⟩, n6⟩ := hnd
  have hsm : ∃ sm : SigMap, SigMap.ofModule (scenario io n s z t zOnA) = .ok sm
      ∧ sm (SigBit.const State.Sz) = SigBit.const State.Sz := by
    refine ⟨_, rfl, ?_⟩
    simp [SigMap.add_bits, SigMap.add_bit, SigMap.imerge, SigMap.empty]
  obtain ⟨sm, hsm1, hsm2⟩ := hsm
  have hports : add_ports (scenario io n s z t zOnA) [] [0]
      = .ok ({ scenario io n s z t zOnA with
                wires := (scenario io n s z t zOnA).wires ++
                  [out_wire_of ((scenario io n s z t zOnA).wire 0),
                   en_wire_of ((scenario io n s z t zOnA).wire 0)] },
             [(io, { inoutWireName := io, newOutPort := 4, newEnablePort := 5,
                     inoutConnSigName := [] })]) := by
    simp [add_ports, add_ports_for, Module.addWire, Module.wire, scenario, hout, hen,
      Module.count_id, Module.modifyWire, modifyAt, map_emplace, map_find, out_wire_of,
      en_wire_of, e1, e2, e4, e7, e8, Ne.symm e1, Ne.symm e2, Ne.symm e4,
      Ne.symm g1, Ne.symm g2, Ne.symm g3, Ne.symm g4,
      Ne.symm k1, Ne.symm k2, Ne.symm k3, Ne.symm k4]
  have hm1 : ({ scenario io n s z t zOnA with
                wires := (scenario io n s z t zOnA).wires ++
                  [out_wire_of ((scenario io n s z t zOnA).wire 0),
                   en_wire_of ((scenario io n s z t zOnA).wire 0)] } : Module)
      = with_new_ports (scenario io n s z t zOnA) := rfl
  rw [hm1] at hports
  have hgather : gather_connections (with_new_ports (scenario io n s z t zOnA))
      [(io, { inoutWireName := io, newOutPort := 4, newEnablePort := 5,
              inoutConnSigName := [] })]
      (with_new_ports (scenario io n s z t zOnA)).connections
      = [(io, { inoutWireName := io, newOutPort := 4, newEnablePort := 5,
                inoutConnSigName := [n] })] := by
    simp [gather_connections, with_new_ports, scenario, log_signal, SigSpec.pack, SigSpec.pack_bit,
      dump_sigchunk, Module.wire, map_find, map_update]
  have hen2 : find_enables (with_new_ports (scenario io n s z t zOnA)) sm []
      (with_new_ports (scenario io n s z t zOnA)).cells = .ok [(n, [SigBit.wire 2 0])] := by
    cases zOnA <;>
    simp [find_enables, scan_cell, scan_cell_connection, is_mux_or_tribuf_type,
      is_tribuf_type, has_z_data_input, SigMap.apply, hsm2, Cell.getPort, assign_map,
      SigMap.empty,
      with_new_ports, scenario, log_signal, SigSpec.pack, SigSpec.pack_bit, dump_sigchunk, Module.wire, hn,
      map_emplace, map_find]
  have hrw : rewrite_ports
      [(io, { inoutWireName := io, newOutPort := 4, newEnablePort := 5,
              inoutConnSigName := [n] })]
      [(n, [SigBit.wire 2 0])] (with_new_ports (scenario io n s z t zOnA)) [0]
      = .ok (scenario_after io n s z t zOnA) := by
    simp [rewrite_ports, rewrite_port, rewrite_connections, rewrite_connection,
      SigSpec.as_wire, SigSpec.is_wire, SigSpec.ofWire, add_enable_connections,
      enable_source, replicate_enable, assign_map_apply, Module.rename, Module.count_id,
      Module.modifyWire, modifyAt, dropAt, with_new_ports, scenario, scenario_after,
      Module.wire, map_find, new_wires, find_inout_wires, out_wire_of, en_wire_of, hn, hin,
      List.range_succ,
      e3, e5, e6, e9, f1, f2, f3, f4, Ne.symm e5, Ne.symm e6, Ne.symm f1, Ne.symm f2,
      Ne.symm f3, Ne.symm f4]
  unfold ql_inout_module
  rw [hsm1]
  have hv : find_inout_wires 0 (scenario io n s z t zOnA).wires = [0] := rfl
  simp only [hv, hports, hgather, hen2, hrw]

/-- The hypotheses of the amended C5 hold for the names `\\IO`, `\\N`, `\\S`, `\\Z`
and `$T`. -/
theorem C5_scenario_witness :
    ql_inout_module (scenario "\\IO" "\\N" "\\S" "\\Z" "$T" false)
      = .ok (scenario_after "\\IO" "\\N" "\\S" "\\Z" "$T" false) :=
  C5_scenario "\\IO" "\\N" "\\S" "\\Z" "$T" false rfl (by decide) rfl (by decide) (by decide)

/-- C6, as stated, fails: in `clash_module` the inout wire `\W` has no
connection at all, and the pass raises an error instead of creating `\W_$en`,
because a wire of that name exists already. -/
theorem C6_counterexample :
    (clash_module.wire 0).is_inout
      ∧ clash_module.connections = []
      ∧ enable_map clash_module = .ok []
      ∧ ql_inout_module clash_module = .error Err.name_in_use :=
  ⟨by decide, rfl, rfl, rfl⟩

/-- C6, amended: in a module with pairwise distinct wire names whose connections
mention existing bits only, let `W` be an inout wire none of whose bound signals
(the sources of the connections with target `W`) is printed as a key of the
enable map; `W` may have no connection at all.  When the pass completes, the
wires `W_$in`, `W_$out` and `W_$en` exist and no connection of the resulting list
has a bit of `W_$en` in its target. -/
theorem C6_no_enable_no_connection (m m2 : Module) (i : Nat)
    (en : List (String × SigSpec))
    (hwf : m.names_distinct) (hvalid : m.connections_valid = true)
    (hi : i < m.wires.length) (hio : (m.wire i).is_inout)
    (hen : enable_map m = .ok en)
    (hno : ∀ c ∈ m.connections, SigSpec.as_wire m c.1 = .ok i →
      map_find (log_signal m c.2) en = none)
    (hrun : ql_inout_module m = .ok m2) :
    (m2.wire i).name = (m.wire i).name ++ "_$in"
      ∧ (∃ o, o < m2.wires.length ∧ (m2.wire o).name = (m.wire i).name ++ "_$out")
      ∧ ∃ e, e < m2.wires.length ∧ (m2.wire e).name = (m.wire i).name ++ "_$en"
          ∧ ∀ c ∈ m2.connections, ∀ b ∈ c.1, ∀ off, b ≠ SigBit.wire e off := by
  obtain ⟨en2, hen2, hd1, hconn, hall⟩ := ql_inout_module_connections hwf hrun
  rw [hen] at hen2
  simp only [Except.ok.injEq] at hen2
  subst hen2
  have hiv : i ∈ find_inout_wires 0 m.wires := (mem_inout_vec m i).2 ⟨hi, hio⟩
  have hvne : find_inout_wires 0 m.wires ≠ [] := List.ne_nil_of_mem hiv
  obtain ⟨p, hp, hf, ho, he⟩ := recorded_ports_find hd1 hiv
  have hpl : p < (find_inout_wires 0 m.wires).length := by
    by_contra h
    rw [List.getElem?_eq_none (by omega)] at hp
    cases hp
  have hlen := wires_length_after hrun
  have hwi := wire_after_lt hrun hi
  rw [if_pos hio] at hwi
  refine ⟨by rw [hwi]; rfl, ⟨m.wires.length + 2 * p, by omega, ?_⟩,
    m.wires.length + 2 * p + 1, by omega, ?_, ?_⟩
  · rw [wire_after_ge_eq hrun (by omega), ho]; rfl
  · rw [wire_after_ge_eq hrun (by omega), he]; rfl
  · intro c hc b hb off hboff
    subst hboff
    rw [hconn, List.mem_append] at hc
    rcases hc with hc | hc
    · rw [List.mem_map] at hc
      obtain ⟨c0, hc0, rfl⟩ := hc
      have hv0 := (connections_valid_mem hvalid hc0).1
      have hold : SigBit.wire (m.wires.length + 2 * p + 1) off ∉ c0.1 := by
        intro h
        have := (valid_wire_bit hv0 h).1
        omega
      unfold rewrite_all at hb
      cases hw : SigSpec.as_wire (with_new_ports m) c0.1 with
      | error e =>
        rw [hw] at hb
        exact hold hb
      | ok t =>
        rw [hw] at hb
        simp only at hb
        by_cases htv : t ∈ find_inout_wires 0 m.wires
        · rw [if_pos htv] at hb
          obtain ⟨htl, -⟩ := (mem_inout_vec m t).1 htv
          obtain ⟨pt, -, hft, -, -⟩ := recorded_ports_find hd1 htv
          rw [with_new_ports_wire_lt m htl, hft] at hb
          obtain ⟨off2, h2⟩ := mem_ofWire hb
          simp only [SigBit.wire.injEq] at h2
          omega
        · rw [if_neg htv] at hb
          exact hold hb
    · obtain ⟨j, hjv, info, hfj, hcj⟩ := mem_all_enable_connections hc
      obtain ⟨hjl, -⟩ := (mem_inout_vec m j).1 hjv
      obtain ⟨pj, hpj, hfj2, -, -⟩ := recorded_ports_find hd1 hjv
      rw [with_new_ports_wire_lt m hjl, hfj2] at hfj
      simp only [Option.some.injEq] at hfj
      subst hfj
      obtain ⟨s, sig, hs, hfs, rfl⟩ := mem_enable_connections hcj
      obtain ⟨off2, h2⟩ := mem_ofWire hb
      simp only [SigBit.wire.injEq] at h2
      have hpp : pj = p := by omega
      subst hpp
      rw [hp] at hpj
      simp only [Option.some.injEq] at hpj
      subst hpj
      simp only [bound_signal_names, List.mem_map, List.mem_filter, decide_eq_true_eq] at hs
      obtain ⟨c0, ⟨hc0, hname⟩, rfl⟩ := hs
      obtain ⟨hv1, hv2⟩ := connections_valid_mem hvalid hc0
      obtain ⟨t, ht⟩ := hall hvne c0 hc0
      obtain ⟨-, offt, rest, hst⟩ := as_wire_ok_iff ht
      have htl : t < m.wires.length :=
        (valid_wire_bit hv1 (by rw [hst]; exact List.mem_cons_self _ _)).1
      rw [log_signal_of_as_wire ht (valid_with_new_ports hv1),
        with_new_ports_wire_lt m htl] at hname
      have hti : t = i := (names_distinct_iff m).1 hwf t i htl hi hname
      subst hti
      have hsrc : log_signal (with_new_ports m) c0.2 = log_signal m c0.2 :=
        log_signal_congr (fun w off3 hmem =>
          with_new_ports_wire_lt m (valid_wire_bit hv2 hmem).1)
      rw [hsrc, hno c0 hc0 ((as_wire_of_with_new_ports htl).1 ht)] at hfs
      cases hfs

/-- The hypotheses of the amended C6 hold for the inout wire of
`undriven_module`: its bound signal `\N` is not a key of the (empty) enable map. -/
theorem C6_no_enable_no_connection_witness :
    ql_inout_module undriven_module = .ok undriven_module_after
      ∧ enable_map undriven_module = .ok []
      ∧ ∃ e, e < undriven_module_after.wires.length
          ∧ (undriven_module_after.wire e).name = (undriven_module.wire 0).name ++ "_$en"
          ∧ ∀ c ∈ undriven_module_after.connections, ∀ b ∈ c.1, ∀ off,
              b ≠ SigBit.wire e off :=
  ⟨rfl, rfl, (C6_no_enable_no_connection undriven_module undriven_module_after 0 []
    (by decide) (by decide) (by decide) (by decide) rfl (fun _ _ _ => rfl) rfl).2.2⟩

/-- C7: on a design without inout wires the pass, when it completes, returns the
design as it was; but the second half of the claim fails at the design made of
`offset_module`: the first run completes and leaves the connection
`\W_$en <- \S` whose two sides differ in width, and the second run stops in
`SigMap sigmap(module)` at the assertion of `SigMap::add`. -/
theorem C7_no_op_and_second_run :
    (∀ (fuel : Nat) (design design2 : Design),
        (∀ m ∈ design, ∀ w ∈ m.wires, ¬ w.is_inout) →
        execute fuel design = some (.ok design2) → design2 = design)
      ∧ execute 2 [offset_module] = some (.ok [offset_module_after])
      ∧ execute 2 [offset_module_after] = some (.error Err.width_mismatch) := by
  refine ⟨?_, rfl, rfl⟩
  intro fuel design design2 hno hrun
  have hall := execute_modules_ok (execute_ok hrun)
  clear hrun
  induction hall with
  | nil => rfl
  | @cons m m2 rest rest2 h _ ih =>
    have hm : m2 = m := by
      have hv : find_inout_wires 0 m.wires = [] := by
        apply List.eq_nil_iff_forall_not_mem.2
        intro j hj
        obtain ⟨hj1, hj2⟩ := (mem_inout_vec m j).1 hj
        exact hno m (List.mem_cons_self _ _) _ ((Module.mem_wires_iff m _).2 ⟨j, hj1, rfl⟩) hj2
      obtain ⟨sigmap, m1, mp, en, -, h1, -, h3⟩ := ql_inout_module_ok h
      rw [hv] at h1 h3
      simp only [add_ports, Except.ok.injEq, Prod.mk.injEq] at h1
      simp only [rewrite_ports, Except.ok.injEq] at h3
      rw [← h3, ← h1.1]
    rw [hm, ih (fun m hm => hno m (List.mem_cons_of_mem _ hm))]

/-- C8, at the failing input `slice_module`: the module has the inout wire `\W`
and a connection whose target is the bit slice `\V [0]`; `is_wire` is false for
that target, and the rewrite stops at the assertion of `as_wire` in line 161. -/
theorem C8_as_wire_fails_on_slice :
    (slice_module.wire 0).is_inout
      ∧ slice_module.connections = [([SigBit.wire 1 0], [SigBit.wire 2 0])]
      ∧ log_signal slice_module [SigBit.wire 1 0] = "\\V [0]"
      ∧ SigSpec.is_wire slice_module [SigBit.wire 1 0] = false
      ∧ ql_inout_module slice_module = .error Err.not_a_wire :=
  ⟨by decide, rfl, by decide, rfl, rfl⟩

/-- C9, at the failing input `tribuf_module`: the cell `$T` is of kind `$tribuf`,
has a `Y` connection and no connection point named `S` (its enable port is
`EN`); reading the select port in line 137 fails, so the enable signal locator
returns no map and the pass stops. -/
theorem C9_getPort_fails_on_tribuf :
    tribuf_module.cells.map (fun c => (c.type, c.connections.map (fun p => p.1)))
        = [("$tribuf", ["\\A", "\\EN", "\\Y"])]
      ∧ enable_map tribuf_module = .error Err.no_such_port
      ∧ ql_inout_module tribuf_module = .error Err.no_such_port :=
  ⟨rfl, rfl, rfl⟩

/-- C10, as stated, fails: `scenario_module` has the inout port `\IO`, the pass
completes, and the mutated module has no wire named `\IO_in`. -/
theorem C10_counterexample :
    (scenario_module.wire 0).is_inout
      ∧ (scenario_module.wire 0).name = "\\IO"
      ∧ ql_inout_module scenario_module = .ok scenario_module_after
      ∧ ∀ w ∈ scenario_module_after.wires, w.name ≠ "\\IO" ++ "_in" :=
  ⟨by decide, rfl, rfl, by decide⟩

/-- C10, amended: for every inout port named `<name>`, the module on which the
pass has completed contains a wire `<name>_$in` that is input-only, a wire
`<name>_$out` that is output-only and a wire `<name>_$en` that is output-only;
the input alias of the original port is the wire named `<name>_$in`. -/
theorem C10_port_triple (m m2 : Module) (i : Nat)
    (hi : i < m.wires.length) (hio : (m.wire i).is_inout)
    (hrun : ql_inout_module m = .ok m2) :
    (m2.wire i ∈ m2.wires ∧ (m2.wire i).name = (m.wire i).name ++ "_$in"
        ∧ (m2.wire i).port_input = true ∧ (m2.wire i).port_output = false)
      ∧ (∃ w ∈ m2.wires, w.name = (m.wire i).name ++ "_$out"
          ∧ w.port_input = false ∧ w.port_output = true)
      ∧ (∃ w ∈ m2.wires, w.name = (m.wire i).name ++ "_$en"
          ∧ w.port_input = false ∧ w.port_output = true) := by
  obtain ⟨hw, -, -⟩ := ql_inout_module_wires hrun
  have hiv : i ∈ find_inout_wires 0 m.wires := (mem_inout_vec m i).2 ⟨hi, hio⟩
  have hwi := wire_after_lt hrun hi
  rw [if_pos hio] at hwi
  have hi2 : i < m2.wires.length := by
    rw [hw]; simp only [List.length_append, List.length_map]; omega
  refine ⟨⟨(Module.mem_wires_iff m2 _).2 ⟨i, hi2, rfl⟩, ?_, ?_, ?_⟩, ?_, ?_⟩
  · rw [hwi]; rfl
  · rw [hwi]; exact hio.1
  · rw [hwi]; rfl
  · refine ⟨out_wire_of (m.wire i), ?_, rfl, rfl, rfl⟩
    rw [hw]
    exact List.mem_append_right _ (mem_new_wires.2 ⟨i, hiv, Or.inl rfl⟩)
  · refine ⟨en_wire_of (m.wire i), ?_, rfl, rfl, rfl⟩
    rw [hw]
    exact List.mem_append_right _ (mem_new_wires.2 ⟨i, hiv, Or.inr rfl⟩)

/-- The hypotheses of the amended C10 hold for the inout port of
`scenario_module`. -/
theorem C10_port_triple_witness :
    ql_inout_module scenario_module = .ok scenario_module_after
      ∧ (scenario_module_after.wire 0).name = (scenario_module.wire 0).name ++ "_$in" :=
  ⟨rfl, (C10_port_triple scenario_module scenario_module_after 0 (by decide) (by decide)
    rfl).1.2.1⟩

/-- C11, as stated, fails: on the design made of `scenario_module` the single
pass performs a rename (the module has one inout wire), and no further pass is
made; on the design made of `scenario_module_after`, which has no inout port at
all, one pass is made, more than the number of inout ports. -/
theorem C11_counterexample :
    inout_port_count [scenario_module] = 1
      ∧ execute_modules [scenario_module] = .ok [scenario_module_after]
      ∧ (∀ fuel, execute_loop_passes (fuel + 2) true [scenario_module] = some 1)
      ∧ inout_port_count [scenario_module_after] = 0
      ∧ (∀ fuel, execute_loop_passes (fuel + 2) true [scenario_module_after] = some 1)
      ∧ ¬ (1 ≤ inout_port_count [scenario_module_after]) :=
  ⟨rfl, rfl, fun _ => rfl, rfl, fun _ => rfl, by decide⟩

/-- C11, amended: `execute` terminates on every design, two rounds of fuel being
enough, and its result is that of one pass over the modules; the body of the
loop is entered exactly once, whatever the number of renames and of inout
ports; and a completed pass leaves no inout-flagged wire in any module, which
for a module with at least one inout-flagged wire is strictly fewer. -/
theorem C11_single_pass (fuel : Nat) (design : Design) :
    execute (fuel + 2) design = some (execute_modules design)
      ∧ execute_loop_passes (fuel + 2) true design = some 1
      ∧ ∀ design2, execute_modules design = .ok design2 →
          inout_port_count design2 = 0
            ∧ List.Forall₂ (fun m m2 =>
                (∀ w ∈ m2.wires, ¬ w.is_inout)
                  ∧ (0 < (find_inout_wires 0 m.wires).length →
                      (find_inout_wires 0 m2.wires).length
                        < (find_inout_wires 0 m.wires).length))
                design design2 := by
  refine ⟨execute_of_modules fuel design, ?_, ?_⟩
  · simp only [execute_loop_passes, if_true]
    cases execute_modules design with
    | error e => rfl
    | ok d => rfl
  · intro design2 h
    have hall := execute_modules_ok h
    have hzero : ∀ {m m2 : Module}, ql_inout_module m = .ok m2 →
        (find_inout_wires 0 m2.wires).length = 0 := by
      intro m m2 hok
      rw [find_inout_wires_length, List.length_eq_zero, List.filter_eq_nil_iff]
      intro w hw
      simpa using no_inout_after_module hok w hw
    constructor
    · unfold inout_port_count
      clear h
      induction hall with
      | nil => rfl
      | cons hok _ ih => simp [hzero hok, ih]
    · refine hall.imp ?_
      intro m m2 hok
      refine ⟨no_inout_after_module hok, fun hpos => ?_⟩
      rw [hzero hok]
      exact hpos

/-- C12: when the enable signal locator returns a map, a name `k` is a key of it
if and only if some cell with a connection point `Y` whose signal is printed as
`k` is of a buffer kind (`$_TBUF_`, `$tribuf`) or of a multiplexer kind (`$mux`,
`$pmux`, `$_MUX_`) with a bit of its `A` or `B` input that `sigmap` takes to the
high-impedance constant; no other cell contributes a key, and the value recorded
for a key is the `S` port of such a cell.  Signals are printed as line 140 prints
them, with the new ports already in the wire table. -/
theorem C12_enable_map_characterised (m : Module) (sm : SigMap)
    (en : List (String × SigSpec)) (k : String)
    (hsm : SigMap.ofModule m = .ok sm) (hen : enable_map m = .ok en) :
    (map_find k en ≠ none ↔
        ∃ cell ∈ m.cells,
          (is_tribuf_type cell.type = true
            ∨ (is_mux_type cell.type = true
                ∧ ∃ p ∈ cell.connections, (p.1 = "\\A" ∨ p.1 = "\\B")
                    ∧ ∃ b ∈ p.2, sm b = SigBit.const State.Sz))
          ∧ ∃ y, cell.getPort "\\Y" = .ok y ∧ log_signal (with_new_ports m) y = k)
      ∧ ∀ v, map_find k en = some v →
          ∃ cell ∈ m.cells,
            (is_tribuf_type cell.type = true
              ∨ (is_mux_type cell.type = true
                  ∧ ∃ p ∈ cell.connections, (p.1 = "\\A" ∨ p.1 = "\\B")
                      ∧ ∃ b ∈ p.2, sm b = SigBit.const State.Sz))
            ∧ (∃ y, cell.getPort "\\Y" = .ok y ∧ log_signal (with_new_ports m) y = k)
            ∧ cell.getPort "\\S" = .ok v := by
  obtain ⟨sm2, hsm2, hfind, hS⟩ := enable_map_ok hen
  rw [hsm] at hsm2
  simp only [Except.ok.injEq] at hsm2
  subst hsm2
  have hval : ∀ v, map_find k en = some v →
      ∃ cell ∈ m.cells, cell.is_tristate sm = true
        ∧ (∃ y, cell.getPort "\\Y" = .ok y ∧ log_signal (with_new_ports m) y = k)
        ∧ cell.getPort "\\S" = .ok v := by
    intro v hv
    rw [hfind] at hv
    exact mem_enable_entries.1 (map_find_some_mem hv)
  constructor
  · constructor
    · intro hne
      cases hv : map_find k en with
      | none => exact absurd hv hne
      | some v =>
        obtain ⟨cell, hc, ht, hy, -⟩ := hval v hv
        exact ⟨cell, hc, (is_tristate_iff sm cell).1 ht, hy⟩
    · rintro ⟨cell, hc, ht, y, hy, hk⟩
      have ht2 := (is_tristate_iff sm cell).2 ht
      obtain ⟨s, hs⟩ := hS cell hc ht2 y hy
      rw [hfind]
      intro hnone
      have hmem : (k, s) ∈ enable_entries (with_new_ports m) sm m.cells :=
        mem_enable_entries.2 ⟨cell, hc, ht2, ⟨y, hy, hk⟩, hs⟩
      exact (map_find_eq_none_iff k _).1 hnone _ hmem rfl
  · intro v hv
    obtain ⟨cell, hc, ht, hy, hs⟩ := hval v hv
    exact ⟨cell, hc, (is_tristate_iff sm cell).1 ht, hy, hs⟩

/-- The hypotheses of C12 hold for `scenario_module`, whose enable map has the
key `\N`. -/
theorem C12_enable_map_characterised_witness :
    enable_map scenario_module = .ok [("\\N", [SigBit.wire 2 0])]
      ∧ ∃ cell ∈ scenario_module.cells,
          (∃ y, cell.getPort "\\Y" = .ok y
            ∧ log_signal (with_new_ports scenario_module) y = "\\N")
          ∧ cell.getPort "\\S" = .ok [SigBit.wire 2 0] := by
  refine ⟨rfl, ?_⟩
  obtain ⟨cell, hc, -, hy, hs⟩ := (C12_enable_map_characterised scenario_module
    (SigMap.add_bits SigMap.empty [(SigBit.wire 0 0, SigBit.wire 1 0)])
    [("\\N", [SigBit.wire 2 0])] "\\N" rfl rfl).2 [SigBit.wire 2 0] rfl
  exact ⟨cell, hc, hy, hs⟩

/-- C13, as stated, fails: in `two_driver_module` the cells `$T1` and `$T2` are
both tristate-capable with the output `\N`; `$T2`, with select `\S2`, is scanned
last, and the enable map holds `\S1`, the select of `$T1`. -/
theorem C13_counterexample :
    two_driver_module.cells.map (fun c => (c.name, c.getPort "\\Y", c.getPort "\\S"))
        = [("$T1", .ok [SigBit.wire 1 0], .ok [SigBit.wire 2 0]),
           ("$T2", .ok [SigBit.wire 1 0], .ok [SigBit.wire 3 0])]
      ∧ enable_map two_driver_module = .ok [("\\N", [SigBit.wire 2 0])]
      ∧ map_find "\\N" [("\\N", [SigBit.wire 2 0])] ≠ some [SigBit.wire 3 0] :=
  ⟨rfl, rfl, by decide⟩

/-- C13, amended (first wins): when the enable signal locator returns a map and
several tristate-capable cells have the same printed output signal `Y`, the map
holds the select signal of the cell scanned first: the mapping recorded for a
cell is not overwritten by a later cell. -/
theorem C13_first_wins (m : Module) (sm : SigMap) (en : List (String × SigSpec))
    (before : List Cell) (cell : Cell) (after : List Cell) (y s : SigSpec)
    (hsm : SigMap.ofModule m = .ok sm) (hen : enable_map m = .ok en)
    (hcells : m.cells = before ++ cell :: after)
    (htri : cell.is_tristate sm = true)
    (hy : cell.getPort "\\Y" = .ok y) (hs : cell.getPort "\\S" = .ok s)
    (hfirst : ∀ c ∈ before, c.is_tristate sm = true → ∀ y2, c.getPort "\\Y" = .ok y2 →
      log_signal (with_new_ports m) y2 ≠ log_signal (with_new_ports m) y) :
    map_find (log_signal (with_new_ports m) y) en = some s := by
  obtain ⟨sm2, hsm2, hfind, -⟩ := enable_map_ok hen
  rw [hsm] at hsm2
  simp only [Except.ok.injEq] at hsm2
  subst hsm2
  rw [hfind, hcells]
  unfold enable_entries
  rw [List.filterMap_append, map_find_append]
  have hnone : map_find (log_signal (with_new_ports m) y)
      (List.filterMap (Cell.enable_entry (with_new_ports m) sm) before) = none := by
    rw [map_find_eq_none_iff]
    intro e he hk
    obtain ⟨c, hc, ht, ⟨y2, hy2, hk2⟩, -⟩ :=
      (@mem_enable_entries (with_new_ports m) sm before e.1 e.2).1 he
    exact hfirst c hc ht y2 hy2 (hk2.trans hk)
  rw [hnone]
  simp only [List.filterMap_cons]
  have hentry : cell.enable_entry (with_new_ports m) sm
      = some (log_signal (with_new_ports m) y, s) := by
    unfold Cell.enable_entry
    rw [if_pos htri, hy, hs]
  rw [hentry]
  simp [map_find]

/-- The hypotheses of the amended C13 hold for `two_driver_module` and its first
cell `$T1`. -/
theorem C13_first_wins_witness :
    enable_map two_driver_module = .ok [("\\N", [SigBit.wire 2 0])]
      ∧ map_find (log_signal (with_new_ports two_driver_module) [SigBit.wire 1 0])
          [("\\N", [SigBit.wire 2 0])] = some [SigBit.wire 2 0] :=
  ⟨rfl, C13_first_wins two_driver_module
    (SigMap.add_bits SigMap.empty [(SigBit.wire 0 0, SigBit.wire 1 0)])
    [("\\N", [SigBit.wire 2 0])] []
    { name := "$T1", type := "$mux",
      connections := [("\\A", [SigBit.wire 4 0]), ("\\B", [SigBit.const State.Sz]),
                      ("\\S", [SigBit.wire 2 0]), ("\\Y", [SigBit.wire 1 0])] }
    [{ name := "$T2", type := "$mux",
       connections := [("\\A", [SigBit.const State.Sz]), ("\\B", [SigBit.wire 4 0]),
                       ("\\S", [SigBit.wire 3 0]), ("\\Y", [SigBit.wire 1 0])] }]
    [SigBit.wire 1 0] [SigBit.wire 2 0] rfl rfl rfl rfl rfl rfl
    (fun c hc => by simp at hc)⟩

/-- C14, at the failing input `alias_module`: the inout wire `\IO` is bound to
`\N`, the net `\N` is driven from the output `\Y` of a tristate-capable cell by
the connection `\N <- \Y`, and `assign_map` is empty, so the key of the enable map
is `\Y`, the lookup of `\N` finds nothing, and no connection for `\IO_$en`
(handle 6) is added. -/
theorem C14_alias_lookup_misses :
    alias_module.connections
        = [([SigBit.wire 0 0], [SigBit.wire 1 0]), ([SigBit.wire 1 0], [SigBit.wire 2 0])]
      ∧ enable_map alias_module = .ok [("\\Y", [SigBit.wire 3 0])]
      ∧ bound_signal_names (with_new_ports alias_module) "\\IO" alias_module.connections
          = ["\\N"]
      ∧ map_find "\\N" [("\\Y", [SigBit.wire 3 0])] = (none : Option SigSpec)
      ∧ (∀ sig, assign_map.apply sig = sig)
      ∧ ql_inout_module alias_module = .ok alias_module_after
      ∧ (alias_module_after.wire 6).name = "\\IO_$en"
      ∧ ∀ c ∈ alias_module_after.connections, c.1 ≠ SigSpec.ofWire alias_module_after 6 :=
  ⟨rfl, rfl, by decide, rfl, assign_map_apply, rfl, rfl, by decide⟩

/-- C15: in a module with pairwise distinct wire names whose connections mention
existing bits only, let `W` be an inout wire and `s1, ..., sm` the sources of the
connections with target `W`, in list order.  When the pass completes, the
resulting connection list consists of at least as many connections as the module
had, followed by the block for `W`: one connection with target `W_$en` for each
`si` that is printed as a key of the enable map, in order and with multiplicity,
and none for the other `si`; no other connection of the list has a bit of `W_$en`
in its target, so the block has as many connections as there are matching bound
signals. -/
theorem C15_one_enable_connection_per_match (m m2 : Module) (i : Nat)
    (en : List (String × SigSpec))
    (hwf : m.names_distinct) (hvalid : m.connections_valid = true)
    (hi : i < m.wires.length) (hio : (m.wire i).is_inout)
    (hen : enable_map m = .ok en)
    (hrun : ql_inout_module m = .ok m2) :
    ∃ e pre post, e < m2.wires.length
      ∧ (m2.wire e).name = (m.wire i).name ++ "_$en"
      ∧ m.connections.length ≤ pre.length
      ∧ m2.connections
          = pre
            ++ (bound_signals m i).filterMap (fun s =>
                (map_find (log_signal m s) en).map (fun v =>
                  (SigSpec.ofWire m2 e, enable_source (m.wire i) v)))
            ++ post
      ∧ (∀ c ∈ pre ++ post, ∀ b ∈ c.1, ∀ off, b ≠ SigBit.wire e off)
      ∧ m2.connections.length
          = pre.length
            + ((bound_signals m i).filter (fun s =>
                (map_find (log_signal m s) en).isSome)).length
            + post.length := by
  obtain ⟨en2, hen2, hd1, hconn, hall⟩ := ql_inout_module_connections hwf hrun
  rw [hen] at hen2
  simp only [Except.ok.injEq] at hen2
  subst hen2
  have hiv : i ∈ find_inout_wires 0 m.wires := (mem_inout_vec m i).2 ⟨hi, hio⟩
  have hvne : find_inout_wires 0 m.wires ≠ [] := List.ne_nil_of_mem hiv
  obtain ⟨p, hp, hf, ho, he⟩ := recorded_ports_find hd1 hiv
  have hpl : p < (find_inout_wires 0 m.wires).length := by
    by_contra h
    rw [List.getElem?_eq_none (by omega)] at hp
    cases hp
  have hlen := wires_length_after hrun
  obtain ⟨hnt, hnd⟩ := not_mem_take_drop (find_inout_wires_nodup _ _) hp
  have hblock : enable_connections (with_new_ports m) i (m.wires.length + 2 * p + 1) en
        (bound_signal_names (with_new_ports m) (m.wire i).name m.connections)
      = (bound_signals m i).filterMap (fun s =>
          (map_find (log_signal m s) en).map (fun v =>
            (SigSpec.ofWire m2 (m.wires.length + 2 * p + 1), enable_source (m.wire i) v))) := by
    unfold enable_connections
    rw [bound_signal_names_eq hwf hvalid hi (hall hvne), List.filterMap_map,
      ofWire_congr (width_after hrun), with_new_ports_wire_lt m hi]
    rfl
  have hsplit := all_enable_connections_at hd1 en hp
  rw [hblock] at hsplit
  have heq : m2.connections
      = (m.connections.map (rewrite_all (with_new_ports m) (recorded_ports m)
            (find_inout_wires 0 m.wires))
          ++ all_enable_connections (with_new_ports m) (recorded_ports m) en
              ((find_inout_wires 0 m.wires).take p))
        ++ (bound_signals m i).filterMap (fun s =>
            (map_find (log_signal m s) en).map (fun v =>
              (SigSpec.ofWire m2 (m.wires.length + 2 * p + 1), enable_source (m.wire i) v)))
        ++ all_enable_connections (with_new_ports m) (recorded_ports m) en
            ((find_inout_wires 0 m.wires).drop (p + 1)) := by
    rw [hconn, hsplit]
    simp only [List.append_assoc]
  refine ⟨m.wires.length + 2 * p + 1, _, _, by omega, ?_, ?_, heq, ?_, ?_⟩
  · rw [wire_after_ge_eq hrun (by omega), he]; rfl
  · simp
  · intro c hc b hb off
    rw [List.mem_append, List.mem_append] at hc
    rcases hc with (hc | hc) | hc
    · rw [List.mem_map] at hc
      obtain ⟨c0, hc0, rfl⟩ := hc
      exact rewritten_target_bits hd1 hvalid hc0 hb p off
    · exact other_enable_target_bits hd1 (fun j hj => List.mem_of_mem_take hj) hnt hp hc hb off
    · exact other_enable_target_bits hd1 (fun j hj => List.mem_of_mem_drop hj) hnd hp hc hb off
  · rw [heq]
    simp only [List.length_append, length_filterMap_option_map]

/-- The hypotheses of C15 hold for the inout wire of `multi_module`, which is the
target of three connections: the two from `\N`, a key of the enable map, give one
connection to `\IO_$en` each, the one from `\D` gives none. -/
theorem C15_one_enable_connection_per_match_witness :
    ql_inout_module multi_module = .ok multi_module_after
      ∧ enable_map multi_module = .ok [("\\N", [SigBit.wire 2 0])]
      ∧ bound_signals multi_module 0
          = [[SigBit.wire 4 0], [SigBit.wire 1 0], [SigBit.wire 1 0]]
      ∧ multi_module_after.connections.drop 3
          = [([SigBit.wire 6 0], [SigBit.wire 2 0]), ([SigBit.wire 6 0], [SigBit.wire 2 0])]
      ∧ ∃ e pre post, e < multi_module_after.wires.length
          ∧ (multi_module_after.wire e).name = (multi_module.wire 0).name ++ "_$en"
          ∧ multi_module.connections.length ≤ pre.length
          ∧ multi_module_after.connections
              = pre
                ++ (bound_signals multi_module 0).filterMap (fun s =>
                    (map_find (log_signal multi_module s) [("\\N", [SigBit.wire 2 0])]).map
                      (fun v => (SigSpec.ofWire multi_module_after e,
                        enable_source (multi_module.wire 0) v)))
                ++ post
          ∧ (∀ c ∈ pre ++ post, ∀ b ∈ c.1, ∀ off, b ≠ SigBit.wire e off)
          ∧ multi_module_after.connections.length
              = pre.length
                + ((bound_signals multi_module 0).filter (fun s =>
                    (map_find (log_signal multi_module s)
                      [("\\N", [SigBit.wire 2 0])]).isSome)).length
                + post.length :=
  ⟨rfl, rfl, rfl, rfl,
    C15_one_enable_connection_per_match multi_module multi_module_after 0
      [("\\N", [SigBit.wire 2 0])] (by decide) (by decide) (by decide) (by decide) rfl rfl⟩

/-- C16: the source that lines 185-190 build for a wire of width `n` and start
offset `s` and a matched select signal is the select signal concatenated
`|n - s - 1| + 1` times; for `s = 0` and `n ≥ 1` that is `n` copies, of total
length `n` for a one-bit select; and every connection the pass appends is an
enable connection whose source is an enable-map value replicated in this way
for an inout wire of the module. -/
theorem C16_replication_count (m m2 : Module) (en : List (String × SigSpec))
    (hd : m.names_distinct) (hen : enable_map m = .ok en)
    (hok : ql_inout_module m = .ok m2) :
    (∀ (wire : Wire) (sel : SigSpec),
        enable_source wire sel
          = (List.replicate (Int.natAbs ((wire.width : Int) - wire.start_offset - 1) + 1)
              sel).flatten)
      ∧ (∀ (wire : Wire) (sel : SigSpec), wire.start_offset = 0 → 1 ≤ wire.width →
          enable_source wire sel = (List.replicate wire.width sel).flatten
            ∧ (sel.length = 1 → (enable_source wire sel).length = wire.width))
      ∧ ∀ c ∈ m2.connections.drop m.connections.length,
          ∃ i e k sel, i < m.wires.length ∧ (m.wire i).is_inout
            ∧ e < m2.wires.length ∧ (m2.wire e).name = (m.wire i).name ++ "_$en"
            ∧ map_find k en = some sel
            ∧ c.1 = SigSpec.ofWire m2 e
            ∧ c.2 = (List.replicate
                (Int.natAbs (((m.wire i).width : Int) - (m.wire i).start_offset - 1) + 1)
                sel).flatten := by
  refine ⟨enable_source_eq, ?_, ?_⟩
  · intro wire sel hs hw
    have hn : Int.natAbs ((wire.width : Int) - wire.start_offset - 1) + 1 = wire.width := by
      rw [hs]
      omega
    have h := enable_source_eq wire sel
    rw [hn] at h
    refine ⟨h, fun h1 => ?_⟩
    rw [h, List.length_flatten]
    simp [h1]
  · intro c hc
    obtain ⟨i, e, k, v, hi, hio, he, hname, hf, rfl⟩ := appended_connections hd hen hok c hc
    exact ⟨i, e, k, v, hi, hio, he, hname, hf, rfl, enable_source_eq _ _⟩

/-- The hypotheses of C16 hold for `wide_module`, whose inout wire has width 4:
the appended connection has the select signal four times as its source. -/
theorem C16_replication_count_witness :
    wide_module.names_distinct
      ∧ ql_inout_module wide_module = .ok wide_module_after
      ∧ wide_module_after.connections.drop wide_module.connections.length
          = [(SigSpec.ofWire wide_module_after 5,
              [SigBit.wire 2 0, SigBit.wire 2 0, SigBit.wire 2 0, SigBit.wire 2 0])]
      ∧ ∀ (wire : Wire) (sel : SigSpec),
          enable_source wire sel
            = (List.replicate (Int.natAbs ((wire.width : Int) - wire.start_offset - 1) + 1)
                sel).flatten :=
  ⟨by decide, rfl, rfl,
    (C16_replication_count wide_module wide_module_after [("\\N", [SigBit.wire 2 0])]
      (by decide) rfl rfl).1⟩

/-- C17: let `cell` be a cell of a module (of any kind, so in particular a `$mux`
or `$_MUX_` cell) with distinct port names and signals `a` on port `A` and `b` on
port `B`.  In the module where the cell has `b` on `A` and `a` on `B` instead,
the enable map is the same, and the pass gives the same result, error or module,
the module differing in that one cell only; the entry the cell offers to the
enable map is the same, and its value is the signal of port `S` in both cells. -/
theorem C17_data_inputs_exchanged (m : Module) (pre post : List Cell) (cell : Cell)
    (a b : SigSpec) (hcells : m.cells = pre ++ cell :: post)
    (hports : (cell.connections.map (fun p => p.1)).Nodup)
    (ha : cell.getPort "\\A" = .ok a) (hb : cell.getPort "\\B" = .ok b) :
    (cell.swap_AB a b).getPort "\\A" = .ok b
      ∧ (cell.swap_AB a b).getPort "\\B" = .ok a
      ∧ enable_map (m.setCells (pre ++ cell.swap_AB a b :: post)) = enable_map m
      ∧ ql_inout_module (m.setCells (pre ++ cell.swap_AB a b :: post))
          = (ql_inout_module m).map
              (fun m2 => m2.setCells (pre ++ cell.swap_AB a b :: post))
      ∧ ∀ (mm : Module) (sm : SigMap),
          Cell.enable_entry mm sm (cell.swap_AB a b) = Cell.enable_entry mm sm cell
            ∧ ∀ k s, Cell.enable_entry mm sm cell = some (k, s) →
                cell.getPort "\\S" = .ok s ∧ (cell.swap_AB a b).getPort "\\S" = .ok s := by
  have hn : (pre ++ cell.swap_AB a b :: post).map (fun c => c.name)
      = m.cells.map (fun c => c.name) := by
    rw [hcells]
    exact swap_in_list_names pre post cell a b
  have hrel : ∀ sm : SigMap, List.Forall₂ (fun c2 c =>
      c2.type = c.type ∧ has_z_data_input sm c2 = has_z_data_input sm c
        ∧ c2.getPort "\\S" = c.getPort "\\S" ∧ c2.getPort "\\Y" = c.getPort "\\Y"
        ∧ c2.connections.map (fun p => p.1) = c.connections.map (fun p => p.1))
      (pre ++ cell.swap_AB a b :: post) m.cells := by
    intro sm
    rw [hcells]
    exact swap_in_list_alike sm pre post hports ha hb
  obtain ⟨h1, h2⟩ := ql_inout_module_setCells hn hrel
  refine ⟨getPort_swap_A ha, getPort_swap_B hb, h1, h2, fun mm sm => ?_⟩
  refine ⟨enable_entry_swap mm sm hports ha hb, fun k s h => ?_⟩
  have hs := enable_entry_value h
  refine ⟨hs, ?_⟩
  rw [getPort_swap_other cell a b _ (by decide) (by decide)]
  exact hs

/-- The hypotheses of C17 hold for the multiplexer of `scenario_module`, which
has the high-impedance constant on `B`: with the constant on `A` instead, the
enable map and the wires and connections of the result are the same. -/
theorem C17_data_inputs_exchanged_witness :
    ({ name := "$T", type := "$mux",
       connections := [("\\A", [SigBit.wire 3 0]), ("\\B", [SigBit.const State.Sz]),
                       ("\\S", [SigBit.wire 2 0]), ("\\Y", [SigBit.wire 1 0])] } : Cell).swap_AB
        [SigBit.wire 3 0] [SigBit.const State.Sz]
      = { name := "$T", type := "$mux",
          connections := [("\\A", [SigBit.const State.Sz]), ("\\B", [SigBit.wire 3 0]),
                          ("\\S", [SigBit.wire 2 0]), ("\\Y", [SigBit.wire 1 0])] }
      ∧ enable_map (scenario_module.setCells
          [{ name := "$T", type := "$mux",
             connections := [("\\A", [SigBit.const State.Sz]), ("\\B", [SigBit.wire 3 0]),
                             ("\\S", [SigBit.wire 2 0]), ("\\Y", [SigBit.wire 1 0])] }])
          = enable_map scenario_module
      ∧ ql_inout_module (scenario_module.setCells
          [{ name := "$T", type := "$mux",
             connections := [("\\A", [SigBit.const State.Sz]), ("\\B", [SigBit.wire 3 0]),
                             ("\\S", [SigBit.wire 2 0]), ("\\Y", [SigBit.wire 1 0])] }])
          = (ql_inout_module scenario_module).map (fun m2 => m2.setCells
              [{ name := "$T", type := "$mux",
                 connections := [("\\A", [SigBit.const State.Sz]), ("\\B", [SigBit.wire 3 0]),
                                 ("\\S", [SigBit.wire 2 0]), ("\\Y", [SigBit.wire 1 0])] }]) :=
  ⟨rfl,
    (C17_data_inputs_exchanged scenario_module [] []
      { name := "$T", type := "$mux",
        connections := [("\\A", [SigBit.wire 3 0]), ("\\B", [SigBit.const State.Sz]),
                        ("\\S", [SigBit.wire 2 0]), ("\\Y", [SigBit.wire 1 0])] }
      [SigBit.wire 3 0] [SigBit.const State.Sz] rfl (by decide) rfl rfl).2.2.1,
    (C17_data_inputs_exchanged scenario_module [] []
      { name := "$T", type := "$mux",
        connections := [("\\A", [SigBit.wire 3 0]), ("\\B", [SigBit.const State.Sz]),
                        ("\\S", [SigBit.wire 2 0]), ("\\Y", [SigBit.wire 1 0])] }
      [SigBit.wire 3 0] [SigBit.const State.Sz] rfl (by decide) rfl rfl).2.2.2.1⟩

/-- C18: if the wire names of a module are pairwise distinct and, for every
inout wire `W`, none of `W_$in`, `W_$out` and `W_$en` is the name of an existing
wire, then the module the pass produces has pairwise distinct wire names and
exactly the original number of wires plus two for each inout wire.  (The proof
does not need the second hypothesis: the kernel checks that a name is unused
whenever a wire is added or renamed.) -/
theorem C18_names_stay_distinct (m m2 : Module) (hd : m.names_distinct)
    (_hfresh : ∀ w ∈ m.wires, w.is_inout → ∀ v ∈ m.wires,
      v.name ≠ w.name ++ "_$in" ∧ v.name ≠ w.name ++ "_$out" ∧ v.name ≠ w.name ++ "_$en")
    (hok : ql_inout_module m = .ok m2) :
    m2.names_distinct
      ∧ m2.wires.length
          = m.wires.length + 2 * (m.wires.filter (fun w => decide w.is_inout)).length := by
  refine ⟨names_distinct_after hd hok, ?_⟩
  rw [wires_length_after hok, find_inout_wires_length]

/-- The hypotheses of C18 hold for `scenario_module`, which has one inout wire. -/
theorem C18_names_stay_distinct_witness :
    scenario_module.names_distinct
      ∧ (∀ w ∈ scenario_module.wires, w.is_inout → ∀ v ∈ scenario_module.wires,
          v.name ≠ w.name ++ "_$in" ∧ v.name ≠ w.name ++ "_$out" ∧ v.name ≠ w.name ++ "_$en")
      ∧ ql_inout_module scenario_module = .ok scenario_module_after
      ∧ scenario_module_after.names_distinct
      ∧ scenario_module_after.wires.length = scenario_module.wires.length + 2 * 1 :=
  ⟨by decide, by decide, rfl,
    C18_names_stay_distinct scenario_module scenario_module_after (by decide) (by decide) rfl⟩

/-- C19: the module the pass produces has the cells of the original module,
unchanged; every wire that was not an inout port is unchanged, at its place in
the wire table; every inout wire differs only in its name, which gets `_$in`
appended, and in its output flag, which is cleared; and the wire table is
extended by exactly the `_$out` and `_$en` wires of the inout wires, in order. -/
theorem C19_frame (m m2 : Module) (hok : ql_inout_module m = .ok m2) :
    m2.cells = m.cells
      ∧ m2.name = m.name
      ∧ (∀ i, i < m.wires.length → ¬ (m.wire i).is_inout → m2.wire i = m.wire i)
      ∧ (∀ i, i < m.wires.length → (m.wire i).is_inout →
          m2.wire i
            = { m.wire i with name := (m.wire i).name ++ "_$in", port_output := false })
      ∧ m2.wires.take m.wires.length
          = m.wires.map (fun w => if w.is_inout then in_wire_of w else w)
      ∧ m2.wires.drop m.wires.length
          = (m.wires.filter (fun w => decide w.is_inout)).flatMap
              (fun w => [out_wire_of w, en_wire_of w]) := by
  obtain ⟨hw, hc, hn⟩ := ql_inout_module_wires hok
  have hl : (m.wires.map (fun w => if w.is_inout then in_wire_of w else w)).length
      = m.wires.length := by simp
  refine ⟨hc, hn, ?_, ?_, ?_, ?_⟩
  · intro i hi hio
    rw [wire_after_lt hok hi, if_neg hio]
  · intro i hi hio
    rw [wire_after_lt hok hi, if_pos hio]
    rfl
  · rw [hw, ← hl, List.take_left]
  · rw [hw, ← hl, List.drop_left]
    exact new_wires_eq_flatMap m [] m.wires rfl

/-- The hypothesis of C19 holds for `scenario_module`. -/
theorem C19_frame_witness :
    ql_inout_module scenario_module = .ok scenario_module_after
      ∧ scenario_module_after.cells = scenario_module.cells :=
  ⟨rfl, (C19_frame scenario_module scenario_module_after rfl).1⟩

end QLInout
